import Mathlib

/-!
# Zombie shooter: maze queries, A* path finding, maze generation and zombies

A shallow embedding of `src/zombie/maze.cpp`, `src/zombie/zombie.h`,
`src/zombie/zombie.cpp`, and of `hasLineOfSight` and the wall search of
`renderFirstPersonView` in `src/zombie/game.cpp`.

* The tile grid `std::vector<std::vector<TileType>>` is a total function
  `tiles y x`; the C++ `int` coordinates are `Int`.
* `float` path costs are counted in thousandths (`1.0f` is `1000`,
  `1.414f` is `1414`), so that `f = g + h` is compared exactly.
* `std::priority_queue` is a list from which a node of minimal `f` is
  removed; which of several minimal nodes is taken is left to a
  parameter `tie`, so that every theorem holds for every tie-breaking order.
* Random draws (`rand()`, `std::shuffle`, `std::mt19937`) are parameters.
* A `float` member or local of the zombie code is a rational number; the
  rounded operations are a parameter `FloatArith`, so that what is proved for
  every `FloatArith` holds for every rounding, `FloatArith.Single` marks what
  is proved for the rounding of IEEE 754 single precision, and
  `FloatArith.Exact` what is proved without rounding. Infinities and NaN are
  not values.
-/

namespace ZombieShooter

/-! ## Maze (maze.h, maze.cpp) -/

inductive TileType where
  | Empty
  | Wall
  | Exit
  | SafeRoom
  deriving DecidableEq, Repr

inductive MazeType where
  | STANDARD
  | CIRCULAR
  | INFINITE
  | SOLDIER
  deriving DecidableEq, Repr

abbrev TILE_SIZE : Int := 30
abbrev WIDTH : Int := 32
abbrev HEIGHT : Int := 24

/-- The grid of `Maze::tiles`, read as `tiles y x`. -/
abbrev Tiles := Int → Int → TileType

structure Maze where
  tiles : Tiles
  mazeType : MazeType

/-- `Maze::isWall`. -/
def Maze.isWall (m : Maze) (x y : Int) : Bool :=
  if x < 0 ∨ x ≥ WIDTH ∨ y < 0 ∨ y ≥ HEIGHT then true
  else decide (m.tiles y x = TileType.Wall)

/-- `Maze::isExit`. -/
def Maze.isExit (m : Maze) (x y : Int) : Bool :=
  if x < 0 ∨ x ≥ WIDTH ∨ y < 0 ∨ y ≥ HEIGHT then false
  else decide (m.tiles y x = TileType.Exit)

/-- `Maze::getTile`. -/
def Maze.getTile (m : Maze) (x y : Int) : TileType :=
  if x < 0 ∨ x ≥ WIDTH ∨ y < 0 ∨ y ≥ HEIGHT then TileType.Wall
  else m.tiles y x

/-! ## Maze generation (maze.cpp) -/

/-- The random draws of one maze construction. -/
structure Randomness where
  /-- The successive values of `rand()`. -/
  rand : Nat → Nat
  /-- The order produced by the `k`-th `std::shuffle` of the four directions,
  as an index into the 24 orders. -/
  shuffle : Nat → Nat
  /-- Circular maze: the cells that the ring, spoke, random opening, centre
  room and dead-end passes set to `Empty`. These passes use `float` square
  roots and trigonometry and `std::mt19937` draws; every store they make is
  `TileType::Empty`. -/
  opened : Int → Int → Bool
  /-- Soldier maze: the successive values of `distObstacles(gen)`. -/
  cover : Nat → Nat

/-- The store `tiles[y][x] = v`. -/
def setTile (t : Tiles) (x y : Int) (v : TileType) : Tiles :=
  fun y1 x1 => if x1 = x ∧ y1 = y then v else t y1 x1

/-- The stores of `for (y = y0; y < y1; y++) for (x = x0; x < x1; x++) tiles[y][x] = v`. -/
def fillRect (t : Tiles) (x0 x1 y0 y1 : Int) (v : TileType) : Tiles :=
  fun y x => if x0 ≤ x ∧ x < x1 ∧ y0 ≤ y ∧ y < y1 then v else t y x

/-- The grid filled with walls. -/
def allWalls : Tiles := fun _ _ => TileType.Wall

/-- The table `dx[]` of `carvePassagesFrom` (N, S, E, W). -/
def carveDx : Nat → Int
  | 0 => 0 | 1 => 0 | 2 => 1 | 3 => -1 | _ => 0

/-- The table `dy[]` of `carvePassagesFrom` (N, S, E, W). -/
def carveDy : Nat → Int
  | 0 => -1 | 1 => 1 | 2 => 0 | 3 => 0 | _ => 0

/-- The 24 orders of the four directions. -/
def shuffleOrders : List (List Nat) :=
  [[0, 1, 2, 3], [0, 1, 3, 2], [0, 2, 1, 3], [0, 2, 3, 1],
   [0, 3, 1, 2], [0, 3, 2, 1], [1, 0, 2, 3], [1, 0, 3, 2],
   [1, 2, 0, 3], [1, 2, 3, 0], [1, 3, 0, 2], [1, 3, 2, 0],
   [2, 0, 1, 3], [2, 0, 3, 1], [2, 1, 0, 3], [2, 1, 3, 0],
   [2, 3, 0, 1], [2, 3, 1, 0], [3, 0, 1, 2], [3, 0, 2, 1],
   [3, 1, 0, 2], [3, 1, 2, 0], [3, 2, 0, 1], [3, 2, 1, 0]]

/-- The result of `std::shuffle` on `{0, 1, 2, 3}`: one of the 24 orders. -/
def shuffled (r : Nat) : List Nat := shuffleOrders.getD (r % 24) [0, 1, 2, 3]

/-- The body of `for (int dir : directions)` in `carvePassagesFrom(cx, cy)`;
`recurse` is the recursive call. The state is the grid and the number of
shuffles made so far. -/
def carveStep (recurse : Int → Int → Tiles × Nat → Option (Tiles × Nat)) (cx cy : Int)
    (st : Tiles × Nat) (dir : Nat) : Option (Tiles × Nat) :=
  let nx := cx + carveDx dir * 2
  let ny := cy + carveDy dir * 2
  if nx > 0 ∧ nx < WIDTH - 1 ∧ ny > 0 ∧ ny < HEIGHT - 1 ∧ st.1 ny nx = TileType.Wall then
    recurse nx ny (setTile st.1 (cx + carveDx dir) (cy + carveDy dir) TileType.Empty, st.2)
  else some st

/-- `Maze::carvePassagesFrom`. The fuel bounds the depth of the recursion;
`none` when it does not suffice. -/
def carvePassagesFrom (shuffle : Nat → Nat) :
    Nat → Int → Int → Tiles × Nat → Option (Tiles × Nat)
  | 0, _, _, _ => none
  | fuel + 1, cx, cy, st =>
    (shuffled (shuffle st.2)).foldlM (carveStep (carvePassagesFrom shuffle fuel) cx cy)
      (setTile st.1 cx cy TileType.Empty, st.2 + 1)

/-- Depth that `carvePassagesFrom` can need: every nested call empties a wall
cell of the interior. -/
def carveFuel : Nat := 32 * 24

/-- The loop `for (attempt = 0; attempt < 50 && !validPosition; attempt++)`:
the position found, if any, and the number of `rand()` calls made so far. -/
def findRoomPosition (rand : Nat → Nat) (roomWidth roomHeight : Int) :
    Nat → Nat → Option (Int × Int) × Nat
  | 0, k => (none, k)
  | attempts + 1, k =>
    let roomX : Int := 5 + (rand k : Int) % (WIDTH - roomWidth - 10)
    let roomY : Int := 5 + (rand (k + 1) : Int) % (HEIGHT - roomHeight - 10)
    let roomCenterX := roomX + roomWidth / 2
    let roomCenterY := roomY + roomHeight / 2
    let distX := (roomCenterX - WIDTH / 2).natAbs
    let distY := (roomCenterY - HEIGHT / 2).natAbs
    if distX > 8 ∨ distY > 8 then (some (roomX, roomY), k + 2)
    else findRoomPosition rand roomWidth roomHeight attempts (k + 2)

/-- The loop `for (room = 0; room < numRooms; room++)`, with `rooms` rooms left. -/
def addRooms (rand : Nat → Nat) : Nat → Nat → Tiles → Tiles
  | 0, _, t => t
  | rooms + 1, k, t =>
    let roomWidth : Int := 5 + (rand k : Int) % 4
    let roomHeight : Int := 5 + (rand (k + 1) : Int) % 4
    match findRoomPosition rand roomWidth roomHeight 50 (k + 2) with
    | (none, k1) => addRooms rand rooms k1 t
    | (some (roomX, roomY), k1) =>
      addRooms rand rooms k1
        (fillRect t roomX (min (roomX + roomWidth) (WIDTH - 1))
          roomY (min (roomY + roomHeight) (HEIGHT - 1)) TileType.Empty)

/-- The two loops under `// Ensure borders are walls`. -/
def wallBorders (t : Tiles) : Tiles :=
  fun y x =>
    if (0 ≤ x ∧ x < WIDTH ∧ (y = 0 ∨ y = HEIGHT - 1)) ∨
       (0 ≤ y ∧ y < HEIGHT ∧ (x = 0 ∨ x = WIDTH - 1)) then TileType.Wall
    else t y x

/-- `Maze::generateRandomMaze`. -/
def generateRandomMaze (rnd : Randomness) : Option Tiles :=
  match carvePassagesFrom rnd.shuffle carveFuel 1 1 (allWalls, 0) with
  | none => none
  | some (t1, _) =>
    let numRooms := 1 + rnd.rand 0 % 2
    let t2 := addRooms rnd.rand numRooms 1 t1
    let t3 := wallBorders t2
    let t4 := setTile t3 (WIDTH - 2) (HEIGHT - 2) TileType.Exit
    let t5 := setTile t4 (WIDTH - 2) (HEIGHT - 3) TileType.Empty
    let t6 := setTile t5 (WIDTH - 3) (HEIGHT - 2) TileType.Empty
    let t7 := setTile t6 1 1 TileType.Empty
    let t8 := setTile t7 2 1 TileType.Empty
    some (setTile t8 1 2 TileType.Empty)

/-- `Maze::generateInfiniteMaze`. -/
def generateInfiniteMaze (rnd : Randomness) : Option Tiles := generateRandomMaze rnd

/-- The loop `// Clear 5x5 area around exit` of `generateCircularMaze`. -/
def clearAroundExit (t : Tiles) (centerX centerY : Int) : Tiles :=
  fun y x =>
    if centerX - 2 ≤ x ∧ x ≤ centerX + 2 ∧ centerY - 2 ≤ y ∧ y ≤ centerY + 2 ∧
        0 ≤ x ∧ x < WIDTH ∧ 0 ≤ y ∧ y < HEIGHT then
      if x - centerX = 0 ∧ y - centerY = 0 then TileType.Exit else TileType.Empty
    else t y x

/-- `Maze::generateCircularMaze`; the passes before the exit is placed are
given by `rnd.opened`. -/
def generateCircularMaze (rnd : Randomness) : Tiles :=
  let centerX := WIDTH / 2
  let centerY := HEIGHT / 2
  let t1 : Tiles := fun y x =>
    if 0 ≤ x ∧ x < WIDTH ∧ 0 ≤ y ∧ y < HEIGHT ∧ rnd.opened x y = true then TileType.Empty
    else TileType.Wall
  let t2 := setTile t1 centerX centerY TileType.Exit
  let t3 := clearAroundExit t2 centerX centerY
  let t4 := wallBorders t3
  fillRect t4 1 5 1 5 TileType.Empty

/-- The values of `v` in `for (v = lo; v < hi; v += 4)`. -/
def loopBy4 (lo hi : Int) : List Int :=
  (List.range ((hi - lo + 3) / 4).toNat).map (fun k => lo + 4 * (k : Int))

/-- A hallway loop over `x0 <= x < x1` and `lo <= dy <= hi` with `y = hallY + dy`,
guarded by `y >= 1 && y < HEIGHT - 1`. -/
def hallwayRows (t : Tiles) (x0 x1 hallY lo hi : Int) : Tiles :=
  fun y x =>
    if x0 ≤ x ∧ x < x1 ∧ hallY + lo ≤ y ∧ y ≤ hallY + hi ∧ y ≥ 1 ∧ y < HEIGHT - 1 then
      TileType.Empty
    else t y x

/-- A hallway loop over `y0 <= y < y1` and `lo <= dx <= hi` with `x = hallX + dx`,
guarded by `x >= 1 && x < WIDTH - 1`. -/
def hallwayCols (t : Tiles) (y0 y1 hallX lo hi : Int) : Tiles :=
  fun y x =>
    if y0 ≤ y ∧ y < y1 ∧ hallX + lo ≤ x ∧ x ≤ hallX + hi ∧ x ≥ 1 ∧ x < WIDTH - 1 then
      TileType.Empty
    else t y x

/-- The cover loop of `generateSoldierMaze`: a 2 x 2 block of walls at every
anchor whose draw is below 25. -/
def addCover (cover : Nat → Nat) (anchors : List (Int × Int)) (t : Tiles) : Tiles :=
  anchors.enum.foldl
    (fun t1 ia =>
      if cover ia.1 < 25 then fillRect t1 ia.2.1 (ia.2.1 + 2) ia.2.2 (ia.2.2 + 2) TileType.Wall
      else t1) t

/-- `Maze::generateSoldierMaze`. -/
def generateSoldierMaze (rnd : Randomness) : Tiles :=
  let arenaLeft := WIDTH / 4
  let arenaRight := 3 * WIDTH / 4
  let arenaTop := HEIGHT / 4
  let arenaBottom := 3 * HEIGHT / 4
  let t1 := fillRect allWalls arenaLeft (arenaRight + 1) arenaTop (arenaBottom + 1) TileType.Empty
  let anchors := (loopBy4 (arenaTop + 3) (arenaBottom - 3)).flatMap
    (fun y => (loopBy4 (arenaLeft + 3) (arenaRight - 3)).map (fun x => (x, y)))
  let t2 := addCover rnd.cover anchors t1
  let t3 := fillRect t2 3 (arenaLeft - 2) 3 (arenaTop - 2) TileType.Empty
  let t4 := fillRect t3 (arenaRight + 3) (WIDTH - 3) 3 (arenaTop - 2) TileType.Empty
  let t5 := fillRect t4 3 (arenaLeft - 2) (arenaBottom + 3) (HEIGHT - 3) TileType.Empty
  let t6 := fillRect t5 (arenaRight + 3) (WIDTH - 3) (arenaBottom + 3) (HEIGHT - 3) TileType.Empty
  let tlHallY := (3 + arenaTop - 2) / 2
  let t7 := hallwayRows t6 3 (arenaLeft + 1) tlHallY (-4) 4
  let trHallY := (3 + arenaTop - 2) / 2
  let t8 := hallwayRows t7 arenaRight (WIDTH - 3) trHallY (-4) 4
  let blHallY := (arenaBottom + 3 + HEIGHT - 3) / 2
  let t9 := hallwayRows t8 3 (arenaLeft + 1) blHallY (-4) 4
  let brHallY := (arenaBottom + 3 + HEIGHT - 3) / 2
  let t10 := hallwayRows t9 arenaRight (WIDTH - 3) brHallY (-4) 4
  let topHallY := (3 + arenaTop - 2) / 2
  let t11 := hallwayRows t10 3 (WIDTH - 3) topHallY 0 1
  let bottomHallY := (arenaBottom + 3 + HEIGHT - 3) / 2
  let t12 := hallwayRows t11 3 (WIDTH - 3) bottomHallY 0 1
  let leftHallX := (3 + arenaLeft - 2) / 2
  let t13 := hallwayCols t12 3 (HEIGHT - 3) leftHallX 0 1
  let rightHallX := (arenaRight + 3 + WIDTH - 3) / 2
  hallwayCols t13 3 (HEIGHT - 3) rightHallX 0 1

/-- The constructor `Maze::Maze(MazeType type)`. -/
def Maze.construct (type : MazeType) (rnd : Randomness) : Option Maze :=
  match type with
  | MazeType.CIRCULAR => some { tiles := generateCircularMaze rnd, mazeType := type }
  | MazeType.INFINITE =>
    (generateInfiniteMaze rnd).map (fun t => { tiles := t, mazeType := type })
  | MazeType.SOLDIER => some { tiles := generateSoldierMaze rnd, mazeType := type }
  | MazeType.STANDARD =>
    (generateRandomMaze rnd).map (fun t => { tiles := t, mazeType := type })

/-! ## Zombie path finding (zombie.h, zombie.cpp) -/

inductive ZombieType where
  | NORMAL
  | FAST
  | TANK
  | RUNNER
  deriving DecidableEq, Repr

/-- The data members of `class Zombie`, in the order of their declaration.
A `float` member holds a rational number. -/
structure Zombie where
  x : ℚ
  y : ℚ
  facingAngle : ℚ
  dead : Bool
  health : Int
  maxHealth : Int
  type : ZombieType
  speedMultiplier : ℚ
  path : List (Int × Int)
  pathIndex : Int
  pathUpdateTimer : ℚ
  walkAnimTime : ℚ
  deathAnimTime : ℚ
  isChasing : Bool
  wanderTimer : ℚ

/-- The local `struct Node` of `Zombie::findPath`; `g` is in thousandths. -/
structure Node where
  x : Int
  y : Int
  g : Nat
  h : Nat
  parent : Int × Int
  deriving DecidableEq, Repr

/-- `Node::f`, in thousandths. -/
def Node.f (n : Node) : Nat := n.g + 1000 * n.h

/-- The `heuristic` lambda: Manhattan distance. -/
def heuristic (x1 y1 x2 y2 : Int) : Nat := (x1 - x2).natAbs + (y1 - y2).natAbs

/-- The table `dx[]` of `findPath`. -/
def dirX : Nat → Int
  | 0 => 0 | 1 => 0 | 2 => 1 | 3 => -1 | 4 => 1 | 5 => -1 | 6 => 1 | 7 => -1 | _ => 0

/-- The table `dy[]` of `findPath`. -/
def dirY : Nat → Int
  | 0 => 1 | 1 => -1 | 2 => 0 | 3 => 0 | 4 => 1 | 5 => -1 | 6 => -1 | 7 => 1 | _ => 0

/-- The table `cost[]` of `findPath`, in thousandths. -/
def stepCost (i : Nat) : Nat := if i < 4 then 1000 else 1414

/-- `diagX = (i == 4 || i == 6) ? 1 : -1`. -/
def diagX (i : Nat) : Int := if i = 4 ∨ i = 6 then 1 else -1

/-- `diagY = (i == 4 || i == 5) ? 1 : -1`. -/
def diagY (i : Nat) : Int := if i = 4 ∨ i = 5 then 1 else -1

/-- The key `y * Maze::WIDTH + x` of the closed set. -/
def cellKey (x y : Int) : Int := y * WIDTH + x

/-- The closed set `std::unordered_map<int, Node>`, newest entry first. -/
abbrev Closed := List (Int × Node)

/-- `closedSet.find(key) != closedSet.end()`. -/
def closedHas (closed : Closed) (key : Int) : Bool := closed.any (fun e => e.1 == key)

/-- `closedSet[key]`: the stored node, a value-initialised node if there is none. -/
def closedAt (closed : Closed) (key : Int) : Node :=
  match closed.find? (fun e => e.1 == key) with
  | some e => e.2
  | none => { x := 0, y := 0, g := 0, h := 0, parent := (0, 0) }

/-- The body of the neighbour loop for direction `i`: the node pushed, if any. -/
def neighbor (maze : Maze) (goalX goalY : Int) (closed : Closed) (current : Node)
    (i : Nat) : Option Node :=
  let nx := current.x + dirX i
  let ny := current.y + dirY i
  if nx < 0 ∨ nx ≥ WIDTH ∨ ny < 0 ∨ ny ≥ HEIGHT then none
  else if maze.isWall nx ny then none
  else if i ≥ 4 ∧ (maze.isWall (current.x + diagX i) current.y = true ∨
      maze.isWall current.x (current.y + diagY i) = true) then none
  else if closedHas closed (cellKey nx ny) then none
  else some { x := nx, y := ny, g := current.g + stepCost i,
              h := heuristic nx ny goalX goalY, parent := (current.x, current.y) }

/-- The nodes pushed by `for (int i = 0; i < 8; i++)`, in push order. -/
def expand (maze : Maze) (goalX goalY : Int) (closed : Closed) (current : Node) : List Node :=
  (List.range 8).filterMap (neighbor maze goalX goalY closed current)

/-- Least `f` in the open set. -/
def minF : List Node → Nat
  | [] => 0
  | n :: ns => ns.foldl (fun m k => min m k.f) n.f

/-- Positions of the open set that hold a node of least `f`. -/
def topIndices (openSet : List Node) : List Nat :=
  (List.range openSet.length).filter
    (fun i => match openSet.get? i with
      | some n => decide (n.f = minF openSet)
      | none => false)

/-- `openSet.top(); openSet.pop()`: a node of least `f` leaves the open set;
`tie` selects among several such nodes. `none` when the open set is empty. -/
def popTop (tie : Nat) (openSet : List Node) : Option (Node × List Node) :=
  let idx := (topIndices openSet).getD (tie % (topIndices openSet).length) 0
  match openSet.get? idx with
  | none => none
  | some n => some (n, openSet.eraseIdx idx)

/-- The path reconstruction loop, in `push_back` order (goal first).
`none` when the fuel does not suffice. -/
def reconstruct (closed : Closed) : Nat → Node → Option (List (Int × Int))
  | 0, _ => none
  | fuel + 1, node =>
    if node.parent.1 = -1 then some []
    else
      match reconstruct closed fuel (closedAt closed (cellKey node.parent.1 node.parent.2)) with
      | none => none
      | some l => some ((node.x, node.y) :: l)

/-- The loop `while (!openSet.empty())` acting on the zombie `z`, whose path has
been cleared. `none` when the fuel does not suffice. -/
def searchLoop (maze : Maze) (goalX goalY : Int) (tie : Nat → Nat) (z : Zombie) :
    Nat → List Node → Closed → Option Zombie
  | 0, _, _ => none
  | fuel + 1, openSet, closed =>
    match popTop (tie fuel) openSet with
    | none => some z
    | some (current, rest) =>
      let key := cellKey current.x current.y
      if closedHas closed key then searchLoop maze goalX goalY tie z fuel rest closed
      else
        let closed1 := (key, current) :: closed
        if current.x = goalX ∧ current.y = goalY then
          match reconstruct closed1 (closed1.length + 1) current with
          | none => none
          | some l => some { z with path := l.reverse, pathIndex := 0 }
        else
          searchLoop maze goalX goalY tie z fuel
            (rest ++ expand maze goalX goalY closed1 current) closed1

/-- Iterations that `searchLoop` can need: one per push, and at most
`1 + 8 * 768` nodes are pushed. -/
def searchFuel : Nat := 8 * 768 + 2

/-- `Zombie::findPath`. -/
def Zombie.findPath (z : Zombie) (tie : Nat → Nat) (startX startY goalX goalY : Int)
    (maze : Maze) : Option Zombie :=
  let z1 := { z with path := [] }
  if startX < 0 ∨ startX ≥ WIDTH ∨ startY < 0 ∨ startY ≥ HEIGHT ∨
     goalX < 0 ∨ goalX ≥ WIDTH ∨ goalY < 0 ∨ goalY ≥ HEIGHT then some z1
  else
    searchLoop maze goalX goalY tie z1 searchFuel
      [{ x := startX, y := startY, g := 0, h := heuristic startX startY goalX goalY,
         parent := (-1, -1) }] []

/-! ## Predicates on grids -/

/-- A cell on which `carvePassagesFrom` can be called: strictly inside the
border, with odd coordinates. -/
def OddCell (x y : Int) : Prop :=
  0 < x ∧ x < WIDTH - 1 ∧ 0 < y ∧ y < HEIGHT - 1 ∧ x % 2 = 1 ∧ y % 2 = 1

/-- Every tile is `Wall` or `Empty`. -/
def WallOrEmpty (t : Tiles) : Prop := ∀ x y, t y x = TileType.Wall ∨ t y x = TileType.Empty

/-- Every empty tile of `t` is empty in `t1`. -/
def Grows (t t1 : Tiles) : Prop := ∀ x y, t y x = TileType.Empty → t1 y x = TileType.Empty

/-- Two cells share an edge. -/
def adjacent (a b : Int × Int) : Prop := (a.1 - b.1).natAbs + (a.2 - b.2).natAbs = 1

/-- Connected through edge-adjacent empty tiles. -/
def Conn (t : Tiles) : Int × Int → Int × Int → Prop :=
  Relation.ReflTransGen (fun a b => adjacent a b ∧ t b.2 b.1 = TileType.Empty)

/-- All four cells two steps away from `(x, y)` that `carvePassagesFrom` may
visit are empty. -/
def Finished (t : Tiles) (x y : Int) : Prop :=
  ∀ d, d < 4 → 0 < x + carveDx d * 2 → x + carveDx d * 2 < WIDTH - 1 →
    0 < y + carveDy d * 2 → y + carveDy d * 2 < HEIGHT - 1 →
    t (y + carveDy d * 2) (x + carveDx d * 2) = TileType.Empty

/-- Number of walls strictly inside the border. -/
def wallCount (t : Tiles) : Nat :=
  ((Finset.Icc (1 : Int) 30 ×ˢ Finset.Icc (1 : Int) 22).filter
    (fun c => t c.2 c.1 = TileType.Wall)).card

/-- What a call `carvePassagesFrom(cx, cy)` does to the grid `t`. -/
structure CarveOK (cx cy : Int) (t t1 : Tiles) : Prop where
  grows : Grows t t1
  wallOrEmpty : WallOrEmpty t1
  inside : ∀ x y, t1 y x = TileType.Empty →
    t y x = TileType.Empty ∨ (1 ≤ x ∧ x ≤ 29 ∧ 1 ≤ y ∧ y ≤ 21)
  conn : ∀ x y, t1 y x = TileType.Empty → t y x = TileType.Empty ∨ Conn t1 (cx, cy) (x, y)
  finished : ∀ x y, OddCell x y → t y x ≠ TileType.Empty → t1 y x = TileType.Empty →
    Finished t1 x y
  centre : t1 cy cx = TileType.Empty

/-- The invariant of the direction loop of `carvePassagesFrom(cx, cy)` called on
`t`, where `t1` is `t` with the cell `(cx, cy)` emptied. -/
structure CarveLoopInv (cx cy : Int) (t t1 cur : Tiles) (fuel : Nat) : Prop where
  grows : Grows t1 cur
  wallOrEmpty : WallOrEmpty cur
  inside : ∀ x y, cur y x = TileType.Empty →
    t1 y x = TileType.Empty ∨ (1 ≤ x ∧ x ≤ 29 ∧ 1 ≤ y ∧ y ≤ 21)
  conn : ∀ x y, cur y x = TileType.Empty → t y x = TileType.Empty ∨ Conn cur (cx, cy) (x, y)
  finished : ∀ x y, OddCell x y → t1 y x ≠ TileType.Empty → cur y x = TileType.Empty →
    Finished cur x y
  count : wallCount cur ≤ fuel

/-! ## Moves, walks and costs -/

abbrev Cell := Int × Int

/-- The cell of a search node. -/
def Node.cell (n : Node) : Cell := (n.x, n.y)

/-- Inside the grid. -/
def inGrid (c : Cell) : Prop := 0 ≤ c.1 ∧ c.1 < WIDTH ∧ 0 ≤ c.2 ∧ c.2 < HEIGHT

instance (c : Cell) : Decidable (inGrid c) :=
  inferInstanceAs (Decidable (0 ≤ c.1 ∧ c.1 < WIDTH ∧ 0 ≤ c.2 ∧ c.2 < HEIGHT))

/-- The tests of the neighbour loop that do not depend on the closed set:
direction `i` leads from cell `a` to a cell inside the grid that is not a wall,
and for `i >= 4` the two cells tested by the corner check are not walls. -/
def moveAllowed (maze : Maze) (a : Cell) (i : Nat) : Bool :=
  decide (¬ (a.1 + dirX i < 0 ∨ a.1 + dirX i ≥ WIDTH ∨ a.2 + dirY i < 0 ∨ a.2 + dirY i ≥ HEIGHT)) &&
  !(maze.isWall (a.1 + dirX i) (a.2 + dirY i)) &&
  !(decide (i ≥ 4) && (maze.isWall (a.1 + diagX i) a.2 || maze.isWall a.1 (a.2 + diagY i)))

/-- One move of the search: some direction of the table is allowed from `a`
and leads to `b`. -/
def Step (maze : Maze) (a b : Cell) : Prop :=
  ∃ i, i < 8 ∧ moveAllowed maze a i = true ∧ b = (a.1 + dirX i, a.2 + dirY i)

/-- One axis move of the search (directions 0 to 3). -/
def AxisStep (maze : Maze) (a b : Cell) : Prop :=
  ∃ i, i < 4 ∧ moveAllowed maze a i = true ∧ b = (a.1 + dirX i, a.2 + dirY i)

instance (maze : Maze) (a b : Cell) : Decidable (Step maze a b) :=
  inferInstanceAs (Decidable
    (∃ i, i < 8 ∧ moveAllowed maze a i = true ∧ b = (a.1 + dirX i, a.2 + dirY i)))

instance (maze : Maze) (a b : Cell) : Decidable (AxisStep maze a b) :=
  inferInstanceAs (Decidable
    (∃ i, i < 4 ∧ moveAllowed maze a i = true ∧ b = (a.1 + dirX i, a.2 + dirY i)))

/-- Chebyshev distance of two cells. -/
def chebyshev (a b : Cell) : Nat := max (a.1 - b.1).natAbs (a.2 - b.2).natAbs

/-- Cost of the move between two adjacent cells, in thousandths: `1.0` for an
axis move, `1.414` for a diagonal move. -/
def moveCost (a b : Cell) : Nat := if a.1 = b.1 ∨ a.2 = b.2 then 1000 else 1414

/-- Total cost of walking from `a` through the cells of `p`. -/
def pathCost : Cell → List Cell → Nat
  | _, [] => 0
  | a, b :: p => moveCost a b + pathCost b p

/-- The cell where a walk from `a` through `p` ends. -/
def walkEnd : Cell → List Cell → Cell
  | a, [] => a
  | _, b :: p => walkEnd b p

/-- The goal can be reached from the start by moves of the search. -/
def Reachable (maze : Maze) (a b : Cell) : Prop :=
  ∃ p : List Cell, List.Chain (Step maze) a p ∧ walkEnd a p = b

/-! ## Invariant of the search -/

/-- Cells of the closed set, newest first. -/
def closedCells (closed : Closed) : List Cell := closed.map (fun e => e.2.cell)

/-- A node is well linked: its `h` is the heuristic of its cell, its cell is
inside the grid, and it is either the start node (parent `(-1, -1)`, cost 0)
or was pushed from a node of the closed set by an allowed move. -/
def Linked (maze : Maze) (start goal : Cell) (closed : Closed) (n : Node) : Prop :=
  n.h = heuristic n.x n.y goal.1 goal.2 ∧ inGrid n.cell ∧
  ((n.parent.1 = -1 ∧ n.cell = start ∧ n.g = 0) ∨
   ∃ p i, (cellKey p.x p.y, p) ∈ closed ∧ n.parent = p.cell ∧ i < 8 ∧
      moveAllowed maze p.cell i = true ∧ n.cell = (p.x + dirX i, p.y + dirY i) ∧
      n.g = p.g + stepCost i)

/-- Every entry of the closed set is stored under the key of its cell, that key
is not used by an older entry, and the node is linked to the older entries. -/
def ClosedOK (maze : Maze) (start goal : Cell) : Closed → Prop
  | [] => True
  | e :: rest => e.1 = cellKey e.2.x e.2.y ∧ closedHas rest e.1 = false ∧
      Linked maze start goal rest e.2 ∧ ClosedOK maze start goal rest

/-- The loop invariant of `searchLoop`. -/
structure SearchInv (maze : Maze) (start goal : Cell) (openSet : List Node)
    (closed : Closed) : Prop where
  closedOK : ClosedOK maze start goal closed
  openLinked : ∀ n ∈ openSet, Linked maze start goal closed n
  startSeen : closed = [] → openSet ≠ []
  goalOpen : goal ∉ closedCells closed
  frontier : ∀ e ∈ closed, ∀ i, i < 8 → moveAllowed maze e.2.cell i = true →
    (e.2.x + dirX i, e.2.y + dirY i) ∈ closedCells closed ∨
    ∃ m ∈ openSet, m.cell = (e.2.x + dirX i, e.2.y + dirY i) ∧ m.g ≤ e.2.g + stepCost i
  axisBound : ∀ e ∈ closed, ∀ q, List.Chain (AxisStep maze) start q →
    walkEnd start q = e.2.cell → e.2.g ≤ 1000 * q.length

/-- What `findPath` leaves in the zombie `z'`, started on the zombie `z` whose
path has been cleared: either nothing changes and the goal is not reachable, or
the path is a walk of allowed moves from the start to the goal without
repetition, the cursor is 0, and the walk costs no more than any walk of axis
moves from the start to the goal. -/
def PathResult (maze : Maze) (start goal : Cell) (z z' : Zombie) : Prop :=
  (z' = z ∧ ¬ Reachable maze start goal) ∨
  ∃ p, z' = { z with path := p, pathIndex := 0 } ∧ List.Chain (Step maze) start p ∧
    walkEnd start p = goal ∧ p.Nodup ∧ start ∉ p ∧ (start = goal → p = []) ∧
    ∀ q, List.Chain (AxisStep maze) start q → walkEnd start q = goal →
      pathCost start p ≤ 1000 * q.length

/-! ## Example mazes and corridors -/

/-- The `k`-th cell of the straight corridor that starts at `s` and runs in the
axis direction `d` of the direction table. -/
def corridorCell (s : Cell) (d : Nat) (k : Nat) : Cell :=
  (s.1 + (k : Int) * dirX d, s.2 + (k : Int) * dirY d)

/-- A zombie that stands still, with a stale path and cursor. -/
def idleZombie : Zombie :=
  { x := 45, y := 45, facingAngle := 0, dead := false, health := 3, maxHealth := 3,
    type := ZombieType.NORMAL, speedMultiplier := 1, path := [(9, 9)], pathIndex := 7,
    pathUpdateTimer := 0, walkAnimTime := 0, deathAnimTime := 0, isChasing := false,
    wanderTimer := 0 }

/-- The corridor of scenario B: only the cells (1,1) to (1,5) are not walls. -/
def corridorMaze : Maze :=
  { tiles := fun y x => if x = 1 ∧ 1 ≤ y ∧ y ≤ 5 then TileType.Empty else TileType.Wall,
    mazeType := MazeType.STANDARD }

/-- The room of scenario A: the cells (1,1) to (3,3) are empty, all others walls. -/
def roomMaze : Maze :=
  { tiles := fun y x =>
      if 1 ≤ x ∧ x ≤ 3 ∧ 1 ≤ y ∧ y ≤ 3 then TileType.Empty else TileType.Wall,
    mazeType := MazeType.STANDARD }

/-- Random draws under which the Soldier maze gets all six blocks of cover. -/
def coverRandomness : Randomness :=
  { rand := fun _ => 0, shuffle := fun _ => 0, opened := fun _ _ => false, cover := fun _ => 0 }

/-- The Soldier maze built from `coverRandomness`. Around the block of cover
anchored at (11,9):
```
row  9:  . . . # # .      columns 8 to 13
row 10:  . . . # # .
row 11:  . . . . . .
```
-/
def arenaMaze : Maze :=
  { tiles := generateSoldierMaze coverRandomness, mazeType := MazeType.SOLDIER }

/-- A maze with fifteen empty cells in the columns 1 to 6 of the rows 1 to 3:
```
row 1:  . . . . . #
row 2:  . . # . . .
row 3:  # . . . . .
```
All other cells are walls. -/
def detourMaze : Maze :=
  { tiles := fun y x =>
      if (x, y) ∈ ([(1, 1), (2, 1), (3, 1), (4, 1), (5, 1),
                    (1, 2), (2, 2), (4, 2), (5, 2), (6, 2),
                    (2, 3), (3, 3), (4, 3), (5, 3), (6, 3)] : List Cell)
      then TileType.Empty else TileType.Wall,
    mazeType := MazeType.STANDARD }

/-- Both cells that flank the move from `a` to the adjacent cell `b` are not
walls: `(b.x, a.y)` and `(a.x, b.y)`. -/
def cornerFree (maze : Maze) (a b : Cell) : Bool :=
  !maze.isWall b.1 a.2 && !maze.isWall a.1 b.2

/-- One move under the corner rule of the specification: to a cell at
Chebyshev distance 1, inside the grid and not a wall, and, when the move is
diagonal, with both flanking cells not walls. -/
def SpecStep (maze : Maze) (a b : Cell) : Prop :=
  chebyshev a b = 1 ∧ inGrid b ∧ maze.isWall b.1 b.2 = false ∧
    ((a.1 ≠ b.1 ∧ a.2 ≠ b.2) → cornerFree maze a b = true)

/-- The goal can be reached from the start by moves that obey the corner rule
of the specification. -/
def SpecReachable (maze : Maze) (a b : Cell) : Prop :=
  ∃ p : List Cell, List.Chain (SpecStep maze) a p ∧ walkEnd a p = b

/-- In the run of `searchLoop` every non-empty open set has exactly one node of
least `f`: the priority queue never has a choice. -/
def tieFree (maze : Maze) (goalX goalY : Int) : Nat → List Node → Closed → Bool
  | 0, _, _ => true
  | fuel + 1, openSet, closed =>
    match popTop 0 openSet with
    | none => true
    | some (current, rest) =>
      decide ((topIndices openSet).length = 1) &&
        (if closedHas closed (cellKey current.x current.y) then
          tieFree maze goalX goalY fuel rest closed
        else if current.x = goalX ∧ current.y = goalY then true
        else
          tieFree maze goalX goalY fuel
            (rest ++ expand maze goalX goalY ((cellKey current.x current.y, current) :: closed)
              current)
            ((cellKey current.x current.y, current) :: closed))

/-! ## Zombie state, damage and perception (zombie.h, zombie.cpp, game.cpp)

* A `float` is a rational number. The rounded operations `+ - * /` and
  `std::sqrt` are the fields of a parameter `FloatArith`; comparisons and
  float constants that are binary fractions are exact. `exactArith` is the
  arithmetic that does not round; `FloatArith.Single` describes the rounding of
  single precision.
* `std::cos`, `std::sin`, `std::atan2` are the fields of a parameter `Trig`.
* An `int` result is wrapped to 32 bits by `wrapInt`.
-/

/-- The value an `int` holds when the mathematical result of an operation is
`v`: two's complement on 32 bits. -/
def wrapInt (v : Int) : Int := (v + 2 ^ 31) % 2 ^ 32 - 2 ^ 31

/-- The mathematical value `v` is a value of `int`. -/
def fitsInt (v : Int) : Prop := -2 ^ 31 ≤ v ∧ v < 2 ^ 31

instance (v : Int) : Decidable (fitsInt v) := inferInstanceAs (Decidable (_ ∧ _))

/-- The `float` nearest to 0.6, the literal `0.6f`. -/
def float_0_6 : ℚ := 5033165 / 8388608

/-- The `float` nearest to 0.7, the literal `0.7f`. -/
def float_0_7 : ℚ := 11744051 / 16777216

/-- `Zombie::Zombie`. -/
def Zombie.construct (x y : ℚ) (maxHealth : Int) (type : ZombieType) : Zombie :=
  let z : Zombie :=
    { x := x, y := y, facingAngle := 0, dead := false, health := maxHealth,
      maxHealth := maxHealth, type := type, speedMultiplier := 1, path := [], pathIndex := 0,
      pathUpdateTimer := 0, walkAnimTime := 0, deathAnimTime := 0, isChasing := false,
      wanderTimer := 0 }
  match type with
  | ZombieType.FAST =>
    let m := wrapInt (maxHealth - 2)
    let m := if m < 1 then 1 else m
    { z with speedMultiplier := 3 / 2, maxHealth := m, health := m }
  | ZombieType.TANK =>
    let m := wrapInt (maxHealth + 5)
    { z with speedMultiplier := float_0_6, maxHealth := m, health := m }
  | ZombieType.RUNNER =>
    let m := wrapInt (maxHealth - 1)
    let m := if m < 1 then 1 else m
    { z with speedMultiplier := 2, maxHealth := m, health := m }
  | ZombieType.NORMAL => { z with speedMultiplier := 1 }

/-- `Zombie::takeDamage`. -/
def Zombie.takeDamage (z : Zombie) (damage : Int) : Zombie :=
  let z1 := { z with health := wrapInt (z.health - damage) }
  if z1.health ≤ 0 ∧ z1.dead = false then { z1 with dead := true, deathAnimTime := 0 }
  else z1

/-- A sequence of `takeDamage` calls, first amount first. -/
def Zombie.takeDamages (z : Zombie) (amounts : List Int) : Zombie :=
  amounts.foldl Zombie.takeDamage z

/-- The operations of `float`: what the machine stores for the sum, the
difference, the product, the quotient and the square root of stored values. -/
structure FloatArith where
  add : ℚ → ℚ → ℚ
  sub : ℚ → ℚ → ℚ
  mul : ℚ → ℚ → ℚ
  div : ℚ → ℚ → ℚ
  sqrt : ℚ → ℚ

/-- The functions of `<cmath>` on angles. -/
structure Trig where
  cos : ℚ → ℚ
  sin : ℚ → ℚ
  atan2 : ℚ → ℚ → ℚ

/-- `static_cast<int>` of a `float`: the fractional part is dropped. -/
def toInt (q : ℚ) : Int := if 0 ≤ q then ⌊q⌋ else ⌈q⌉

/-- The tile index of a world coordinate, `static_cast<int>(v / Maze::TILE_SIZE)`. -/
def tileOf (fa : FloatArith) (v : ℚ) : Int := toInt (fa.div v 30)

/-- A quotient by a variable divisor; `none` when the divisor is zero, where
the machine result is infinite or not a number. -/
def fdiv (fa : FloatArith) (a b : ℚ) : Option ℚ :=
  if b = 0 then none else some (fa.div a b)

/-- The length of a vector as the code computes it, `std::sqrt(dx * dx + dy * dy)`. -/
def vecLength (fa : FloatArith) (dx dy : ℚ) : ℚ :=
  fa.sqrt (fa.add (fa.mul dx dx) (fa.mul dy dy))

/-- The constant `stepSize = Maze::TILE_SIZE / 4.0f` of `Zombie::hasLineOfSight`. -/
def stepSize : ℚ := 15 / 2

/-- The body of the loop of `Zombie::hasLineOfSight` for the counter `i`:
`false` when the loop returns `false` at this sample, `true` when it goes on. -/
def Zombie.sampleClear (fa : FloatArith) (z : Zombie) (dirX dirY : ℚ) (maze : Maze)
    (i : Nat) : Bool :=
  let checkX := fa.add z.x (fa.mul (fa.mul dirX stepSize) i)
  let checkY := fa.add z.y (fa.mul (fa.mul dirY stepSize) i)
  let tileX := tileOf fa checkX
  let tileY := tileOf fa checkY
  if tileX < 0 ∨ tileX ≥ WIDTH ∨ tileY < 0 ∨ tileY ≥ HEIGHT then false
  else if maze.isWall tileX tileY then false
  else true

/-- `Zombie::hasLineOfSight`; the observer is the zombie `z`. The loop
`for (i = 1; i < steps; i++)` returns `false` at the first sample that is not
clear and the function returns `true` when there is none. The result is `none`
when the function divides by zero. -/
def Zombie.hasLineOfSight (fa : FloatArith) (z : Zombie) (targetX targetY : ℚ)
    (maze : Maze) : Option Bool :=
  let dx := fa.sub targetX z.x
  let dy := fa.sub targetY z.y
  let distance := vecLength fa dx dy
  if distance < 1 then some true
  else
    match fdiv fa dx distance, fdiv fa dy distance with
    | some dirX, some dirY =>
      let steps := toInt (fa.div distance stepSize)
      some ((List.range' 1 (steps - 1).toNat).all
        (fun i => z.sampleClear fa dirX dirY maze i))
    | _, _ => none

/-- The loop `for (float t = 0; t < distance; t += step)` of the renderer's
`hasLineOfSight` (game.cpp), from the value `t` on. -/
def losRay (fa : FloatArith) (maze : Maze) (x1 y1 dx dy distance : ℚ) : Nat → ℚ → Option Bool
  | 0, _ => none
  | fuel + 1, t =>
    if t < distance then
      let checkX := fa.add x1 (fa.mul dx t)
      let checkY := fa.add y1 (fa.mul dy t)
      if maze.isWall (tileOf fa checkX) (tileOf fa checkY) then some false
      else losRay fa maze x1 y1 dx dy distance fuel (fa.add t 5)
    else some true

/-- A bound on the iterations of the renderer's loop: `t` grows by the step 5
less the rounding error, which is below 1 as long as `t` is below 2 ^ 23, and
one more iteration is for the test that ends the loop. -/
def rayFuel (distance : ℚ) : Nat := (⌊distance / 4⌋).toNat + 2

/-- The renderer's `hasLineOfSight(maze, x1, y1, x2, y2)` of game.cpp. With
distance zero the two quotients are not numbers in the code and are never read,
as the loop body does not run. -/
def hasLineOfSight (fa : FloatArith) (maze : Maze) (x1 y1 x2 y2 : ℚ) : Option Bool :=
  let dx := fa.sub x2 x1
  let dy := fa.sub y2 y1
  let distance := vecLength fa dx dy
  let dx := fa.div dx distance
  let dy := fa.div dy distance
  losRay fa maze x1 y1 dx dy distance (rayFuel distance) 0

/-- The attempts `attempt`, `attempt + 1`, ... of `Zombie::findRandomWanderTarget`,
`n` of them; `wander attempt` is the angle and the distance drawn in the attempt. -/
def Zombie.wanderAttempts (fa : FloatArith) (tr : Trig) (tie : Nat → Nat)
    (wander : Nat → ℚ × ℚ) (z : Zombie) (maze : Maze) : Nat → Nat → Option Zombie
  | 0, _ => some z
  | n + 1, attempt =>
    let angle := (wander attempt).1
    let dist := (wander attempt).2
    let targetX := fa.add z.x (fa.mul (tr.cos angle) dist)
    let targetY := fa.add z.y (fa.mul (tr.sin angle) dist)
    let targetTileX := tileOf fa targetX
    let targetTileY := tileOf fa targetY
    if targetTileX > 0 ∧ targetTileX < WIDTH - 1 ∧ targetTileY > 0 ∧
        targetTileY < HEIGHT - 1 ∧ maze.isWall targetTileX targetTileY = false then
      z.findPath tie (tileOf fa z.x) (tileOf fa z.y) targetTileX targetTileY maze
    else Zombie.wanderAttempts fa tr tie wander z maze n (attempt + 1)

/-- `Zombie::findRandomWanderTarget`. -/
def Zombie.findRandomWanderTarget (fa : FloatArith) (tr : Trig) (tie : Nat → Nat)
    (wander : Nat → ℚ × ℚ) (z : Zombie) (maze : Maze) : Option Zombie :=
  Zombie.wanderAttempts fa tr tie wander z maze 20 0

/-- The chase decision of `Zombie::update`: the value of `canSeePlayer`. -/
def Zombie.canSeePlayer (fa : FloatArith) (z : Zombie) (distToPlayer playerX playerY : ℚ)
    (maze : Maze) : Option Bool :=
  if distToPlayer ≤ 150 then some true
  else if distToPlayer ≤ 3000 then z.hasLineOfSight fa playerX playerY maze
  else some false

/-- The value of `currentSpeed` in `Zombie::update`; the constant
`BASE_SPEED - CLOSE_SPEED` is 30. -/
def Zombie.currentSpeed (fa : FloatArith) (z : Zombie) (distToPlayer : ℚ) : ℚ :=
  if z.isChasing then
    if distToPlayer > 200 then fa.mul 85 z.speedMultiplier
    else
      let t := fa.div distToPlayer 200
      fa.mul (fa.add 55 (fa.mul 30 t)) z.speedMultiplier
  else fa.mul (fa.mul 55 float_0_7) z.speedMultiplier

/-- The block "Update path periodically" of `Zombie::update`. -/
def Zombie.refreshPath (fa : FloatArith) (tr : Trig) (tie : Nat → Nat)
    (wander : Nat → ℚ × ℚ) (z : Zombie) (playerX playerY : ℚ) (maze : Maze) :
    Option Zombie :=
  if z.pathUpdateTimer ≥ 1 / 2 ∨ z.path = [] then
    let z1 := { z with pathUpdateTimer := 0 }
    let zombieTileX := tileOf fa z1.x
    let zombieTileY := tileOf fa z1.y
    if z1.isChasing then
      z1.findPath tie zombieTileX zombieTileY (tileOf fa playerX) (tileOf fa playerY) maze
    else if z1.wanderTimer ≥ 3 then
      Zombie.findRandomWanderTarget fa tr tie wander { z1 with wanderTimer := 0 } maze
    else some z1
  else some z

/-- One pass of the loop over `*allZombies` in `Zombie::update`, for an entry
`other` that is not the zombie itself; `acc` is `(separationX, separationY)`. -/
def Zombie.separationStep (fa : FloatArith) (z : Zombie) (acc : ℚ × ℚ) (other : Zombie) :
    ℚ × ℚ :=
  if other.dead = false then
    let otherDx := fa.sub z.x other.x
    let otherDy := fa.sub z.y other.y
    let otherDist := vecLength fa otherDx otherDy
    if otherDist > 0 ∧ otherDist < 60 then
      let separationFactor := fa.div (fa.sub 60 otherDist) 60
      (fa.add acc.1 (fa.mul (fa.div otherDx otherDist) separationFactor),
       fa.add acc.2 (fa.mul (fa.div otherDy otherDist) separationFactor))
    else acc
  else acc

/-- The collision check that ends `Zombie::update`: the move to
`(newX, newY)` is made unless the tile of that point is a wall. -/
def Zombie.tryMove (fa : FloatArith) (z : Zombie) (newX newY : ℚ) (maze : Maze) : Zombie :=
  let tileX := tileOf fa newX
  let tileY := tileOf fa newY
  if maze.isWall tileX tileY = false then { z with x := newX, y := newY } else z

/-- The block "Follow path" of `Zombie::update`. `others` are the entries of
`*allZombies` other than the zombie itself, none for a null pointer. The
waypoint `path[pathIndex]` is read at a cursor that is not negative. -/
def Zombie.followPath (fa : FloatArith) (tr : Trig) (z : Zombie) (currentSpeed deltaTime : ℚ)
    (maze : Maze) (others : List Zombie) : Zombie :=
  if z.path ≠ [] ∧ z.pathIndex < (z.path.length : Int) then
    let target := z.path.getD z.pathIndex.toNat (0, 0)
    let targetX := fa.add ((target.1 * TILE_SIZE : Int) : ℚ) 15
    let targetY := fa.add ((target.2 * TILE_SIZE : Int) : ℚ) 15
    let dx := fa.sub targetX z.x
    let dy := fa.sub targetY z.y
    let dist := vecLength fa dx dy
    if dist < 15 / 2 then { z with pathIndex := z.pathIndex + 1 }
    else if dist > 0 then
      let dx := fa.div dx dist
      let dy := fa.div dy dist
      let separation := others.foldl (Zombie.separationStep fa z) (0, 0)
      let finalDx := fa.add dx (fa.mul separation.1 (1 / 2))
      let finalDy := fa.add dy (fa.mul separation.2 (1 / 2))
      let finalDist := vecLength fa finalDx finalDy
      let unit : ℚ × ℚ :=
        if finalDist > 0 then (fa.div finalDx finalDist, fa.div finalDy finalDist)
        else (finalDx, finalDy)
      let z1 :=
        if finalDist > 0 then { z with facingAngle := tr.atan2 unit.2 unit.1 } else z
      let newX := fa.add z1.x (fa.mul (fa.mul unit.1 currentSpeed) deltaTime)
      let newY := fa.add z1.y (fa.mul (fa.mul unit.2 currentSpeed) deltaTime)
      z1.tryMove fa newX newY maze
    else z
  else z

/-- The three timers at the start of the live branch of `Zombie::update`:
`pathUpdateTimer += deltaTime`, `walkAnimTime += deltaTime * 6.0f` and
`wanderTimer += deltaTime`. -/
def Zombie.tick (fa : FloatArith) (z : Zombie) (deltaTime : ℚ) : Zombie :=
  { z with
    pathUpdateTimer := fa.add z.pathUpdateTimer deltaTime,
    walkAnimTime := fa.add z.walkAnimTime (fa.mul deltaTime 6),
    wanderTimer := fa.add z.wanderTimer deltaTime }

/-- The statement `if (canSeePlayer) ... else ...` of `Zombie::update`. -/
def Zombie.setMode (z : Zombie) (canSee : Bool) : Zombie :=
  if canSee then { z with isChasing := true, wanderTimer := 0 }
  else { z with isChasing := false }

/-- `Zombie::update`. The result is `none` when `findPath` runs out of fuel or
`hasLineOfSight` divides by zero. -/
def Zombie.update (fa : FloatArith) (tr : Trig) (tie : Nat → Nat) (wander : Nat → ℚ × ℚ)
    (z : Zombie) (deltaTime playerX playerY : ℚ) (maze : Maze) (others : List Zombie) :
    Option Zombie :=
  if z.dead then
    if z.deathAnimTime < 1 / 2 then
      some { z with deathAnimTime := fa.add z.deathAnimTime deltaTime }
    else some z
  else
    let z1 := z.tick fa deltaTime
    let playerDx := fa.sub playerX z1.x
    let playerDy := fa.sub playerY z1.y
    let distToPlayer := vecLength fa playerDx playerDy
    match z1.canSeePlayer fa distToPlayer playerX playerY maze with
    | none => none
    | some canSee =>
      let z2 := z1.setMode canSee
      let currentSpeed := z2.currentSpeed fa distToPlayer
      match z2.refreshPath fa tr tie wander playerX playerY maze with
      | none => none
      | some z3 => some (z3.followPath fa tr currentSpeed deltaTime maze others)

/-- A call of a public member function that changes a zombie. -/
inductive ZombieCall where
  | takeDamage (damage : Int)
  | update (fa : FloatArith) (tr : Trig) (tie : Nat → Nat) (wander : Nat → ℚ × ℚ)
      (deltaTime playerX playerY : ℚ) (maze : Maze) (others : List Zombie)

/-- The zombie after one call. -/
def Zombie.call (z : Zombie) : ZombieCall → Option Zombie
  | ZombieCall.takeDamage damage => some (z.takeDamage damage)
  | ZombieCall.update fa tr tie wander deltaTime playerX playerY maze others =>
    z.update fa tr tie wander deltaTime playerX playerY maze others

/-- The zombie after a sequence of calls, first call first. -/
def Zombie.calls (z : Zombie) : List ZombieCall → Option Zombie
  | [] => some z
  | c :: rest =>
    match z.call c with
    | none => none
    | some z1 => z1.calls rest

/-- The arithmetic rounds nothing in sums, differences, products and quotients. -/
def FloatArith.Exact (fa : FloatArith) : Prop :=
  (∀ a b, fa.add a b = a + b) ∧ (∀ a b, fa.sub a b = a - b) ∧
  (∀ a b, fa.mul a b = a * b) ∧ (∀ a b, fa.div a b = a / b)

/-- The value `r` is what single precision may store for the exact result
`x`: it differs from `x` by at most `|x| / 2 ^ 24`, or by at most `1 / 2 ^ 149`
more where `x` is below the normal range, and it does not pass zero. -/
def Rounded (x r : ℚ) : Prop :=
  |r - x| ≤ |x| / 2 ^ 24 + 1 / 2 ^ 149 ∧ (0 ≤ x → 0 ≤ r) ∧ (x ≤ 0 → r ≤ 0)

/-- The operations round as IEEE 754 single precision does with rounding to
nearest: each of `+ - * /` returns the exact result rounded, as long as the
exact result is at most `2 ^ 127` in magnitude and so does not overflow, and
`std::sqrt` returns a value that is not negative and whose square differs from
the argument `a` by at most `a / 2 ^ 22`, as it does when the relative error of
the root is at most `1 / 2 ^ 24`. The operations of the machine, extended to
all rationals by rounding the exact result, are such an arithmetic. -/
def FloatArith.Single (fa : FloatArith) : Prop :=
  (∀ a b, |a + b| ≤ 2 ^ 127 → Rounded (a + b) (fa.add a b)) ∧
  (∀ a b, |a - b| ≤ 2 ^ 127 → Rounded (a - b) (fa.sub a b)) ∧
  (∀ a b, |a * b| ≤ 2 ^ 127 → Rounded (a * b) (fa.mul a b)) ∧
  (∀ a b, b ≠ 0 → |a / b| ≤ 2 ^ 127 → Rounded (a / b) (fa.div a b)) ∧
  (∀ a, 0 ≤ a → a ≤ 2 ^ 127 →
    0 ≤ fa.sqrt a ∧ |fa.sqrt a * fa.sqrt a - a| ≤ a / 2 ^ 22)

/-- A square root on the rationals: exact on the square of a rational, and
otherwise the root rounded down to a multiple of `1 / q.den`. -/
def ratSqrt (q : ℚ) : ℚ := (Nat.sqrt (q.num.toNat * q.den) : ℚ) / q.den

/-- Arithmetic without rounding, with the square root `ratSqrt`. -/
def exactArith : FloatArith :=
  { add := fun a b => a + b, sub := fun a b => a - b, mul := fun a b => a * b,
    div := fun a b => a / b, sqrt := ratSqrt }

/-- The values of the trigonometric functions at the angle 0, for runs in
which the angle does not matter. -/
def flatTrig : Trig :=
  { cos := fun _ => 1, sin := fun _ => 0, atan2 := fun _ _ => 0 }

/-- The world point at the fraction `s` of the way from `(x1, y1)` to `(x2, y2)`. -/
def segmentPoint (x1 y1 x2 y2 : ℚ) (s : ℚ) : ℚ × ℚ :=
  (x1 + s * (x2 - x1), y1 + s * (y2 - y1))

/-- No wall tile comes within `margin` of the segment from `(x1, y1)` to
`(x2, y2)`: every point that differs by at most `margin` in each coordinate
from a point of the segment lies in a tile that is not a wall. -/
def ClearWithin (maze : Maze) (margin x1 y1 x2 y2 : ℚ) : Prop :=
  ∀ s : ℚ, 0 ≤ s → s ≤ 1 → ∀ px py : ℚ,
    |px - (segmentPoint x1 y1 x2 y2 s).1| ≤ margin →
    |py - (segmentPoint x1 y1 x2 y2 s).2| ≤ margin →
    maze.isWall (toInt (px / 30)) (toInt (py / 30)) = false

/-- A grid in which the tile `(wx, wy)` is the only wall. -/
def pillarMaze (wx wy : Int) : Maze :=
  { tiles := fun y x => if x = wx ∧ y = wy then TileType.Wall else TileType.Empty,
    mazeType := MazeType.STANDARD }

/-- A zombie standing at `(x, y)`. -/
def zombieAt (x y : ℚ) : Zombie := { idleZombie with x := x, y := y }

/-! ## Start, spawn and exit positions (maze.cpp) -/

/-- The world position `{x * TILE_SIZE + TILE_SIZE/2.0f, y * TILE_SIZE + TILE_SIZE/2.0f}`
that the code returns for the tile `(x, y)`. -/
def tileCentre (fa : FloatArith) (x y : Int) : ℚ × ℚ :=
  (fa.add ((x * TILE_SIZE : Int) : ℚ) 15, fa.add ((y * TILE_SIZE : Int) : ℚ) 15)

/-- The cells `(x, y)` in the order of
`for (y = y0; y < y1; y++) for (x = x0; x < x1; x++)`. -/
def scanCells (x0 x1 y0 y1 : Int) : List (Int × Int) :=
  (List.range (y1 - y0).toNat).flatMap
    (fun (j : Nat) =>
      (List.range (x1 - x0).toNat).map (fun (i : Nat) => (x0 + (i : Int), y0 + (j : Int))))

/-- The element `validTiles[dis(gen)]`, where `dis(gen)` is drawn from
`0 .. validTiles.size() - 1`: the draw `pick` is taken modulo the size. -/
def pickTile (validTiles : List (Int × Int)) (pick : Nat) : Int × Int :=
  validTiles.getD (pick % validTiles.length) (0, 0)

/-- The test of `Maze::getPlayerStart` on the tile `(x, y)`. -/
def Maze.startCandidate (m : Maze) (c : Int × Int) : Bool :=
  let centerX := WIDTH / 2
  let centerY := HEIGHT / 2
  let centerRoomRadius : Int := 5
  if m.tiles c.2 c.1 = TileType.Empty then
    let distToExit : Int := |c.1 - (WIDTH - 2)| + |c.2 - (HEIGHT - 2)|
    let tooCloseToCenter : Bool :=
      if m.mazeType = MazeType.STANDARD then
        let distToCenter := max |c.1 - centerX| |c.2 - centerY|
        decide (distToCenter ≤ centerRoomRadius)
      else false
    decide (distToExit > 5) && !tooCloseToCenter
  else false

/-- `Maze::getPlayerStart`; `pick` is the random draw. -/
def Maze.getPlayerStart (fa : FloatArith) (pick : Nat) (m : Maze) : ℚ × ℚ :=
  let validTiles := (scanCells 2 (WIDTH - 3) 2 (HEIGHT - 3)).filter m.startCandidate
  if validTiles = [] then tileCentre fa 2 2
  else tileCentre fa (pickTile validTiles pick).1 (pickTile validTiles pick).2

/-- `Maze::getExitPos`. -/
def Maze.getExitPos (fa : FloatArith) (_m : Maze) : ℚ × ℚ :=
  tileCentre fa (WIDTH - 2) (HEIGHT - 2)

/-- The sum `dx * dx + dy * dy` of two `int` differences, as an `int`. -/
def distSq (x y px py : Int) : Int :=
  let dx := wrapInt (x - px)
  let dy := wrapInt (y - py)
  wrapInt (wrapInt (dx * dx) + wrapInt (dy * dy))

/-- The loop over `existingZombies` in `Maze::getSpawnPositionAwayFromZombies`
for the tile `(x, y)`: the value of `minZombieDist`. -/
def minZombieDist (fa : FloatArith) (existingZombies : List (ℚ × ℚ)) (x y : Int) : ℚ :=
  existingZombies.foldl
    (fun minDist zombiePos =>
      let zx := tileOf fa zombiePos.1
      let zy := tileOf fa zombiePos.2
      let zombieDist := fa.sqrt ((distSq x y zx zy : Int) : ℚ)
      if zombieDist < minDist then zombieDist else minDist)
    999999

/-- The test of the first pair of loops of `getSpawnPositionAwayFromZombies`. -/
def Maze.idealSpawn (fa : FloatArith) (m : Maze) (existingZombies : List (ℚ × ℚ))
    (playerTileX playerTileY : Int) (c : Int × Int) : Bool :=
  if m.tiles c.2 c.1 = TileType.Empty then
    if distSq c.1 c.2 playerTileX playerTileY > 100 then
      decide (minZombieDist fa existingZombies c.1 c.2 > 8)
    else false
  else false

/-- The test of the second pair of loops of `getSpawnPositionAwayFromZombies`. -/
def Maze.relaxedSpawn (m : Maze) (playerTileX playerTileY : Int) (c : Int × Int) : Bool :=
  if m.tiles c.2 c.1 = TileType.Empty then
    decide (distSq c.1 c.2 playerTileX playerTileY > 64)
  else false

/-- `Maze::getSpawnPositionAwayFromZombies`; `pick` is the random draw. -/
def Maze.getSpawnPositionAwayFromZombies (fa : FloatArith) (pick : Nat) (m : Maze)
    (existingZombies : List (ℚ × ℚ)) (playerPos : ℚ × ℚ) : ℚ × ℚ :=
  let playerTileX := tileOf fa playerPos.1
  let playerTileY := tileOf fa playerPos.2
  let ideal := (scanCells 2 (WIDTH - 2) 2 (HEIGHT - 2)).filter
    (m.idealSpawn fa existingZombies playerTileX playerTileY)
  let validTiles :=
    if ideal = [] then
      (scanCells 2 (WIDTH - 2) 2 (HEIGHT - 2)).filter (m.relaxedSpawn playerTileX playerTileY)
    else ideal
  if validTiles ≠ [] then
    tileCentre fa (pickTile validTiles pick).1 (pickTile validTiles pick).2
  else tileCentre fa 5 5

/-- A tile of the rows 2 to `HEIGHT - 3` and the columns 2 to `WIDTH - 3` that
is `Empty`. -/
def SpawnTile (m : Maze) (c : Int × Int) : Prop :=
  2 ≤ c.1 ∧ c.1 ≤ WIDTH - 3 ∧ 2 ≤ c.2 ∧ c.2 ≤ HEIGHT - 3 ∧ m.tiles c.2 c.1 = TileType.Empty

/-- The tile `c` is more than `r` tiles from the tile `p`. -/
def FartherThan (r : Int) (c p : Int × Int) : Prop :=
  (c.1 - p.1) * (c.1 - p.1) + (c.2 - p.2) * (c.2 - p.2) > r * r

/-- A spawn tile more than 10 tiles from the player's tile and more than 8
tiles from the tile of every existing zombie. -/
def IdealSpawn (fa : FloatArith) (m : Maze) (existingZombies : List (ℚ × ℚ))
    (playerPos : ℚ × ℚ) (c : Int × Int) : Prop :=
  SpawnTile m c ∧ FartherThan 10 c (tileOf fa playerPos.1, tileOf fa playerPos.2) ∧
    ∀ z ∈ existingZombies, FartherThan 8 c (tileOf fa z.1, tileOf fa z.2)

/-- A spawn tile more than 8 tiles from the player's tile. -/
def RelaxedSpawn (fa : FloatArith) (m : Maze) (playerPos : ℚ × ℚ) (c : Int × Int) : Prop :=
  SpawnTile m c ∧ FartherThan 8 c (tileOf fa playerPos.1, tileOf fa playerPos.2)

/-- A square root on the rationals, rounded down to a multiple of
`1 / (q.den * 2 ^ 24)`. -/
def fineSqrt (q : ℚ) : ℚ :=
  (Nat.sqrt (q.num.toNat * q.den * 2 ^ 48) : ℚ) / ((q.den : ℚ) * 2 ^ 24)

/-- Arithmetic without rounding, with the square root `fineSqrt`. -/
def fineArith : FloatArith :=
  { add := fun a b => a + b, sub := fun a b => a - b, mul := fun a b => a * b,
    div := fun a b => a / b, sqrt := fineSqrt }

/-! ## The wall search of the first-person view (game.cpp) -/

/-- The variables that the DDA loop of `renderFirstPersonView` assigns. `F` is
the type of the values of `float`. -/
structure DdaState (F : Type) where
  sideDistX : F
  sideDistY : F
  mapX : Int
  mapY : Int
  side : Int
  hit : Bool

/-- The loop `while (!hit && perpWallDist < 2000.0f)` of `renderFirstPersonView`.
`add` and `less` are the addition and the comparison of `float`; the loop does
not assign `perpWallDist`. The assignment to `isSafeRoomWall` is left out. -/
def ddaLoop {F : Type} (add : F → F → F) (less : F → F → Bool) (maze : Maze)
    (deltaX deltaY : F) (stepX stepY : Int) (perpWallDist : ℚ) :
    Nat → DdaState F → Option (DdaState F)
  | 0, _ => none
  | fuel + 1, s =>
    if s.hit = false ∧ perpWallDist < 2000 then
      let s1 : DdaState F :=
        if less s.sideDistX s.sideDistY then
          { s with sideDistX := add s.sideDistX deltaX, mapX := s.mapX + stepX, side := 0 }
        else
          { s with sideDistY := add s.sideDistY deltaY, mapY := s.mapY + stepY, side := 1 }
      let s2 : DdaState F := if maze.isWall s1.mapX s1.mapY then { s1 with hit := true } else s1
      ddaLoop add less maze deltaX deltaY stepX stepY perpWallDist fuel s2
    else some s

/-- The wall search for one screen column, from the values that the variables
have when the loop is entered: `rayDirXPos` is `rayDirX > 0`, `rayDirYPos` is
`rayDirY > 0`, and `(mapX, mapY)` is the tile of the viewer. -/
def ddaSearch {F : Type} (add : F → F → F) (less : F → F → Bool) (maze : Maze)
    (rayDirXPos rayDirYPos : Bool) (mapX mapY : Int) (sideDistX sideDistY deltaX deltaY : F)
    (fuel : Nat) : Option (DdaState F) :=
  let stepX : Int := if rayDirXPos then 1 else -1
  let stepY : Int := if rayDirYPos then 1 else -1
  ddaLoop add less maze deltaX deltaY stepX stepY 0 fuel
    { sideDistX := sideDistX, sideDistY := sideDistY, mapX := mapX, mapY := mapY,
      side := 0, hit := false }

/-- Grid steps left before the search leaves the grid in the direction of the ray. -/
def ddaMeasure (rayDirXPos rayDirYPos : Bool) (mapX mapY : Int) : Int :=
  (if rayDirXPos then WIDTH - mapX else mapX + 1) +
  (if rayDirYPos then HEIGHT - mapY else mapY + 1)

/-- A zombie that chases and whose cursor has reached the end of its path of
one cell. -/
def exhaustedZombie : Zombie :=
  { idleZombie with path := [(1, 2)], pathIndex := 1, isChasing := true }

/-- The zombie of scenario D after its death: built with health 1 and hit once. -/
def fallenZombie : Zombie := (Zombie.construct 45 45 1 ZombieType.NORMAL).takeDamage 1

/-- A zombie without a path. -/
def lostZombie : Zombie := { idleZombie with path := [], pathIndex := 0 }

/-! ## Lemmas on the open set -/

theorem foldl_min_le_init (ns : List Node) (a : Nat) :
    ns.foldl (fun m k => min m k.f) a ≤ a := by
  induction ns generalizing a with
  | nil => simp
  | cons n ns ih => exact le_trans (ih _) (min_le_left _ _)

theorem foldl_min_le_mem (ns : List Node) (a : Nat) (m : Node) (hm : m ∈ ns) :
    ns.foldl (fun m k => min m k.f) a ≤ m.f := by
  induction ns generalizing a with
  | nil => simp at hm
  | cons n ns ih =>
    rcases List.mem_cons.1 hm with h | h
    · subst h
      exact le_trans (foldl_min_le_init ns _) (min_le_right _ _)
    · exact ih _ h

theorem foldl_min_attained (ns : List Node) (a : Nat) :
    ns.foldl (fun m k => min m k.f) a = a ∨
      ∃ m ∈ ns, ns.foldl (fun m k => min m k.f) a = m.f := by
  induction ns generalizing a with
  | nil => simp
  | cons n ns ih =>
    rcases ih (min a n.f) with h | ⟨m, hm, h⟩
    · rcases min_choice a n.f with h2 | h2
      · left; simp only [List.foldl_cons]; rw [h, h2]
      · right; exact ⟨n, List.mem_cons_self _ _, by simp only [List.foldl_cons]; rw [h, h2]⟩
    · right; exact ⟨m, List.mem_cons_of_mem _ hm, h⟩

theorem minF_le (o : List Node) (m : Node) (hm : m ∈ o) : minF o ≤ m.f := by
  cases o with
  | nil => simp at hm
  | cons n ns =>
    rcases List.mem_cons.1 hm with h | h
    · subst h; exact foldl_min_le_init ns _
    · exact foldl_min_le_mem ns _ m h

theorem minF_attained (o : List Node) (ho : o ≠ []) : ∃ m ∈ o, m.f = minF o := by
  cases o with
  | nil => exact absurd rfl ho
  | cons n ns =>
    rcases foldl_min_attained ns n.f with h | ⟨m, hm, h⟩
    · exact ⟨n, List.mem_cons_self _ _, h.symm⟩
    · exact ⟨m, List.mem_cons_of_mem _ hm, h.symm⟩

theorem topIndices_ne_nil (o : List Node) (ho : o ≠ []) : topIndices o ≠ [] := by
  obtain ⟨m, hm, hf⟩ := minF_attained o ho
  obtain ⟨i, hi, hget⟩ := List.getElem_of_mem hm
  intro hnil
  have hmem : i ∈ topIndices o := by
    unfold topIndices
    rw [List.mem_filter]
    refine ⟨List.mem_range.2 hi, ?_⟩
    rw [List.get?_eq_getElem?, List.getElem?_eq_getElem hi, hget]
    simpa using hf
  rw [hnil] at hmem
  simp at hmem

theorem topIndices_spec (o : List Node) (i : Nat) (hi : i ∈ topIndices o) :
    ∃ n, o.get? i = some n ∧ n.f = minF o := by
  unfold topIndices at hi
  rw [List.mem_filter] at hi
  obtain ⟨_, h2⟩ := hi
  cases hg : o.get? i with
  | none => rw [hg] at h2; simp at h2
  | some n => rw [hg] at h2; exact ⟨n, rfl, by simpa using h2⟩

theorem popTop_nil (tie : Nat) : popTop tie [] = none := by
  simp [popTop]

/-- What `popTop` returns on a non-empty open set. -/
theorem popTop_some (tie : Nat) (o : List Node) (ho : o ≠ []) :
    ∃ n i, popTop tie o = some (n, o.eraseIdx i) ∧ i < o.length ∧ o.get? i = some n ∧
      ∀ m ∈ o, n.f ≤ m.f := by
  have hne := topIndices_ne_nil o ho
  have hlen : 0 < (topIndices o).length := List.length_pos.2 hne
  have hlt : tie % (topIndices o).length < (topIndices o).length := Nat.mod_lt _ hlen
  have hmem : (topIndices o).getD (tie % (topIndices o).length) 0 ∈ topIndices o := by
    rw [List.getD_eq_getElem _ _ hlt]
    exact List.getElem_mem _
  obtain ⟨n, hget, hf⟩ := topIndices_spec o _ hmem
  refine ⟨n, _, ?_, ?_, hget, ?_⟩
  · simp only [popTop, hget]
  · by_contra hge
    have : o.get? ((topIndices o).getD (tie % (topIndices o).length) 0) = none := by
      rw [List.get?_eq_getElem?]
      exact List.getElem?_eq_none (Nat.le_of_not_lt hge)
    rw [this] at hget
    cases hget
  · intro m hm
    rw [hf]
    exact minF_le o m hm

/-! ## Lemmas on moves -/

theorem dir_cases (i : Nat) (hi : i < 8) :
    i = 0 ∨ i = 1 ∨ i = 2 ∨ i = 3 ∨ i = 4 ∨ i = 5 ∨ i = 6 ∨ i = 7 := by omega

theorem neighbor_eq (maze : Maze) (gx gy : Int) (closed : Closed) (cur : Node) (i : Nat) :
    neighbor maze gx gy closed cur i =
      if moveAllowed maze cur.cell i = true ∧
          closedHas closed (cellKey (cur.x + dirX i) (cur.y + dirY i)) = false then
        some { x := cur.x + dirX i, y := cur.y + dirY i, g := cur.g + stepCost i,
               h := heuristic (cur.x + dirX i) (cur.y + dirY i) gx gy,
               parent := (cur.x, cur.y) }
      else none := by
  unfold neighbor moveAllowed Node.cell
  simp only []
  split_ifs with h1 h2 h3 h4 h5 h5 h5 h5 h5 <;> simp_all

theorem step_chebyshev (maze : Maze) (a b : Cell) (h : Step maze a b) : chebyshev a b = 1 := by
  obtain ⟨i, hi, _, rfl⟩ := h
  rcases dir_cases i hi with h | h | h | h | h | h | h | h <;> subst h <;>
    simp [chebyshev, dirX, dirY]

theorem step_notWall (maze : Maze) (a b : Cell) (h : Step maze a b) :
    maze.isWall b.1 b.2 = false := by
  obtain ⟨i, _, hm, rfl⟩ := h
  unfold moveAllowed at hm
  simp only [Bool.and_eq_true, Bool.not_eq_true'] at hm
  exact hm.1.2

theorem step_inGrid (maze : Maze) (a b : Cell) (h : Step maze a b) : inGrid b := by
  obtain ⟨i, _, hm, rfl⟩ := h
  unfold moveAllowed at hm
  simp only [Bool.and_eq_true, decide_eq_true_eq] at hm
  have := hm.1.1
  unfold inGrid
  simp only
  omega

theorem axisStep_step (maze : Maze) (a b : Cell) (h : AxisStep maze a b) : Step maze a b := by
  obtain ⟨i, hi, hm, hb⟩ := h
  exact ⟨i, by omega, hm, hb⟩

theorem stepCost_eq_moveCost (a : Cell) (i : Nat) (hi : i < 8) :
    stepCost i = moveCost a (a.1 + dirX i, a.2 + dirY i) := by
  rcases dir_cases i hi with h | h | h | h | h | h | h | h <;> subst h <;>
    simp [stepCost, moveCost, dirX, dirY]

/-! ## Lemmas on the closed set -/

theorem cellKey_inj (a b : Cell) (ha : inGrid a) (hb : inGrid b)
    (h : cellKey a.1 a.2 = cellKey b.1 b.2) : a = b := by
  unfold inGrid at ha hb
  unfold cellKey at h
  simp only [WIDTH, HEIGHT] at ha hb h
  have h1 : a.1 = b.1 := by omega
  have h2 : a.2 = b.2 := by omega
  exact Prod.ext h1 h2

theorem closedHas_iff_key (closed : Closed) (k : Int) :
    closedHas closed k = true ↔ ∃ e ∈ closed, e.1 = k := by
  simp [closedHas]

theorem Linked.mono {maze : Maze} {start goal : Cell} {closed : Closed} {n : Node}
    (e : Int × Node) (h : Linked maze start goal closed n) :
    Linked maze start goal (e :: closed) n := by
  obtain ⟨h1, h2, h3⟩ := h
  refine ⟨h1, h2, ?_⟩
  rcases h3 with h3 | ⟨p, i, hp, h4⟩
  · exact Or.inl h3
  · exact Or.inr ⟨p, i, List.mem_cons_of_mem _ hp, h4⟩

theorem ClosedOK.entry {maze : Maze} {start goal : Cell} {closed : Closed}
    (h : ClosedOK maze start goal closed) (e : Int × Node) (he : e ∈ closed) :
    e.1 = cellKey e.2.x e.2.y ∧ inGrid e.2.cell ∧
      e.2.h = heuristic e.2.x e.2.y goal.1 goal.2 := by
  induction closed with
  | nil => simp at he
  | cons d rest ih =>
    obtain ⟨h1, _, h3, h4⟩ := h
    rcases List.mem_cons.1 he with rfl | h5
    · exact ⟨h1, h3.2.1, h3.1⟩
    · exact ih h4 h5

theorem ClosedOK.has_iff {maze : Maze} {start goal : Cell} {closed : Closed}
    (h : ClosedOK maze start goal closed) (c : Cell) (hc : inGrid c) :
    closedHas closed (cellKey c.1 c.2) = true ↔ c ∈ closedCells closed := by
  rw [closedHas_iff_key]
  unfold closedCells
  rw [List.mem_map]
  constructor
  · rintro ⟨e, he, hk⟩
    obtain ⟨h1, h2, _⟩ := h.entry e he
    refine ⟨e, he, ?_⟩
    apply cellKey_inj _ _ h2 hc
    rw [← hk, h1]
    rfl
  · rintro ⟨e, he, rfl⟩
    exact ⟨e, he, (h.entry e he).1⟩

theorem ClosedOK.at_mem {maze : Maze} {start goal : Cell} {closed : Closed}
    (h : ClosedOK maze start goal closed) (k : Int) (p : Node) (hp : (k, p) ∈ closed) :
    closedAt closed k = p := by
  induction closed with
  | nil => simp at hp
  | cons d rest ih =>
    obtain ⟨_, h2, _, h4⟩ := h
    rcases List.mem_cons.1 hp with h5 | h5
    · subst h5
      simp [closedAt]
    · have hne : d.1 ≠ k := by
        intro heq
        have : closedHas rest d.1 = true := by
          rw [closedHas_iff_key]
          exact ⟨(k, p), h5, heq.symm⟩
        rw [h2] at this
        cases this
      have := ih h4 h5
      unfold closedAt at this ⊢
      rw [List.find?_cons_of_neg]
      · exact this
      · simpa using hne

theorem ClosedOK.keys_nodup {maze : Maze} {start goal : Cell} {closed : Closed}
    (h : ClosedOK maze start goal closed) : (closed.map Prod.fst).Nodup := by
  induction closed with
  | nil => simp
  | cons d rest ih =>
    obtain ⟨_, h2, _, h4⟩ := h
    rw [List.map_cons, List.nodup_cons]
    refine ⟨?_, ih h4⟩
    intro hmem
    rw [List.mem_map] at hmem
    obtain ⟨e, he, hk⟩ := hmem
    have : closedHas rest d.1 = true := by
      rw [closedHas_iff_key]
      exact ⟨e, he, hk⟩
    rw [h2] at this
    cases this

theorem ClosedOK.length_le {maze : Maze} {start goal : Cell} {closed : Closed}
    (h : ClosedOK maze start goal closed) : closed.length ≤ 768 := by
  have hnd := h.keys_nodup
  have hsub : (closed.map Prod.fst).toFinset ⊆ Finset.Ico (0 : Int) 768 := by
    intro k hk
    rw [List.mem_toFinset, List.mem_map] at hk
    obtain ⟨e, he, rfl⟩ := hk
    obtain ⟨h1, h2, _⟩ := h.entry e he
    unfold inGrid Node.cell at h2
    simp only at h2
    rw [Finset.mem_Ico, h1]
    unfold cellKey
    simp only [WIDTH, HEIGHT] at h2 ⊢
    constructor <;> omega
  have hcard := Finset.card_le_card hsub
  rw [List.toFinset_card_of_nodup hnd, Int.card_Ico] at hcard
  simpa using hcard

theorem ClosedOK.start_mem {maze : Maze} {start goal : Cell} {closed : Closed}
    (h : ClosedOK maze start goal closed) (hne : closed ≠ []) :
    start ∈ closedCells closed := by
  induction closed with
  | nil => exact absurd rfl hne
  | cons d rest ih =>
    obtain ⟨_, _, h3, h4⟩ := h
    unfold closedCells
    rw [List.map_cons]
    rcases h3.2.2 with h5 | ⟨p, i, hp, _⟩
    · rw [← h5.2.1]
      exact List.mem_cons_self _ _
    · apply List.mem_cons_of_mem
      exact ih h4 (List.ne_nil_of_mem hp)

/-! ## Lemmas on walks -/

theorem walkEnd_snoc (a c : Cell) (q : List Cell) : walkEnd a (q ++ [c]) = c := by
  induction q generalizing a with
  | nil => rfl
  | cons b q ih => exact ih b

theorem walkEnd_append (a : Cell) (q r : List Cell) :
    walkEnd a (q ++ r) = walkEnd (walkEnd a q) r := by
  induction q generalizing a with
  | nil => rfl
  | cons b q ih => exact ih b

theorem walkEnd_getLast (a : Cell) (q : List Cell) (hq : q ≠ []) :
    q.getLast? = some (walkEnd a q) := by
  induction q generalizing a with
  | nil => exact absurd rfl hq
  | cons b q ih =>
    cases q with
    | nil => rfl
    | cons c q =>
      have := ih b (by simp)
      rw [List.getLast?_cons_cons]
      exact this

theorem walkEnd_mem (a : Cell) (q : List Cell) (hq : q ≠ []) : walkEnd a q ∈ q := by
  have := walkEnd_getLast a q hq
  exact List.mem_of_getLast?_eq_some this

theorem chain_snoc {R : Cell → Cell → Prop} (a c : Cell) (q : List Cell)
    (h : List.Chain R a q) (hc : R (walkEnd a q) c) : List.Chain R a (q ++ [c]) := by
  induction q generalizing a with
  | nil => exact List.Chain.cons hc List.Chain.nil
  | cons b q ih =>
    rw [List.chain_cons] at h
    exact List.Chain.cons h.1 (ih b h.2 hc)

theorem chain_append {R : Cell → Cell → Prop} (a : Cell) (q r : List Cell)
    (h : List.Chain R a q) (hr : List.Chain R (walkEnd a q) r) : List.Chain R a (q ++ r) := by
  induction q generalizing a with
  | nil => exact hr
  | cons b q ih =>
    rw [List.chain_cons] at h
    exact List.Chain.cons h.1 (ih b h.2 hr)

theorem pathCost_snoc (a c : Cell) (q : List Cell) :
    pathCost a (q ++ [c]) = pathCost a q + moveCost (walkEnd a q) c := by
  induction q generalizing a with
  | nil => simp [pathCost, walkEnd]
  | cons b q ih =>
    show moveCost a b + pathCost b (q ++ [c]) = moveCost a b + pathCost b q + moveCost (walkEnd b q) c
    rw [ih b]
    omega

/-! ## Path reconstruction -/

theorem reconstruct_mono (closed : Closed) (fuel : Nat) (n : Node) (l : List Cell)
    (h : reconstruct closed fuel n = some l) : reconstruct closed (fuel + 1) n = some l := by
  induction fuel generalizing n l with
  | zero => simp [reconstruct] at h
  | succ k ih =>
    rw [reconstruct] at h ⊢
    split_ifs at h ⊢ with h1
    · exact h
    · cases hr : reconstruct closed k (closedAt closed (cellKey n.parent.1 n.parent.2)) with
      | none => rw [hr] at h; cases h
      | some l2 =>
        rw [hr] at h
        rw [ih _ _ hr]
        exact h

/-- The reconstruction started at a linked node that is not yet in the closed
set `s` (a final segment of the whole closed set) returns, in reverse, a walk
of allowed moves from the start to the node, without repetition, that avoids
the start cell and costs the `g` of the node. -/
theorem reconstruct_spec {maze : Maze} {start goal : Cell} (full : Closed)
    (hfull : ClosedOK maze start goal full) :
    ∀ (s : Closed), (∀ e ∈ s, e ∈ full) → ClosedOK maze start goal s →
    ∀ n, Linked maze start goal s n → n.cell ∉ closedCells s →
    ∃ l, reconstruct full (s.length + 1) n = some l ∧
      List.Chain (Step maze) start l.reverse ∧ walkEnd start l.reverse = n.cell ∧
      l.Nodup ∧ start ∉ l ∧ (∀ c ∈ l, c = n.cell ∨ c ∈ closedCells s) ∧
      pathCost start l.reverse = n.g ∧ (n.cell = start → l = []) := by
  intro s
  induction s with
  | nil =>
    intro _ _ n hn _
    rcases hn.2.2 with h | ⟨p, i, hp, _⟩
    · refine ⟨[], ?_, ?_⟩
      · simp [reconstruct, h.1]
      · simp [walkEnd, pathCost, h.2.1, h.2.2]
    · simp at hp
  | cons e s ih =>
    intro hsub hs n hn hfresh
    obtain ⟨he1, he2, he3, he4⟩ := hs
    have hsub2 : ∀ d ∈ s, d ∈ full := fun d hd => hsub d (List.mem_cons_of_mem _ hd)
    rcases hn.2.2 with h | ⟨p, i, hp, hpar, hi, hmv, hcell, hg⟩
    · refine ⟨[], ?_, ?_⟩
      · simp [reconstruct, h.1]
      · simp [walkEnd, pathCost, h.2.1, h.2.2]
    · rcases List.mem_cons.1 hp with hpe | hps
      · -- the parent is the newest entry of `s`
        subst hpe
        simp only at he1 he2 he3
        have hpfresh : p.cell ∉ closedCells s := by
          intro hmem
          have := (he4.has_iff p.cell he3.2.1).2 hmem
          simp only [Node.cell] at this
          rw [he2] at this
          cases this
        obtain ⟨lp, hlp, hchain, hend, hnd, hst, hin, hcost, _⟩ :=
          ih hsub2 he4 p he3 hpfresh
        have hpin : inGrid p.cell := he3.2.1
        have hpar1 : n.parent.1 ≠ -1 := by
          rw [hpar]
          unfold inGrid at hpin
          omega
        have hat : closedAt full (cellKey n.parent.1 n.parent.2) = p := by
          apply hfull.at_mem
          rw [hpar]
          exact hsub _ hp
        have hstart : start ∈ closedCells ((cellKey p.x p.y, p) :: s) :=
          @ClosedOK.start_mem maze start goal _ ⟨rfl, he2, he3, he4⟩ (by simp)
        have hne : n.cell ≠ start := fun hh => hfresh (hh ▸ hstart)
        have hinp : ∀ c ∈ lp, c ∈ closedCells ((cellKey p.x p.y, p) :: s) := by
          intro c hc
          unfold closedCells
          rw [List.map_cons]
          rcases hin c hc with h1 | h1
          · rw [h1]; exact List.mem_cons_self _ _
          · exact List.mem_cons_of_mem _ h1
        refine ⟨n.cell :: lp, ?_, ?_, ?_, ?_, ?_, ?_, ?_, ?_⟩
        · rw [List.length_cons, reconstruct, if_neg hpar1, hat, hlp]
          rfl
        · rw [List.reverse_cons]
          apply chain_snoc _ _ _ hchain
          rw [hend]
          exact ⟨i, hi, hmv, hcell⟩
        · rw [List.reverse_cons, walkEnd_snoc]
        · rw [List.nodup_cons]
          exact ⟨fun hc => hfresh (hinp _ hc), hnd⟩
        · intro hc
          rcases List.mem_cons.1 hc with h1 | h1
          · exact hne h1.symm
          · exact hst h1
        · intro c hc
          rcases List.mem_cons.1 hc with h1 | h1
          · exact Or.inl h1
          · exact Or.inr (hinp c h1)
        · rw [List.reverse_cons, pathCost_snoc, hcost, hend, hg, hcell]
          rw [stepCost_eq_moveCost p.cell i hi]
          rfl
        · intro hh
          exact absurd hh hne
      · -- the parent is an older entry: the node is linked to `s` already
        have hn2 : Linked maze start goal s n :=
          ⟨hn.1, hn.2.1, Or.inr ⟨p, i, hps, hpar, hi, hmv, hcell, hg⟩⟩
        have hfresh2 : n.cell ∉ closedCells s := by
          intro hmem
          apply hfresh
          unfold closedCells at hmem ⊢
          rw [List.map_cons]
          exact List.mem_cons_of_mem _ hmem
        obtain ⟨l, hl, hchain, hend, hnd, hst, hin, hcost, hemp⟩ := ih hsub2 he4 n hn2 hfresh2
        refine ⟨l, reconstruct_mono _ _ _ _ hl, hchain, hend, hnd, hst, ?_, hcost, hemp⟩
        intro c hc
        rcases hin c hc with h1 | h1
        · exact Or.inl h1
        · right
          unfold closedCells at h1 ⊢
          rw [List.map_cons]
          exact List.mem_cons_of_mem _ h1

/-! ## The search loop -/

theorem heuristic_axisStep (maze : Maze) (goal a b : Cell) (h : AxisStep maze a b) :
    heuristic a.1 a.2 goal.1 goal.2 ≤ 1 + heuristic b.1 b.2 goal.1 goal.2 := by
  obtain ⟨i, hi, _, rfl⟩ := h
  have hc : i = 0 ∨ i = 1 ∨ i = 2 ∨ i = 3 := by omega
  rcases hc with h | h | h | h <;> subst h <;> simp only [heuristic, dirX, dirY] <;> omega

theorem heuristic_walk (maze : Maze) (goal : Cell) (q : List Cell) (a : Cell)
    (h : List.Chain (AxisStep maze) a q) :
    heuristic a.1 a.2 goal.1 goal.2 ≤
      q.length + heuristic (walkEnd a q).1 (walkEnd a q).2 goal.1 goal.2 := by
  induction q generalizing a with
  | nil => simp [walkEnd]
  | cons b q ih =>
    rw [List.chain_cons] at h
    have h1 := heuristic_axisStep maze goal a b h.1
    have h2 := ih b h.2
    simp only [walkEnd, List.length_cons]
    omega

theorem mem_closedCells (closed : Closed) (c : Cell) :
    c ∈ closedCells closed ↔ ∃ e ∈ closed, e.2.cell = c := by
  unfold closedCells
  rw [List.mem_map]

/-- Along an axis walk that leaves the closed set, some open node has a small `f`. -/
theorem open_node_on_walk {maze : Maze} {start goal : Cell} {openSet : List Node}
    {closed : Closed} (inv : SearchInv maze start goal openSet closed) :
    ∀ (q : List Cell) (a : Cell) (q0 : List Cell),
      List.Chain (AxisStep maze) start q0 → walkEnd start q0 = a →
      a ∈ closedCells closed → List.Chain (AxisStep maze) a q →
      walkEnd a q ∉ closedCells closed →
      ∃ m ∈ openSet, m.f ≤ 1000 * (q0.length + q.length) +
        1000 * heuristic (walkEnd a q).1 (walkEnd a q).2 goal.1 goal.2 := by
  intro q
  induction q with
  | nil =>
    intro a q0 _ _ ha _ hend
    exact absurd ha hend
  | cons c q ih =>
    intro a q0 hq0 hend0 ha hq hend
    rw [List.chain_cons] at hq
    obtain ⟨hstep, hrest⟩ := hq
    by_cases hc : c ∈ closedCells closed
    · have := ih c (q0 ++ [c]) (chain_snoc _ _ _ hq0 (hend0 ▸ hstep)) (walkEnd_snoc _ _ _) hc
        hrest hend
      obtain ⟨m, hm, hf⟩ := this
      refine ⟨m, hm, ?_⟩
      simp only [List.length_append, List.length_singleton, List.length_cons, List.length_nil,
        walkEnd] at hf ⊢
      omega
    · obtain ⟨e, he, hea⟩ := (mem_closedCells closed a).1 ha
      have hg := inv.axisBound e he q0 hq0 (hend0.trans hea.symm)
      obtain ⟨i, hi, hmv, hci⟩ := hstep
      rw [← hea] at hmv hci
      rcases inv.frontier e he i (by omega) hmv with h1 | ⟨m, hm, hmc, hmg⟩
      · exact absurd (hci ▸ h1) hc
      · refine ⟨m, hm, ?_⟩
        have hmh := (inv.openLinked m hm).1
        have hw := heuristic_walk maze goal q c hrest
        have hmc2 : m.cell = c := hmc.trans hci.symm
        have hx : m.x = c.1 := congrArg Prod.fst hmc2
        have hy : m.y = c.2 := congrArg Prod.snd hmc2
        rw [hx, hy] at hmh
        have hcost : stepCost i = 1000 := by simp [stepCost, hi]
        simp only [Node.f, List.length_cons, walkEnd] at hmg ⊢
        omega

/-- The node taken from the open set, when its cell is not closed yet, costs
no more than any walk of axis moves from the start to its cell. -/
theorem axis_bound_pop {maze : Maze} {start goal : Cell} {openSet : List Node}
    {closed : Closed} (inv : SearchInv maze start goal openSet closed) (n : Node)
    (hn : n ∈ openSet) (hmin : ∀ m ∈ openSet, n.f ≤ m.f)
    (hfresh : n.cell ∉ closedCells closed) (q : List Cell)
    (hq : List.Chain (AxisStep maze) start q) (hend : walkEnd start q = n.cell) :
    n.g ≤ 1000 * q.length := by
  have hl := inv.openLinked n hn
  by_cases hc : closed = []
  · rcases hl.2.2 with h | ⟨p, i, hp, _⟩
    · rw [h.2.2]; exact Nat.zero_le _
    · rw [hc] at hp; simp at hp
  · have hs := inv.closedOK.start_mem hc
    obtain ⟨m, hm, hf⟩ := open_node_on_walk inv q start [] List.Chain.nil rfl hs hq
      (hend ▸ hfresh)
    have h1 := hmin m hm
    have h2 := hl.1
    rw [hend] at hf
    simp only [Node.f, Node.cell, List.length_nil] at h1 hf
    omega

/-- When the open set is empty the closed set holds every reachable cell, and
the goal is not among them. -/
theorem unreachable_of_open_nil {maze : Maze} {start goal : Cell} {closed : Closed}
    (inv : SearchInv maze start goal [] closed) : ¬ Reachable maze start goal := by
  have hne : closed ≠ [] := fun hc => inv.startSeen hc rfl
  have hs := inv.closedOK.start_mem hne
  have key : ∀ (p : List Cell) (c : Cell), c ∈ closedCells closed →
      List.Chain (Step maze) c p → walkEnd c p ∈ closedCells closed := by
    intro p
    induction p with
    | nil => intro c hc _; exact hc
    | cons b p ih =>
      intro c hc hp
      rw [List.chain_cons] at hp
      obtain ⟨e, he, hec⟩ := (mem_closedCells closed c).1 hc
      obtain ⟨i, hi, hmv, hb⟩ := hp.1
      rw [← hec] at hmv hb
      rcases inv.frontier e he i hi hmv with h1 | ⟨m, hm, _⟩
      · exact ih b (hb ▸ h1) hp.2
      · simp at hm
  rintro ⟨p, hp, hend⟩
  exact inv.goalOpen (hend ▸ key p start hs hp)

theorem mem_or_mem_eraseIdx (l : List Node) (i : Nat) (n m : Node)
    (hget : l.get? i = some n) (hm : m ∈ l) : m = n ∨ m ∈ l.eraseIdx i := by
  induction l generalizing i with
  | nil => simp at hm
  | cons a l ih =>
    cases i with
    | zero =>
      simp only [List.get?_cons_zero, Option.some.injEq] at hget
      rcases List.mem_cons.1 hm with h | h
      · exact Or.inl (h.trans hget)
      · exact Or.inr (by simpa using h)
    | succ k =>
      simp only [List.get?_cons_succ] at hget
      rcases List.mem_cons.1 hm with h | h
      · right; rw [h]; simp
      · rcases ih k hget h with h2 | h2
        · exact Or.inl h2
        · right; simp only [List.eraseIdx_cons_succ]; exact List.mem_cons_of_mem _ h2

theorem mem_expand (maze : Maze) (gx gy : Int) (closed : Closed) (cur m : Node) :
    m ∈ expand maze gx gy closed cur ↔
      ∃ i, i < 8 ∧ neighbor maze gx gy closed cur i = some m := by
  unfold expand
  rw [List.mem_filterMap]
  simp only [List.mem_range]

theorem expand_length (maze : Maze) (gx gy : Int) (closed : Closed) (cur : Node) :
    (expand maze gx gy closed cur).length ≤ 8 := by
  unfold expand
  have := List.length_filterMap_le (neighbor maze gx gy closed cur) (List.range 8)
  simpa using this

theorem moveAllowed_inGrid (maze : Maze) (a : Cell) (i : Nat)
    (h : moveAllowed maze a i = true) : inGrid (a.1 + dirX i, a.2 + dirY i) := by
  unfold moveAllowed at h
  simp only [Bool.and_eq_true, decide_eq_true_eq] at h
  have := h.1.1
  unfold inGrid
  simp only
  omega

/-- The invariant holds when the loop starts. -/
theorem searchInv_init (maze : Maze) (start goal : Cell) (hs : inGrid start) :
    SearchInv maze start goal
      [{ x := start.1, y := start.2, g := 0, h := heuristic start.1 start.2 goal.1 goal.2,
         parent := (-1, -1) }] [] where
  closedOK := trivial
  openLinked := by
    intro n hn
    rw [List.mem_singleton] at hn
    subst hn
    exact ⟨rfl, hs, Or.inl ⟨rfl, rfl, rfl⟩⟩
  startSeen := by intro _; simp
  goalOpen := by simp [closedCells]
  frontier := by intro e he; simp at he
  axisBound := by intro e he; simp at he

/-- The invariant survives the `continue` taken for an already closed cell. -/
theorem searchInv_skip {maze : Maze} {start goal : Cell} {openSet : List Node}
    {closed : Closed} (inv : SearchInv maze start goal openSet closed) (n : Node) (i : Nat)
    (hget : openSet.get? i = some n)
    (hclosed : closedHas closed (cellKey n.x n.y) = true) :
    SearchInv maze start goal (openSet.eraseIdx i) closed where
  closedOK := inv.closedOK
  openLinked := fun m hm => inv.openLinked m (List.mem_of_mem_eraseIdx hm)
  startSeen := by
    intro hc
    rw [hc] at hclosed
    simp [closedHas] at hclosed
  goalOpen := inv.goalOpen
  frontier := by
    intro e he j hj hmv
    rcases inv.frontier e he j hj hmv with h | ⟨m, hm, hmc, hmg⟩
    · exact Or.inl h
    · rcases mem_or_mem_eraseIdx openSet i n m hget hm with h | h
      · left
        rw [← hmc, h]
        have hn : n ∈ openSet := List.get?_mem hget
        exact (inv.closedOK.has_iff n.cell (inv.openLinked n hn).2.1).1 hclosed
      · exact Or.inr ⟨m, h, hmc, hmg⟩
  axisBound := inv.axisBound

/-- The invariant survives closing a cell other than the goal and pushing its
neighbours. -/
theorem searchInv_expand {maze : Maze} {start goal : Cell} {openSet : List Node}
    {closed : Closed} (inv : SearchInv maze start goal openSet closed) (n : Node) (i : Nat)
    (hget : openSet.get? i = some n) (hmin : ∀ m ∈ openSet, n.f ≤ m.f)
    (hclosed : closedHas closed (cellKey n.x n.y) = false)
    (hgoal : ¬ (n.x = goal.1 ∧ n.y = goal.2)) :
    SearchInv maze start goal
      (openSet.eraseIdx i ++ expand maze goal.1 goal.2 ((cellKey n.x n.y, n) :: closed) n)
      ((cellKey n.x n.y, n) :: closed) := by
  have hn : n ∈ openSet := List.get?_mem hget
  have hln := inv.openLinked n hn
  have hfresh : n.cell ∉ closedCells closed := by
    intro hc
    have := (inv.closedOK.has_iff n.cell hln.2.1).2 hc
    simp only [Node.cell] at this
    rw [hclosed] at this
    cases this
  have hok : ClosedOK maze start goal ((cellKey n.x n.y, n) :: closed) :=
    ⟨rfl, hclosed, hln, inv.closedOK⟩
  have hhead : n.cell ∈ closedCells ((cellKey n.x n.y, n) :: closed) := by
    unfold closedCells
    exact List.mem_cons_self _ _
  have htail : ∀ c, c ∈ closedCells closed → c ∈ closedCells ((cellKey n.x n.y, n) :: closed) := by
    intro c hc
    unfold closedCells at hc ⊢
    exact List.mem_cons_of_mem _ hc
  refine ⟨hok, ?_, ?_, ?_, ?_, ?_⟩
  · intro m hm
    rcases List.mem_append.1 hm with h | h
    · exact (inv.openLinked m (List.mem_of_mem_eraseIdx h)).mono _
    · obtain ⟨j, hj, hnb⟩ := (mem_expand _ _ _ _ _ _).1 h
      rw [neighbor_eq] at hnb
      split_ifs at hnb with hcond
      simp only [Option.some.injEq] at hnb
      subst hnb
      refine ⟨rfl, moveAllowed_inGrid maze n.cell j hcond.1, Or.inr ⟨n, j, ?_, rfl, hj, hcond.1, rfl, rfl⟩⟩
      exact List.mem_cons_self _ _
  · intro hc
    cases hc
  · intro hc
    unfold closedCells at hc
    rw [List.map_cons, List.mem_cons] at hc
    rcases hc with h | h
    · apply hgoal
      simp only [Node.cell] at h
      exact ⟨(congrArg Prod.fst h).symm, (congrArg Prod.snd h).symm⟩
    · exact inv.goalOpen h
  · intro e he j hj hmv
    rcases List.mem_cons.1 he with h | h
    · subst h
      simp only at hmv ⊢
      by_cases hc : closedHas ((cellKey n.x n.y, n) :: closed)
          (cellKey (n.x + dirX j) (n.y + dirY j)) = true
      · left
        exact (hok.has_iff (n.x + dirX j, n.y + dirY j) (moveAllowed_inGrid maze n.cell j hmv)).1 hc
      · right
        refine ⟨{ x := n.x + dirX j, y := n.y + dirY j, g := n.g + stepCost j,
                  h := heuristic (n.x + dirX j) (n.y + dirY j) goal.1 goal.2,
                  parent := (n.x, n.y) }, ?_, rfl, le_refl _⟩
        apply List.mem_append_right
        rw [mem_expand]
        refine ⟨j, hj, ?_⟩
        rw [neighbor_eq, if_pos]
        exact ⟨hmv, by simpa using hc⟩
    · rcases inv.frontier e h j hj hmv with h1 | ⟨m, hm, hmc, hmg⟩
      · exact Or.inl (htail _ h1)
      · rcases mem_or_mem_eraseIdx openSet i n m hget hm with h2 | h2
        · left
          rw [← hmc, h2]
          exact hhead
        · exact Or.inr ⟨m, List.mem_append_left _ h2, hmc, hmg⟩
  · intro e he q hq hend
    rcases List.mem_cons.1 he with h | h
    · subst h
      exact axis_bound_pop inv n hn hmin hfresh q hq hend
    · exact inv.axisBound e h q hq hend

/-- With enough fuel the loop returns, and its result satisfies `PathResult`. -/
theorem searchLoop_spec (maze : Maze) (start goal : Cell) (tie : Nat → Nat) (z : Zombie) :
    ∀ (fuel : Nat) (openSet : List Node) (closed : Closed),
      SearchInv maze start goal openSet closed →
      openSet.length + 8 * (768 - closed.length) < fuel →
      ∃ z', searchLoop maze goal.1 goal.2 tie z fuel openSet closed = some z' ∧
        PathResult maze start goal z z' := by
  intro fuel
  induction fuel with
  | zero => intro _ _ _ h; exact absurd h (Nat.not_lt_zero _)
  | succ k ih =>
    intro openSet closed inv hfuel
    by_cases ho : openSet = []
    · subst ho
      refine ⟨z, ?_, Or.inl ⟨rfl, unreachable_of_open_nil inv⟩⟩
      simp [searchLoop, popTop_nil]
    · obtain ⟨n, i, hpop, hi, hget, hmin⟩ := popTop_some (tie k) openSet ho
      have hn : n ∈ openSet := List.get?_mem hget
      have hlen : (openSet.eraseIdx i).length = openSet.length - 1 := by
        rw [List.length_eraseIdx, if_pos hi]
      have hpos : 0 < openSet.length := by omega
      rw [searchLoop, hpop]
      simp only
      by_cases hc : closedHas closed (cellKey n.x n.y) = true
      · rw [if_pos hc]
        apply ih _ _ (searchInv_skip inv n i hget hc)
        omega
      · rw [if_neg hc]
        have hc2 : closedHas closed (cellKey n.x n.y) = false := by simpa using hc
        have hln := inv.openLinked n hn
        have hok : ClosedOK maze start goal ((cellKey n.x n.y, n) :: closed) :=
          ⟨rfl, hc2, hln, inv.closedOK⟩
        have hfresh : n.cell ∉ closedCells closed := by
          intro hmem
          have := (inv.closedOK.has_iff n.cell hln.2.1).2 hmem
          simp only [Node.cell] at this
          rw [hc2] at this
          cases this
        have hle := hok.length_le
        simp only [List.length_cons] at hle
        by_cases hg : n.x = goal.1 ∧ n.y = goal.2
        · rw [if_pos hg]
          have hcell : n.cell = goal := Prod.ext hg.1 hg.2
          obtain ⟨l, hl, hchain, hend, hnd, hst, _, hcost, hemp⟩ :=
            reconstruct_spec ((cellKey n.x n.y, n) :: closed) hok closed
              (fun e he => List.mem_cons_of_mem _ he) inv.closedOK n hln hfresh
          have hl2 := reconstruct_mono _ _ _ _ hl
          simp only [List.length_cons]
          rw [hl2]
          refine ⟨_, rfl, Or.inr ⟨l.reverse, rfl, hchain, hend.trans hcell, ?_, ?_, ?_, ?_⟩⟩
          · exact List.nodup_reverse.2 hnd
          · intro hmem
            exact hst (List.mem_reverse.1 hmem)
          · intro hsg
            rw [hemp (hcell.trans hsg.symm)]
            rfl
          · intro q hq hqend
            rw [hcost]
            exact axis_bound_pop inv n hn hmin hfresh q hq (hqend.trans hcell.symm)
        · rw [if_neg hg]
          apply ih _ _ (searchInv_expand inv n i hget hmin hc2 hg)
          have hex := expand_length maze goal.1 goal.2 ((cellKey n.x n.y, n) :: closed) n
          rw [List.length_append, hlen, List.length_cons]
          omega

/-- `Zombie::findPath` returns for every input. Out of bounds the path is
cleared and nothing else changes; in bounds the result satisfies `PathResult`. -/
theorem findPath_spec (z : Zombie) (tie : Nat → Nat) (sx sy gx gy : Int) (maze : Maze) :
    ∃ z', z.findPath tie sx sy gx gy maze = some z' ∧
      ((¬ (inGrid (sx, sy) ∧ inGrid (gx, gy)) ∧ z' = { z with path := [] }) ∨
       (inGrid (sx, sy) ∧ inGrid (gx, gy) ∧
         PathResult maze (sx, sy) (gx, gy) { z with path := [] } z')) := by
  unfold Zombie.findPath
  simp only
  split_ifs with hb
  · refine ⟨_, rfl, Or.inl ⟨?_, rfl⟩⟩
    unfold inGrid
    simp only
    omega
  · have hs : inGrid (sx, sy) := by unfold inGrid; simp only; omega
    have hg : inGrid (gx, gy) := by unfold inGrid; simp only; omega
    obtain ⟨z', hz, hres⟩ := searchLoop_spec maze (sx, sy) (gx, gy) tie { z with path := [] }
      searchFuel _ _ (searchInv_init maze (sx, sy) (gx, gy) hs) (by simp [searchFuel])
    exact ⟨z', hz, Or.inr ⟨hs, hg, hres⟩⟩

theorem chain_step_notWall (maze : Maze) (a : Cell) (p : List Cell)
    (h : List.Chain (Step maze) a p) : ∀ c ∈ p, maze.isWall c.1 c.2 = false := by
  induction p generalizing a with
  | nil => intro c hc; simp at hc
  | cons b p ih =>
    rw [List.chain_cons] at h
    intro c hc
    rcases List.mem_cons.1 hc with h1 | h1
    · rw [h1]; exact step_notWall maze a b h.1
    · exact ih b h.2 c h1

theorem inGrid_iff (x y : Int) :
    inGrid (x, y) ↔ ¬ (x < 0 ∨ 32 ≤ x ∨ y < 0 ∨ 24 ≤ y) := by
  unfold inGrid
  simp only [WIDTH, HEIGHT]
  omega

/-! ## Straight corridors -/

theorem corridorCell_inj (s : Cell) (d : Nat) (hd : d < 4) (j k : Nat)
    (h : corridorCell s d j = corridorCell s d k) : j = k := by
  have h1 := congrArg Prod.fst h
  have h2 := congrArg Prod.snd h
  have hc : d = 0 ∨ d = 1 ∨ d = 2 ∨ d = 3 := by omega
  rcases hc with h | h | h | h <;> subst h <;>
    simp only [corridorCell, dirX, dirY] at h1 h2 <;> omega

/-- A move between two cells of a straight corridor goes to a next cell. -/
theorem corridor_step_index (s : Cell) (d : Nat) (hd : d < 4) (j k i : Nat) (hi : i < 8)
    (h : corridorCell s d k =
      ((corridorCell s d j).1 + dirX i, (corridorCell s d j).2 + dirY i)) :
    k = j + 1 ∨ k + 1 = j := by
  have h1 := congrArg Prod.fst h
  have h2 := congrArg Prod.snd h
  have hc : d = 0 ∨ d = 1 ∨ d = 2 ∨ d = 3 := by omega
  rcases hc with h | h | h | h <;> subst h <;>
    rcases dir_cases i hi with h | h | h | h | h | h | h | h <;> subst h <;>
    simp only [corridorCell, dirX, dirY] at h1 h2 <;> omega

/-- In a maze whose non-wall cells are the cells of a straight corridor, a walk
without repetition that starts at cell `i`, never returns to the cells up to
`i` and ends at cell `n` visits the cells `i + 1, ..., n` in this order. -/
theorem corridor_walk_unique (maze : Maze) (s : Cell) (d n : Nat) (hd : d < 4)
    (hmaze : ∀ c, inGrid c →
      (maze.isWall c.1 c.2 = false ↔ ∃ k, k ≤ n ∧ c = corridorCell s d k)) :
    ∀ (rest : List Cell) (i : Nat), i ≤ n →
      List.Chain (Step maze) (corridorCell s d i) rest →
      (∀ k, k ≤ i → corridorCell s d k ∉ rest) → rest.Nodup →
      walkEnd (corridorCell s d i) rest = corridorCell s d n →
      rest = (List.range (n - i)).map (fun k => corridorCell s d (i + 1 + k)) := by
  intro rest
  induction rest with
  | nil =>
    intro i _ _ _ _ hend
    have := corridorCell_inj s d hd i n hend
    subst this
    simp
  | cons b rest ih =>
    intro i hin hchain havoid hnd hend
    rw [List.chain_cons] at hchain
    obtain ⟨hstep, hrest⟩ := hchain
    have hbgrid := step_inGrid maze _ b hstep
    have hbwall := step_notWall maze _ b hstep
    obtain ⟨k, hk, hbk⟩ := (hmaze b hbgrid).1 hbwall
    obtain ⟨j, hj, _, hbj⟩ := hstep
    rw [hbk] at hbj
    have hk2 : k = i + 1 := by
      rcases corridor_step_index s d hd i k j hj hbj with h | h
      · exact h
      · exfalso
        apply havoid k (by omega)
        rw [hbk]
        exact List.mem_cons_self _ _
    subst hk2
    subst hbk
    rw [List.nodup_cons] at hnd
    have := ih (i + 1) hk hrest
      (fun k hk hmem => by
        rcases Nat.lt_or_ge k (i + 1) with h | h
        · exact havoid k (by omega) (List.mem_cons_of_mem _ hmem)
        · have : k = i + 1 := by omega
          subst this
          exact hnd.1 hmem)
      hnd.2 hend
    rw [this]
    have hsplit : n - i = (n - (i + 1)) + 1 := by omega
    rw [hsplit, List.range_succ_eq_map, List.map_cons, List.map_map]
    congr 1
    apply List.map_congr_left
    intro a _
    simp only [Function.comp]
    congr 1
    omega

theorem corridor_moveAllowed (maze : Maze) (s : Cell) (d n : Nat) (hd : d < 4)
    (hs : inGrid s) (he : inGrid (corridorCell s d n))
    (hmaze : ∀ c, inGrid c →
      (maze.isWall c.1 c.2 = false ↔ ∃ k, k ≤ n ∧ c = corridorCell s d k))
    (i : Nat) (hi : i < n) :
    AxisStep maze (corridorCell s d i) (corridorCell s d (i + 1)) := by
  have hg : inGrid (corridorCell s d (i + 1)) := by
    have hc : d = 0 ∨ d = 1 ∨ d = 2 ∨ d = 3 := by omega
    unfold inGrid at hs he ⊢
    rcases hc with h | h | h | h <;> subst h <;>
      simp only [corridorCell, dirX, dirY, WIDTH, HEIGHT] at he ⊢ <;>
      simp only [WIDTH, HEIGHT] at hs <;> push_cast <;> omega
  have hw := (hmaze _ hg).2 ⟨i + 1, by omega, rfl⟩
  have hcell : corridorCell s d (i + 1) =
      ((corridorCell s d i).1 + dirX d, (corridorCell s d i).2 + dirY d) := by
    simp only [corridorCell]
    push_cast
    ext <;> simp only <;> ring
  refine ⟨d, hd, ?_, hcell⟩
  rw [hcell] at hg hw
  unfold moveAllowed
  have h4 : ¬ d ≥ 4 := by omega
  unfold inGrid at hg
  simp only at hg hw
  simp only [hw, h4, decide_False, Bool.false_and, Bool.not_false, Bool.and_true,
    decide_eq_true_eq]
  omega

/-- The corridor itself is a walk of axis moves. -/
theorem corridor_chain (maze : Maze) (s : Cell) (d n : Nat) (hd : d < 4)
    (hs : inGrid s) (he : inGrid (corridorCell s d n))
    (hmaze : ∀ c, inGrid c →
      (maze.isWall c.1 c.2 = false ↔ ∃ k, k ≤ n ∧ c = corridorCell s d k)) :
    ∀ (m i : Nat), i + m ≤ n →
      List.Chain (AxisStep maze) (corridorCell s d i)
        ((List.range m).map (fun k => corridorCell s d (i + 1 + k))) ∧
      walkEnd (corridorCell s d i)
        ((List.range m).map (fun k => corridorCell s d (i + 1 + k))) =
          corridorCell s d (i + m) := by
  intro m
  induction m with
  | zero => intro i _; exact ⟨List.Chain.nil, rfl⟩
  | succ m ih =>
    intro i him
    have hstep := corridor_moveAllowed maze s d n hd hs he hmaze i (by omega)
    obtain ⟨h1, h2⟩ := ih (i + 1) (by omega)
    have hmap : (List.range (m + 1)).map (fun k => corridorCell s d (i + 1 + k)) =
        corridorCell s d (i + 1) ::
          (List.range m).map (fun k => corridorCell s d (i + 1 + 1 + k)) := by
      rw [List.range_succ_eq_map, List.map_cons, List.map_map]
      congr 1
      apply List.map_congr_left
      intro a _
      simp only [Function.comp]
      congr 1
      omega
    rw [hmap]
    refine ⟨List.Chain.cons hstep h1, ?_⟩
    simp only [walkEnd]
    rw [h2]
    congr 1
    omega

theorem axisStep_aligned (maze : Maze) (a b : Cell) (h : AxisStep maze a b) :
    a.1 = b.1 ∨ a.2 = b.2 := by
  obtain ⟨i, hi, _, rfl⟩ := h
  have hc : i = 0 ∨ i = 1 ∨ i = 2 ∨ i = 3 := by omega
  rcases hc with h | h | h | h <;> subst h <;> simp [dirX, dirY]

theorem pathCost_axis (maze : Maze) (a : Cell) (p : List Cell)
    (h : List.Chain (AxisStep maze) a p) : pathCost a p = 1000 * p.length := by
  induction p generalizing a with
  | nil => rfl
  | cons b p ih =>
    rw [List.chain_cons] at h
    have h1 := axisStep_aligned maze a b h.1
    simp only [pathCost, moveCost, if_pos h1, ih b h.2, List.length_cons]
    omega

theorem corridorMaze_cells (c : Cell) (hc : inGrid c) :
    corridorMaze.isWall c.1 c.2 = false ↔ ∃ k, k ≤ 4 ∧ c = corridorCell (1, 1) 0 k := by
  obtain ⟨x, y⟩ := c
  unfold inGrid at hc
  simp only [WIDTH, HEIGHT] at hc
  have hb : ¬ (x < 0 ∨ x ≥ 32 ∨ y < 0 ∨ y ≥ 24) := by omega
  simp only [Maze.isWall, corridorMaze, corridorCell, dirX, dirY, WIDTH, HEIGHT, if_neg hb]
  by_cases h2 : x = 1 ∧ 1 ≤ y ∧ y ≤ 5
  · simp only [if_pos h2]
    constructor
    · intro _
      refine ⟨(y - 1).toNat, by omega, ?_⟩
      ext
      · simp only; omega
      · simp only; omega
    · intro _
      decide
  · simp only [if_neg h2]
    constructor
    · intro h
      simp at h
    · rintro ⟨k, hk, hxy⟩
      exfalso
      apply h2
      have h1 := congrArg Prod.fst hxy
      have h3 := congrArg Prod.snd hxy
      simp only at h1 h3
      omega

/-! ## Runs without ties -/

theorem popTop_tie_irrelevant (o : List Node) (h : (topIndices o).length = 1) (t : Nat) :
    popTop t o = popTop 0 o := by
  unfold popTop
  rw [h, Nat.mod_one, Nat.mod_one]

/-- A run in which the open set never offers a choice is the same for every
tie-breaking order. -/
theorem searchLoop_tieFree (maze : Maze) (gx gy : Int) (z : Zombie) (tie : Nat → Nat) :
    ∀ (fuel : Nat) (openSet : List Node) (closed : Closed),
      tieFree maze gx gy fuel openSet closed = true →
      searchLoop maze gx gy tie z fuel openSet closed =
        searchLoop maze gx gy (fun _ => 0) z fuel openSet closed := by
  intro fuel
  induction fuel with
  | zero => intro _ _ _; rfl
  | succ k ih =>
    intro openSet closed h
    rw [tieFree] at h
    rw [searchLoop, searchLoop]
    cases hp : popTop 0 openSet with
    | none =>
      have ho : openSet = [] := by
        by_contra hne
        obtain ⟨n, i, hpop, _⟩ := popTop_some 0 openSet hne
        rw [hpop] at hp
        cases hp
      subst ho
      simp [popTop_nil]
    | some cr =>
      obtain ⟨current, rest⟩ := cr
      rw [hp] at h
      simp only [Bool.and_eq_true, decide_eq_true_eq] at h
      obtain ⟨h1, h2⟩ := h
      rw [popTop_tie_irrelevant openSet h1 (tie k), hp]
      simp only
      split_ifs at h2 ⊢ with hc hg
      · exact ih _ _ h2
      · rfl
      · exact ih _ _ h2

theorem findPath_tieFree (z : Zombie) (tie : Nat → Nat) (sx sy gx gy : Int) (maze : Maze)
    (h : tieFree maze gx gy searchFuel
      [{ x := sx, y := sy, g := 0, h := heuristic sx sy gx gy, parent := (-1, -1) }] [] = true) :
    z.findPath tie sx sy gx gy maze = z.findPath (fun _ => 0) sx sy gx gy maze := by
  unfold Zombie.findPath
  simp only
  split_ifs
  · rfl
  · exact searchLoop_tieFree maze gx gy _ tie _ _ _ h

/-- In `detourMaze` the search from (1,1) to (6,3) never has two nodes of least
`f`, so every tie-breaking order gives the same path. -/
theorem detourMaze_run_tieFree (tie : Nat → Nat) :
    idleZombie.findPath tie 1 1 6 3 detourMaze =
      idleZombie.findPath (fun _ => 0) 1 1 6 3 detourMaze :=
  findPath_tieFree idleZombie tie 1 1 6 3 detourMaze (by decide)

theorem axis_chain_inGrid (maze : Maze) (a : Cell) (q : List Cell) (ha : inGrid a)
    (h : List.Chain (AxisStep maze) a q) : inGrid (walkEnd a q) := by
  induction q generalizing a with
  | nil => exact ha
  | cons b q ih =>
    rw [List.chain_cons] at h
    exact ih b (step_inGrid maze a b (axisStep_step maze a b h.1)) h.2

/-! ## Carving passages -/

theorem shuffled_lt (r d : Nat) (h : d ∈ shuffled r) : d < 4 := by
  have key : ∀ i, i < 24 → ∀ e ∈ shuffleOrders.getD i [0, 1, 2, 3], e < 4 := by decide
  exact key (r % 24) (Nat.mod_lt _ (by decide)) d h

theorem shuffled_mem (r d : Nat) (h : d < 4) : d ∈ shuffled r := by
  have key : ∀ i, i < 24 → ∀ e, e < 4 → e ∈ shuffleOrders.getD i [0, 1, 2, 3] := by decide
  exact key (r % 24) (Nat.mod_lt _ (by decide)) d h

theorem Grows.refl (t : Tiles) : Grows t t := fun _ _ h => h

theorem Grows.trans {t t1 t2 : Tiles} (h1 : Grows t t1) (h2 : Grows t1 t2) : Grows t t2 :=
  fun x y h => h2 x y (h1 x y h)

theorem grows_setTile (t : Tiles) (x y : Int) : Grows t (setTile t x y TileType.Empty) := by
  intro x1 y1 h
  unfold setTile
  split_ifs
  · rfl
  · exact h

theorem wallOrEmpty_setTile (t : Tiles) (x y : Int) (h : WallOrEmpty t) :
    WallOrEmpty (setTile t x y TileType.Empty) := by
  intro x1 y1
  unfold setTile
  split_ifs
  · exact Or.inr rfl
  · exact h x1 y1

theorem Grows.wall_of_wall {t t1 : Tiles} (h : Grows t t1) (hw : WallOrEmpty t) (x y : Int)
    (h1 : t1 y x = TileType.Wall) : t y x = TileType.Wall := by
  rcases hw x y with h2 | h2
  · exact h2
  · have := h x y h2
    rw [h1] at this
    cases this

theorem wallCount_le {t t1 : Tiles} (h : Grows t t1) (hw : WallOrEmpty t) :
    wallCount t1 ≤ wallCount t := by
  unfold wallCount
  apply Finset.card_le_card
  intro c hc
  rw [Finset.mem_filter] at hc ⊢
  exact ⟨hc.1, h.wall_of_wall hw _ _ hc.2⟩

theorem wallCount_lt {t t1 : Tiles} (h : Grows t t1) (hw : WallOrEmpty t) (x y : Int)
    (hx : 1 ≤ x ∧ x ≤ 30) (hy : 1 ≤ y ∧ y ≤ 22) (h0 : t y x = TileType.Wall)
    (h1 : t1 y x = TileType.Empty) : wallCount t1 < wallCount t := by
  unfold wallCount
  apply Finset.card_lt_card
  rw [Finset.ssubset_iff_of_subset]
  · refine ⟨(x, y), ?_, ?_⟩
    · rw [Finset.mem_filter, Finset.mem_product, Finset.mem_Icc, Finset.mem_Icc]
      exact ⟨⟨hx, hy⟩, h0⟩
    · rw [Finset.mem_filter]
      intro hc
      have := hc.2
      simp only at this
      rw [h1] at this
      cases this
  · intro c hc
    rw [Finset.mem_filter] at hc ⊢
    exact ⟨hc.1, h.wall_of_wall hw _ _ hc.2⟩

theorem conn_of_grows {t t1 : Tiles} (h : Grows t t1) (a b : Int × Int) (hc : Conn t a b) :
    Conn t1 a b := by
  unfold Conn at hc ⊢
  exact Relation.ReflTransGen.mono (fun u v huv => ⟨huv.1, h _ _ huv.2⟩) hc

theorem finished_of_grows {t t1 : Tiles} (h : Grows t t1) (x y : Int) (hf : Finished t x y) :
    Finished t1 x y :=
  fun d hd h1 h2 h3 h4 => h _ _ (hf d hd h1 h2 h3 h4)

theorem oddCell_inside (x y : Int) (h : OddCell x y) :
    1 ≤ x ∧ x ≤ 29 ∧ 1 ≤ y ∧ y ≤ 21 := by
  unfold OddCell at h
  simp only [WIDTH, HEIGHT] at h
  omega

theorem carveDir_unit (d : Nat) (hd : d < 4) :
    (carveDx d = 0 ∧ (carveDy d = 1 ∨ carveDy d = -1)) ∨
    (carveDy d = 0 ∧ (carveDx d = 1 ∨ carveDx d = -1)) := by
  have hc : d = 0 ∨ d = 1 ∨ d = 2 ∨ d = 3 := by omega
  rcases hc with h | h | h | h <;> subst h <;> simp [carveDx, carveDy]

theorem conn_step (t : Tiles) (a b c : Int × Int) (h : Conn t a b) (hadj : adjacent b c)
    (hc : t c.2 c.1 = TileType.Empty) : Conn t a c :=
  Relation.ReflTransGen.tail h ⟨hadj, hc⟩

/-- One round of the direction loop keeps the loop invariant, only empties
tiles, and leaves the cell two steps away in direction `d` empty if it is one
that may be visited. -/
theorem carveStep_spec (shuffle : Nat → Nat) (fuel : Nat)
    (ih : ∀ (cx cy : Int) (t : Tiles) (k : Nat), OddCell cx cy → WallOrEmpty t →
      t cy cx = TileType.Wall → wallCount t ≤ fuel →
      ∃ t1 k1, carvePassagesFrom shuffle fuel cx cy (t, k) = some (t1, k1) ∧
        CarveOK cx cy t t1)
    (cx cy : Int) (hc : OddCell cx cy) (t t1 : Tiles) (st : Tiles × Nat)
    (inv : CarveLoopInv cx cy t t1 st.1 fuel) (d : Nat) (hd : d < 4) :
    ∃ st1, carveStep (carvePassagesFrom shuffle fuel) cx cy st d = some st1 ∧
      CarveLoopInv cx cy t t1 st1.1 fuel ∧ Grows st.1 st1.1 ∧
      (0 < cx + carveDx d * 2 → cx + carveDx d * 2 < WIDTH - 1 →
        0 < cy + carveDy d * 2 → cy + carveDy d * 2 < HEIGHT - 1 →
        st1.1 (cy + carveDy d * 2) (cx + carveDx d * 2) = TileType.Empty) := by
  have hu := carveDir_unit d hd
  have hcin := oddCell_inside cx cy hc
  unfold carveStep
  simp only
  split_ifs with hcond
  · obtain ⟨h1, h2, h3, h4, hwall⟩ := hcond
    have hodd : OddCell (cx + carveDx d * 2) (cy + carveDy d * 2) := by
      unfold OddCell at hc ⊢
      refine ⟨h1, h2, h3, h4, ?_, ?_⟩ <;> omega
    have hnin := oddCell_inside _ _ hodd
    have hg1 : Grows st.1 (setTile st.1 (cx + carveDx d) (cy + carveDy d) TileType.Empty) :=
      grows_setTile _ _ _
    have hw1 := wallOrEmpty_setTile st.1 (cx + carveDx d) (cy + carveDy d) inv.wallOrEmpty
    have hm : setTile st.1 (cx + carveDx d) (cy + carveDy d) TileType.Empty (cy + carveDy d)
        (cx + carveDx d) = TileType.Empty := by
      simp [setTile]
    have hn : setTile st.1 (cx + carveDx d) (cy + carveDy d) TileType.Empty
        (cy + carveDy d * 2) (cx + carveDx d * 2) = TileType.Wall := by
      unfold setTile
      rw [if_neg (by omega)]
      exact hwall
    obtain ⟨t2, k2, hrun, ok⟩ := ih _ _ _ st.2 hodd hw1 hn
      (le_trans (wallCount_le hg1 inv.wallOrEmpty) inv.count)
    have hg2 : Grows st.1 t2 := hg1.trans ok.grows
    have hcm : Conn t2 (cx, cy) (cx + carveDx d, cy + carveDy d) := by
      apply conn_step t2 _ (cx, cy) _ Relation.ReflTransGen.refl
      · unfold adjacent; simp only; omega
      · exact ok.grows _ _ hm
    have hcn : Conn t2 (cx, cy) (cx + carveDx d * 2, cy + carveDy d * 2) := by
      apply conn_step t2 _ _ _ hcm
      · unfold adjacent; simp only; omega
      · exact ok.centre
    refine ⟨(t2, k2), hrun, ⟨inv.grows.trans hg2, ok.wallOrEmpty, ?_, ?_, ?_, ?_⟩, hg2, ?_⟩
    · intro x y hxy
      rcases ok.inside x y hxy with h | h
      · unfold setTile at h
        split_ifs at h with heq
        · right; omega
        · exact inv.inside x y h
      · exact Or.inr h
    · intro x y hxy
      rcases ok.conn x y hxy with h | h
      · unfold setTile at h
        split_ifs at h with heq
        · right
          rw [heq.1, heq.2]
          exact hcm
        · rcases inv.conn x y h with h5 | h5
          · exact Or.inl h5
          · exact Or.inr (conn_of_grows hg2 _ _ h5)
      · right
        exact Relation.ReflTransGen.trans hcn h
    · intro x y hxyodd hne hxy
      by_cases hcur : setTile st.1 (cx + carveDx d) (cy + carveDy d) TileType.Empty y x =
          TileType.Empty
      · have hnotm : ¬ (x = cx + carveDx d ∧ y = cy + carveDy d) := by
          unfold OddCell at hxyodd hc
          omega
        unfold setTile at hcur
        rw [if_neg hnotm] at hcur
        exact finished_of_grows hg2 x y (inv.finished x y hxyodd hne hcur)
      · exact ok.finished x y hxyodd hcur hxy
    · exact le_trans (wallCount_le hg2 inv.wallOrEmpty) inv.count
    · intro _ _ _ _
      exact ok.centre
  · refine ⟨st, rfl, inv, Grows.refl _, ?_⟩
    intro h1 h2 h3 h4
    rcases inv.wallOrEmpty (cx + carveDx d * 2) (cy + carveDy d * 2) with h | h
    · exact absurd ⟨h1, h2, h3, h4, h⟩ hcond
    · exact h

/-- The direction loop keeps its invariant and leaves every cell two steps
away, in a direction of the list, empty if it may be visited. -/
theorem carveLoop_spec (shuffle : Nat → Nat) (fuel : Nat)
    (ih : ∀ (cx cy : Int) (t : Tiles) (k : Nat), OddCell cx cy → WallOrEmpty t →
      t cy cx = TileType.Wall → wallCount t ≤ fuel →
      ∃ t1 k1, carvePassagesFrom shuffle fuel cx cy (t, k) = some (t1, k1) ∧
        CarveOK cx cy t t1)
    (cx cy : Int) (hc : OddCell cx cy) (t t1 : Tiles) :
    ∀ (ds : List Nat), (∀ d ∈ ds, d < 4) → ∀ (st : Tiles × Nat),
      CarveLoopInv cx cy t t1 st.1 fuel →
      ∃ st1, ds.foldlM (carveStep (carvePassagesFrom shuffle fuel) cx cy) st = some st1 ∧
        CarveLoopInv cx cy t t1 st1.1 fuel ∧ Grows st.1 st1.1 ∧
        ∀ d ∈ ds, 0 < cx + carveDx d * 2 → cx + carveDx d * 2 < WIDTH - 1 →
          0 < cy + carveDy d * 2 → cy + carveDy d * 2 < HEIGHT - 1 →
          st1.1 (cy + carveDy d * 2) (cx + carveDx d * 2) = TileType.Empty := by
  intro ds
  induction ds with
  | nil =>
    intro _ st inv
    exact ⟨st, rfl, inv, Grows.refl _, by intro d hd; simp at hd⟩
  | cons d ds ihds =>
    intro hds st inv
    obtain ⟨st2, hstep, inv2, hg2, hd2⟩ :=
      carveStep_spec shuffle fuel ih cx cy hc t t1 st inv d (hds d (List.mem_cons_self _ _))
    obtain ⟨st1, hrun, inv1, hg1, hd1⟩ :=
      ihds (fun e he => hds e (List.mem_cons_of_mem _ he)) st2 inv2
    refine ⟨st1, ?_, inv1, hg2.trans hg1, ?_⟩
    · rw [List.foldlM_cons, hstep]
      exact hrun
    · intro e he h1 h2 h3 h4
      rcases List.mem_cons.1 he with h | h
      · subst h
        exact hg1 _ _ (hd2 h1 h2 h3 h4)
      · exact hd1 e h h1 h2 h3 h4

/-- `carvePassagesFrom` called on a wall cell with odd coordinates returns when
the fuel is at least the number of interior walls, and satisfies `CarveOK`. -/
theorem carve_spec (shuffle : Nat → Nat) :
    ∀ (fuel : Nat) (cx cy : Int) (t : Tiles) (k : Nat), OddCell cx cy → WallOrEmpty t →
      t cy cx = TileType.Wall → wallCount t ≤ fuel →
      ∃ t1 k1, carvePassagesFrom shuffle fuel cx cy (t, k) = some (t1, k1) ∧
        CarveOK cx cy t t1 := by
  intro fuel
  induction fuel with
  | zero =>
    intro cx cy t k hc hw hwall hcount
    have hin := oddCell_inside cx cy hc
    have := wallCount_lt (grows_setTile t cx cy) hw cx cy (by omega) (by omega) hwall
      (by simp [setTile])
    omega
  | succ fuel ih =>
    intro cx cy t k hc hw hwall hcount
    have hin := oddCell_inside cx cy hc
    have hg0 := grows_setTile t cx cy
    have hcentre : setTile t cx cy TileType.Empty cy cx = TileType.Empty := by simp [setTile]
    have hlt := wallCount_lt hg0 hw cx cy (by omega) (by omega) hwall hcentre
    have inv0 : CarveLoopInv cx cy t (setTile t cx cy TileType.Empty)
        (setTile t cx cy TileType.Empty, k + 1).1 fuel := by
      refine ⟨Grows.refl _, wallOrEmpty_setTile t cx cy hw, fun x y h => Or.inl h, ?_, ?_, ?_⟩
      · intro x y h
        simp only [setTile] at h
        split_ifs at h with heq
        · right
          rw [heq.1, heq.2]
          exact Relation.ReflTransGen.refl
        · exact Or.inl h
      · intro x y _ hne h
        exact absurd h hne
      · simp only
        omega
    obtain ⟨st1, hrun, inv1, hg1, hd1⟩ := carveLoop_spec shuffle fuel ih cx cy hc t
      (setTile t cx cy TileType.Empty) (shuffled (shuffle k)) (fun d hd => shuffled_lt _ d hd)
      (setTile t cx cy TileType.Empty, k + 1) inv0
    refine ⟨st1.1, st1.2, ?_, ⟨hg0.trans inv1.grows, inv1.wallOrEmpty, ?_, inv1.conn, ?_, ?_⟩⟩
    · rw [carvePassagesFrom]
      exact hrun
    · intro x y h
      rcases inv1.inside x y h with h2 | h2
      · simp only [setTile] at h2
        split_ifs at h2 with heq
        · right; omega
        · exact Or.inl h2
      · exact Or.inr h2
    · intro x y hodd hne h
      by_cases h2 : setTile t cx cy TileType.Empty y x = TileType.Empty
      · simp only [setTile] at h2
        split_ifs at h2 with heq
        · rw [heq.1, heq.2]
          intro d hd h3 h4 h5 h6
          exact hd1 d (shuffled_mem _ d hd) h3 h4 h5 h6
        · exact absurd h2 hne
      · exact inv1.finished x y hodd h2 h
    · exact inv1.grows _ _ hcentre

theorem wallCount_allWalls : wallCount allWalls ≤ carveFuel := by
  unfold wallCount
  refine le_trans (Finset.card_filter_le _ _) ?_
  rw [Finset.card_product, Int.card_Icc, Int.card_Icc]
  decide

/-- The passages carved from (1,1) into the grid of walls: the call returns,
the grid holds walls and empty tiles only, every empty tile lies in columns 1
to 29 and rows 1 to 21 and is connected to (1,1), and every cell with odd
coordinates there is empty. -/
theorem carve_from_start (shuffle : Nat → Nat) :
    ∃ t1 k1, carvePassagesFrom shuffle carveFuel 1 1 (allWalls, 0) = some (t1, k1) ∧
      WallOrEmpty t1 ∧
      (∀ x y, t1 y x = TileType.Empty → 1 ≤ x ∧ x ≤ 29 ∧ 1 ≤ y ∧ y ≤ 21) ∧
      (∀ x y, t1 y x = TileType.Empty → Conn t1 (1, 1) (x, y)) ∧
      (∀ i j : Nat, i ≤ 14 → j ≤ 10 →
        t1 (2 * (j : Int) + 1) (2 * (i : Int) + 1) = TileType.Empty) := by
  have hodd : OddCell 1 1 := by unfold OddCell; decide
  obtain ⟨t1, k1, hrun, ok⟩ := carve_spec shuffle carveFuel 1 1 allWalls 0 hodd
    (fun _ _ => Or.inl rfl) rfl wallCount_allWalls
  have hne : ∀ x y, allWalls y x ≠ TileType.Empty := by
    intro x y h
    cases h
  have hfin : ∀ x y, OddCell x y → t1 y x = TileType.Empty → Finished t1 x y :=
    fun x y ho h => ok.finished x y ho (hne x y) h
  have hrow : ∀ i : Nat, i ≤ 14 → t1 1 (2 * (i : Int) + 1) = TileType.Empty := by
    intro i
    induction i with
    | zero => intro _; exact ok.centre
    | succ i ih =>
      intro hi
      have h0 := ih (by omega)
      have ho : OddCell (2 * (i : Int) + 1) 1 := by
        unfold OddCell
        simp only [WIDTH, HEIGHT]
        omega
      have := hfin _ _ ho h0 2 (by decide)
      simp only [carveDx, carveDy, WIDTH, HEIGHT] at this
      have h2 := this (by omega) (by omega) (by omega) (by omega)
      have e1 : (1 : Int) + 0 * 2 = 1 := by norm_num
      have e2 : 2 * ((i + 1 : Nat) : Int) + 1 = 2 * (i : Int) + 1 + 1 * 2 := by push_cast; ring
      rw [e2]
      rw [e1] at h2
      exact h2
  refine ⟨t1, k1, hrun, ok.wallOrEmpty, ?_, ?_, ?_⟩
  · intro x y h
    rcases ok.inside x y h with h2 | h2
    · exact absurd h2 (hne x y)
    · exact h2
  · intro x y h
    rcases ok.conn x y h with h2 | h2
    · exact absurd h2 (hne x y)
    · exact h2
  · intro i j hi
    induction j with
    | zero => intro _; simpa using hrow i hi
    | succ j ih =>
      intro hj
      have h0 := ih (by omega)
      have ho : OddCell (2 * (i : Int) + 1) (2 * (j : Int) + 1) := by
        unfold OddCell
        simp only [WIDTH, HEIGHT]
        omega
      have := hfin _ _ ho h0 1 (by decide)
      simp only [carveDx, carveDy, WIDTH, HEIGHT] at this
      have h2 := this (by omega) (by omega) (by omega) (by omega)
      have e1 : 2 * (i : Int) + 1 + 0 * 2 = 2 * (i : Int) + 1 := by ring
      have e2 : 2 * ((j + 1 : Nat) : Int) + 1 = 2 * (j : Int) + 1 + 1 * 2 := by push_cast; ring
      rw [e2]
      rw [e1] at h2
      exact h2

theorem grows_fillRect (t : Tiles) (x0 x1 y0 y1 : Int) :
    Grows t (fillRect t x0 x1 y0 y1 TileType.Empty) := by
  intro x y h
  unfold fillRect
  split_ifs
  · rfl
  · exact h

theorem wallOrEmpty_fillRect (t : Tiles) (x0 x1 y0 y1 : Int) (h : WallOrEmpty t) :
    WallOrEmpty (fillRect t x0 x1 y0 y1 TileType.Empty) := by
  intro x y
  unfold fillRect
  split_ifs
  · exact Or.inr rfl
  · exact h x y

theorem addRooms_spec (rand : Nat → Nat) :
    ∀ (rooms k : Nat) (t : Tiles), WallOrEmpty t →
      Grows t (addRooms rand rooms k t) ∧ WallOrEmpty (addRooms rand rooms k t) := by
  intro rooms
  induction rooms with
  | zero => intro k t h; exact ⟨Grows.refl _, h⟩
  | succ rooms ih =>
    intro k t h
    rw [addRooms]
    split
    · exact ih _ t h
    · obtain ⟨h1, h2⟩ := ih _ _ (wallOrEmpty_fillRect t _ _ _ _ h)
      exact ⟨(grows_fillRect t _ _ _ _).trans h1, h2⟩

/-! ## The standard maze -/

theorem reflTransGen_chain {R : Cell → Cell → Prop} (a b : Cell)
    (h : Relation.ReflTransGen R a b) : ∃ q, List.Chain R a q ∧ walkEnd a q = b := by
  induction h with
  | refl => exact ⟨[], List.Chain.nil, rfl⟩
  | tail _ hbc ih =>
    obtain ⟨q, hq, hend⟩ := ih
    exact ⟨q ++ [_], chain_snoc _ _ _ hq (hend ▸ hbc), walkEnd_snoc _ _ _⟩

theorem moveAllowed_axis (maze : Maze) (a : Cell) (i : Nat) (hi : i < 4)
    (hg : inGrid (a.1 + dirX i, a.2 + dirY i))
    (hw : maze.isWall (a.1 + dirX i) (a.2 + dirY i) = false) : moveAllowed maze a i = true := by
  unfold moveAllowed
  have h4 : ¬ i ≥ 4 := by omega
  unfold inGrid at hg
  simp only at hg
  simp only [hw, h4, decide_False, Bool.false_and, Bool.not_false, Bool.and_true,
    decide_eq_true_eq]
  omega

theorem adjacent_axisStep (maze : Maze) (a b : Cell) (hadj : adjacent a b) (hb : inGrid b)
    (hw : maze.isWall b.1 b.2 = false) : AxisStep maze a b := by
  unfold adjacent at hadj
  have hcases : (b.1 = a.1 ∧ b.2 = a.2 + 1) ∨ (b.1 = a.1 ∧ b.2 = a.2 - 1) ∨
      (b.1 = a.1 + 1 ∧ b.2 = a.2) ∨ (b.1 = a.1 - 1 ∧ b.2 = a.2) := by omega
  have key : ∀ i, i < 4 → b = (a.1 + dirX i, a.2 + dirY i) → AxisStep maze a b := by
    intro i hi hbi
    refine ⟨i, hi, ?_, hbi⟩
    apply moveAllowed_axis maze a i hi
    · rw [← hbi]; exact hb
    · have h1 := congrArg Prod.fst hbi
      have h2 := congrArg Prod.snd hbi
      simp only at h1 h2
      rw [← h1, ← h2]
      exact hw
  rcases hcases with ⟨h1, h2⟩ | ⟨h1, h2⟩ | ⟨h1, h2⟩ | ⟨h1, h2⟩
  · exact key 0 (by decide) (by ext <;> simp only [dirX, dirY] <;> omega)
  · exact key 1 (by decide) (by ext <;> simp only [dirX, dirY] <;> omega)
  · exact key 2 (by decide) (by ext <;> simp only [dirX, dirY] <;> omega)
  · exact key 3 (by decide) (by ext <;> simp only [dirX, dirY] <;> omega)

theorem isWall_false_of_tile (m : Maze) (x y : Int) (hx : 0 ≤ x ∧ x < 32)
    (hy : 0 ≤ y ∧ y < 24) (h : m.tiles y x ≠ TileType.Wall) : m.isWall x y = false := by
  unfold Maze.isWall
  simp only [WIDTH, HEIGHT]
  rw [if_neg (by omega)]
  simpa using h

/-- The code of `generateRandomMaze` after the rooms have been added: the grid
`t2` with the rooms holds walls and empty tiles only, and every cell with odd
coordinates is linked to (1,1) through empty tiles of the columns 1 to 29 and
the rows 1 to 21. -/
theorem generateRandomMaze_eq (rnd : Randomness) :
    ∃ t2, WallOrEmpty t2 ∧
      (∀ i j : Nat, i ≤ 14 → j ≤ 10 →
        Relation.ReflTransGen
          (fun a b : Cell => adjacent a b ∧ t2 b.2 b.1 = TileType.Empty ∧
            (1 ≤ b.1 ∧ b.1 ≤ 29 ∧ 1 ≤ b.2 ∧ b.2 ≤ 21))
          (1, 1) (2 * (i : Int) + 1, 2 * (j : Int) + 1)) ∧
      generateRandomMaze rnd = some
        (setTile (setTile (setTile (setTile (setTile (setTile (wallBorders t2)
          (WIDTH - 2) (HEIGHT - 2) TileType.Exit) (WIDTH - 2) (HEIGHT - 3) TileType.Empty)
          (WIDTH - 3) (HEIGHT - 2) TileType.Empty) 1 1 TileType.Empty) 2 1 TileType.Empty)
          1 2 TileType.Empty) := by
  obtain ⟨t1, k1, hrun, hw, hin, hconn, hodd⟩ := carve_from_start rnd.shuffle
  obtain ⟨hg, hw2⟩ := addRooms_spec rnd.rand (1 + rnd.rand 0 % 2) 1 t1 hw
  refine ⟨addRooms rnd.rand (1 + rnd.rand 0 % 2) 1 t1, hw2, ?_, ?_⟩
  · intro i j hi hj
    have h := hconn _ _ (hodd i j hi hj)
    unfold Conn at h
    exact Relation.ReflTransGen.mono (fun u v huv => ⟨huv.1, hg _ _ huv.2, hin _ _ huv.2⟩) h
  · unfold generateRandomMaze
    rw [hrun]

/-- What `generateRandomMaze` returns. -/
theorem generateRandomMaze_spec (rnd : Randomness) :
    ∃ t, generateRandomMaze rnd = some t ∧
      (∀ x y, 0 ≤ x → x < 32 → 0 ≤ y → y < 24 → (x = 0 ∨ x = 31 ∨ y = 0 ∨ y = 23) →
        t y x = TileType.Wall) ∧
      (∀ x y, t y x = TileType.Exit ↔ (x = 30 ∧ y = 22)) ∧
      (∀ ty, ∃ q, List.Chain (AxisStep { tiles := t, mazeType := ty }) (1, 1) q ∧
        walkEnd (1, 1) q = (30, 22)) ∧
      t 1 1 = TileType.Empty := by
  obtain ⟨t2, hw2, hconn, heq⟩ := generateRandomMaze_eq rnd
  refine ⟨_, heq, ?_, ?_, ?_, ?_⟩
  · intro x y h1 h2 h3 h4 h5
    simp only [setTile, wallBorders, WIDTH, HEIGHT]
    split_ifs <;> first | rfl | omega
  · intro x y
    simp only [setTile, wallBorders, WIDTH, HEIGHT]
    split_ifs with h1 h2 h3 h4 h5 h6 h7
    · simp; omega
    · simp; omega
    · simp; omega
    · simp; omega
    · simp; omega
    · simp; omega
    · simp; omega
    · rcases hw2 x y with h | h <;> rw [h] <;> simp <;> omega
  · intro ty
    have hkeep : ∀ x y, 1 ≤ x → x ≤ 29 → 1 ≤ y → y ≤ 21 → t2 y x = TileType.Empty →
        (setTile (setTile (setTile (setTile (setTile (setTile (wallBorders t2)
          (WIDTH - 2) (HEIGHT - 2) TileType.Exit) (WIDTH - 2) (HEIGHT - 3) TileType.Empty)
          (WIDTH - 3) (HEIGHT - 2) TileType.Empty) 1 1 TileType.Empty) 2 1 TileType.Empty)
          1 2 TileType.Empty) y x = TileType.Empty := by
      intro x y h1 h2 h3 h4 h5
      simp only [setTile, wallBorders, WIDTH, HEIGHT]
      split_ifs <;> first | rfl | exact h5 | omega
    have h1 := hconn 14 10 (by decide) (by decide)
    have h2 := Relation.ReflTransGen.mono
      (r := fun a b : Cell => adjacent a b ∧ t2 b.2 b.1 = TileType.Empty ∧
            (1 ≤ b.1 ∧ b.1 ≤ 29 ∧ 1 ≤ b.2 ∧ b.2 ≤ 21))
      (p := AxisStep { tiles := (setTile (setTile (setTile (setTile (setTile (setTile
          (wallBorders t2)
          (WIDTH - 2) (HEIGHT - 2) TileType.Exit) (WIDTH - 2) (HEIGHT - 3) TileType.Empty)
          (WIDTH - 3) (HEIGHT - 2) TileType.Empty) 1 1 TileType.Empty) 2 1 TileType.Empty)
          1 2 TileType.Empty), mazeType := ty })
      (fun a b hab => by
        apply adjacent_axisStep _ a b hab.1
        · unfold inGrid
          simp only [WIDTH, HEIGHT]
          omega
        · apply isWall_false_of_tile _ _ _ (by omega) (by omega)
          simp only
          rw [hkeep _ _ hab.2.2.1 hab.2.2.2.1 hab.2.2.2.2.1 hab.2.2.2.2.2 hab.2.1]
          simp) h1
    have e1 : ((2 * ((14 : Nat) : Int) + 1, 2 * ((10 : Nat) : Int) + 1) : Cell) = (29, 21) := by
      norm_num
    rw [e1] at h2
    have h3 := Relation.ReflTransGen.tail h2
      (show AxisStep _ (29, 21) (30, 21) from
        ⟨2, by decide, by
          apply moveAllowed_axis _ _ 2 (by decide) (by decide)
          apply isWall_false_of_tile _ _ _ (by decide) (by decide)
          simp [setTile, wallBorders, dirX, dirY, WIDTH, HEIGHT], by simp [dirX, dirY]⟩)
    have h4 := Relation.ReflTransGen.tail h3
      (show AxisStep _ (30, 21) (30, 22) from
        ⟨0, by decide, by
          apply moveAllowed_axis _ _ 0 (by decide) (by decide)
          apply isWall_false_of_tile _ _ _ (by decide) (by decide)
          simp [setTile, wallBorders, dirX, dirY, WIDTH, HEIGHT], by simp [dirX, dirY]⟩)
    exact reflTransGen_chain _ _ h4
  · simp [setTile]

/-! ## Moves of the code and moves of the specification -/

theorem inGrid_of_notWall (maze : Maze) (x y : Int) (h : maze.isWall x y = false) :
    inGrid (x, y) := by
  unfold Maze.isWall at h
  unfold inGrid
  simp only [WIDTH, HEIGHT] at h ⊢
  split_ifs at h with hout
  omega

theorem chain_flatten {R S : Cell → Cell → Prop}
    (h : ∀ a b, R a b → ∃ p, List.Chain S a p ∧ walkEnd a p = b) :
    ∀ (q : List Cell) (a : Cell), List.Chain R a q →
      ∃ p, List.Chain S a p ∧ walkEnd a p = walkEnd a q := by
  intro q
  induction q with
  | nil => intro a _; exact ⟨[], List.Chain.nil, rfl⟩
  | cons b q ih =>
    intro a hq
    rw [List.chain_cons] at hq
    obtain ⟨p1, hp1, he1⟩ := h a b hq.1
    obtain ⟨p2, hp2, he2⟩ := ih b hq.2
    refine ⟨p1 ++ p2, chain_append a p1 p2 hp1 (he1 ▸ hp2), ?_⟩
    rw [walkEnd_append, he1, he2]
    rfl

/-- Every move that the neighbour loop allows can be replaced by one or two
axis moves: a diagonal move is only allowed when the cell beside the start in
the `x` direction of the move is not a wall. -/
theorem step_axis_detour (maze : Maze) (a b : Cell) (h : Step maze a b) :
    ∃ p, List.Chain (AxisStep maze) a p ∧ walkEnd a p = b := by
  have hbg := step_inGrid maze a b h
  have hbw := step_notWall maze a b h
  obtain ⟨i, hi, hm, hb⟩ := h
  by_cases h4 : i < 4
  · exact ⟨[b], List.Chain.cons ⟨i, h4, hm, hb⟩ List.Chain.nil, rfl⟩
  · have hflank : maze.isWall (a.1 + dirX i) a.2 = false := by
      unfold moveAllowed at hm
      simp only [Bool.and_eq_true, Bool.not_eq_true', Bool.and_eq_false_imp,
        Bool.or_eq_false_iff, decide_eq_true_eq] at hm
      have h5 := (hm.2 (by omega)).1
      have hx : diagX i = dirX i := by
        have hc : i = 4 ∨ i = 5 ∨ i = 6 ∨ i = 7 := by omega
        rcases hc with h | h | h | h <;> subst h <;> rfl
      rw [← hx]
      exact h5
    have hunit : (dirX i = 1 ∨ dirX i = -1) ∧ (dirY i = 1 ∨ dirY i = -1) := by
      have hc : i = 4 ∨ i = 5 ∨ i = 6 ∨ i = 7 := by omega
      rcases hc with h | h | h | h <;> subst h <;> simp [dirX, dirY]
    have h1 : AxisStep maze a (a.1 + dirX i, a.2) := by
      apply adjacent_axisStep maze a _ _ (inGrid_of_notWall maze _ _ hflank) hflank
      unfold adjacent
      simp only
      omega
    have h2 : AxisStep maze (a.1 + dirX i, a.2) b := by
      apply adjacent_axisStep maze _ b _ hbg hbw
      unfold adjacent
      rw [hb]
      simp only
      omega
    exact ⟨[(a.1 + dirX i, a.2), b], List.Chain.cons h1 (List.Chain.cons h2 List.Chain.nil), rfl⟩

/-- Every move that obeys the corner rule of the specification can be replaced
by one or two axis moves. -/
theorem specStep_axis_detour (maze : Maze) (a b : Cell) (h : SpecStep maze a b) :
    ∃ p, List.Chain (AxisStep maze) a p ∧ walkEnd a p = b := by
  obtain ⟨hch, hbg, hbw, hcorner⟩ := h
  unfold chebyshev at hch
  by_cases hax : a.1 = b.1 ∨ a.2 = b.2
  · have h1 : AxisStep maze a b := by
      apply adjacent_axisStep maze a b _ hbg hbw
      unfold adjacent
      omega
    exact ⟨[b], List.Chain.cons h1 List.Chain.nil, rfl⟩
  · have hd : a.1 ≠ b.1 ∧ a.2 ≠ b.2 := by
      constructor
      · intro hc; exact hax (Or.inl hc)
      · intro hc; exact hax (Or.inr hc)
    have hcf := hcorner hd
    unfold cornerFree at hcf
    simp only [Bool.and_eq_true, Bool.not_eq_true'] at hcf
    have h1 : AxisStep maze a (b.1, a.2) := by
      apply adjacent_axisStep maze a _ _ (inGrid_of_notWall maze _ _ hcf.1) hcf.1
      unfold adjacent
      simp only
      omega
    have h2 : AxisStep maze (b.1, a.2) b := by
      apply adjacent_axisStep maze _ b _ hbg hbw
      unfold adjacent
      simp only
      omega
    exact ⟨[(b.1, a.2), b], List.Chain.cons h1 (List.Chain.cons h2 List.Chain.nil), rfl⟩

theorem axisStep_specStep (maze : Maze) (a b : Cell) (h : AxisStep maze a b) :
    SpecStep maze a b := by
  have h1 := axisStep_step maze a b h
  refine ⟨step_chebyshev maze a b h1, step_inGrid maze a b h1, step_notWall maze a b h1, ?_⟩
  intro hd
  rcases axisStep_aligned maze a b h with h2 | h2
  · exact absurd h2 hd.1
  · exact absurd h2 hd.2

/-- The moves of the code and the moves of the specification reach the same
cells: both reach exactly what axis moves reach. -/
theorem reachable_iff_specReachable (maze : Maze) (a b : Cell) :
    Reachable maze a b ↔ SpecReachable maze a b := by
  constructor
  · rintro ⟨q, hq, hend⟩
    obtain ⟨p, hp, hpe⟩ := chain_flatten (step_axis_detour maze) q a hq
    exact ⟨p, hp.imp (fun u v huv => axisStep_specStep maze u v huv), hpe.trans hend⟩
  · rintro ⟨q, hq, hend⟩
    obtain ⟨p, hp, hpe⟩ := chain_flatten (specStep_axis_detour maze) q a hq
    exact ⟨p, hp.imp (fun u v huv => axisStep_step maze u v huv), hpe.trans hend⟩

/-! ## The circular and the soldier maze -/

theorem generateCircularMaze_border (rnd : Randomness) (x y : Int) (hx : 0 ≤ x ∧ x < 32)
    (hy : 0 ≤ y ∧ y < 24) (hb : x = 0 ∨ x = 31 ∨ y = 0 ∨ y = 23) :
    generateCircularMaze rnd y x = TileType.Wall := by
  simp only [generateCircularMaze, fillRect, wallBorders, WIDTH, HEIGHT]
  split_ifs <;> first | rfl | omega

theorem generateCircularMaze_exit (rnd : Randomness) (x y : Int) :
    generateCircularMaze rnd y x = TileType.Exit ↔ (x = 16 ∧ y = 12) := by
  simp only [generateCircularMaze, fillRect, wallBorders, clearAroundExit, setTile, WIDTH, HEIGHT]
  split_ifs <;> simp <;> omega

theorem foldl_keeps_wall (cover : Nat → Nat) (x y : Int) :
    ∀ (l : List (Nat × Int × Int)) (t : Tiles), t y x = TileType.Wall →
      (l.foldl (fun t1 ia =>
        if cover ia.1 < 25 then fillRect t1 ia.2.1 (ia.2.1 + 2) ia.2.2 (ia.2.2 + 2) TileType.Wall
        else t1) t) y x = TileType.Wall := by
  intro l
  induction l with
  | nil => intro t h; exact h
  | cons a l ih =>
    intro t h
    rw [List.foldl_cons]
    apply ih
    split_ifs
    · unfold fillRect
      split_ifs
      · rfl
      · exact h
    · exact h

theorem addCover_wall (cover : Nat → Nat) (anchors : List (Int × Int)) (t : Tiles) (x y : Int)
    (h : t y x = TileType.Wall) : addCover cover anchors t y x = TileType.Wall :=
  foldl_keeps_wall cover x y _ t h

theorem generateSoldierMaze_border (rnd : Randomness) (x y : Int) (hx : 0 ≤ x ∧ x < 32)
    (hy : 0 ≤ y ∧ y < 24) (hb : x = 0 ∨ x = 31 ∨ y = 0 ∨ y = 23) :
    generateSoldierMaze rnd y x = TileType.Wall := by
  simp only [generateSoldierMaze, hallwayCols, hallwayRows, WIDTH, HEIGHT]
  iterate 8 rw [if_neg (by omega)]
  unfold fillRect
  iterate 4 rw [if_neg (by omega)]
  apply addCover_wall
  rw [if_neg (by omega)]
  rfl

theorem isWall_of_border (m : Maze)
    (h : ∀ x y, 0 ≤ x → x < 32 → 0 ≤ y → y < 24 → (x = 0 ∨ x = 31 ∨ y = 0 ∨ y = 23) →
      m.tiles y x = TileType.Wall)
    (x y : Int) (hb : x = 0 ∨ x = WIDTH - 1 ∨ y = 0 ∨ y = HEIGHT - 1) :
    m.isWall x y = true := by
  unfold Maze.isWall
  simp only [WIDTH, HEIGHT] at hb ⊢
  split_ifs with hout
  · rfl
  · rw [h x y (by omega) (by omega) (by omega) (by omega) (by omega)]
    rfl

theorem isExit_iff_tile (m : Maze) (ex ey : Int) (hex : 0 ≤ ex ∧ ex < 32)
    (hey : 0 ≤ ey ∧ ey < 24)
    (h : ∀ x y, m.tiles y x = TileType.Exit ↔ (x = ex ∧ y = ey)) (x y : Int) :
    m.isExit x y = true ↔ (x = ex ∧ y = ey) := by
  unfold Maze.isExit
  simp only [WIDTH, HEIGHT]
  split_ifs with hout
  · constructor
    · intro hc; cases hc
    · intro hc; omega
  · rw [decide_eq_true_eq]
    exact h x y

/-! ## Arithmetic without rounding -/

theorem ratSqrt_mul_self (a : ℚ) (h : 0 ≤ a) : ratSqrt (a * a) = a := by
  unfold ratSqrt
  have hn : 0 ≤ a.num := Rat.num_nonneg.mpr h
  rw [Rat.mul_self_num, Rat.mul_self_den]
  have e : (a.num * a.num).toNat * (a.den * a.den) = (a.num.toNat * a.den) * (a.num.toNat * a.den) := by
    have : (a.num * a.num).toNat = a.num.toNat * a.num.toNat := by
      zify
      rw [Int.toNat_of_nonneg (mul_nonneg hn hn), Int.toNat_of_nonneg hn]
    rw [this]; ring
  rw [e, Nat.sqrt_eq]
  have hd : (a.den : ℚ) ≠ 0 := by exact_mod_cast a.den_nz
  push_cast
  have hnum : ((a.num.toNat : ℕ) : ℚ) = (a.num : ℚ) := by
    have := Int.toNat_of_nonneg hn
    exact_mod_cast congrArg (fun v : Int => (v : ℚ)) this
  rw [hnum]
  have ha : a = (a.num : ℚ) / (a.den : ℚ) := (Rat.num_div_den a).symm
  rw [mul_div_mul_right _ _ hd]
  exact ha.symm

theorem toInt_eq (q : ℚ) (n : Int) (h0 : 0 ≤ q) (h1 : (n : ℚ) ≤ q) (h2 : q < n + 1) :
    toInt q = n := by
  unfold toInt
  rw [if_pos h0, Int.floor_eq_iff]
  exact ⟨h1, h2⟩

/-! ## Damage -/

theorem wrapInt_of_fits (v : Int) (h : fitsInt v) : wrapInt v = v := by
  unfold fitsInt at h
  unfold wrapInt
  omega

theorem wrapInt_fits (v : Int) : fitsInt (wrapInt v) := by
  unfold fitsInt wrapInt
  omega

theorem takeDamage_health (z : Zombie) (d : Int) :
    (z.takeDamage d).health = wrapInt (z.health - d) := by
  unfold Zombie.takeDamage
  simp only []
  split_ifs <;> rfl

theorem takeDamage_maxHealth (z : Zombie) (d : Int) :
    (z.takeDamage d).maxHealth = z.maxHealth := by
  unfold Zombie.takeDamage
  simp only []
  split_ifs <;> rfl

theorem takeDamage_of_dead (z : Zombie) (d : Int) (h : z.dead = true) :
    z.takeDamage d = { z with health := wrapInt (z.health - d) } := by
  unfold Zombie.takeDamage
  simp [h]

theorem takeDamages_health (ds : List Int) :
    ∀ z : Zombie, fitsInt z.health → (∀ d ∈ ds, 0 ≤ d) → fitsInt (z.health - ds.sum) →
      (z.takeDamages ds).health = z.health - ds.sum ∧
      (z.takeDamages ds).maxHealth = z.maxHealth := by
  induction ds with
  | nil => intro z _ _ _; simp [Zombie.takeDamages]
  | cons d rest ih =>
    intro z hz hnn hf
    have hd : 0 ≤ d := hnn d (List.mem_cons_self _ _)
    have hrest : ∀ e ∈ rest, 0 ≤ e := fun e he => hnn e (List.mem_cons_of_mem _ he)
    have hsum : 0 ≤ rest.sum := List.sum_nonneg hrest
    rw [List.sum_cons] at hf
    have hfd : fitsInt (z.health - d) := by
      unfold fitsInt at *
      omega
    have h1 : (z.takeDamage d).health = z.health - d := by
      rw [takeDamage_health, wrapInt_of_fits _ hfd]
    have := ih (z.takeDamage d) (by rw [h1]; exact hfd) hrest
      (by rw [h1]; unfold fitsInt at *; omega)
    have e : z.takeDamages (d :: rest) = (z.takeDamage d).takeDamages rest := rfl
    rw [e, this.1, this.2, h1, takeDamage_maxHealth, List.sum_cons]
    exact ⟨by ring, rfl⟩

theorem construct_health (x y : ℚ) (b : Int) (t : ZombieType) :
    (Zombie.construct x y b t).health = (Zombie.construct x y b t).maxHealth := by
  cases t <;> rfl

theorem construct_health_fits (x y : ℚ) (b : Int) (t : ZombieType) (hb : fitsInt b) :
    fitsInt (Zombie.construct x y b t).health := by
  cases t
  · exact hb
  · show fitsInt (if wrapInt (b - 2) < 1 then 1 else wrapInt (b - 2))
    split_ifs
    · unfold fitsInt; omega
    · exact wrapInt_fits _
  · exact wrapInt_fits _
  · show fitsInt (if wrapInt (b - 1) < 1 then 1 else wrapInt (b - 1))
    split_ifs
    · unfold fitsInt; omega
    · exact wrapInt_fits _

/-! ## Line of sight: structure -/

theorem hasLineOfSight_near (fa : FloatArith) (z : Zombie) (tx ty : ℚ) (maze : Maze)
    (h : vecLength fa (fa.sub tx z.x) (fa.sub ty z.y) < 1) :
    z.hasLineOfSight fa tx ty maze = some true := by
  unfold Zombie.hasLineOfSight
  simp only [h, if_true]

theorem hasLineOfSight_far (fa : FloatArith) (z : Zombie) (tx ty : ℚ) (maze : Maze)
    (h : ¬ vecLength fa (fa.sub tx z.x) (fa.sub ty z.y) < 1) :
    z.hasLineOfSight fa tx ty maze =
      some ((List.range' 1
          (toInt (fa.div (vecLength fa (fa.sub tx z.x) (fa.sub ty z.y)) stepSize) - 1).toNat).all
        (fun i => z.sampleClear fa
          (fa.div (fa.sub tx z.x) (vecLength fa (fa.sub tx z.x) (fa.sub ty z.y)))
          (fa.div (fa.sub ty z.y) (vecLength fa (fa.sub tx z.x) (fa.sub ty z.y))) maze i)) := by
  have hne : vecLength fa (fa.sub tx z.x) (fa.sub ty z.y) ≠ 0 := by
    intro h0
    rw [h0] at h
    exact h (by norm_num)
  unfold Zombie.hasLineOfSight
  simp only [h, if_false, fdiv, hne]

theorem hasLineOfSight_isSome (fa : FloatArith) (z : Zombie) (tx ty : ℚ) (maze : Maze) :
    ∃ b, z.hasLineOfSight fa tx ty maze = some b := by
  by_cases h : vecLength fa (fa.sub tx z.x) (fa.sub ty z.y) < 1
  · exact ⟨true, hasLineOfSight_near fa z tx ty maze h⟩
  · exact ⟨_, hasLineOfSight_far fa z tx ty maze h⟩

theorem sampleClear_iff (fa : FloatArith) (z : Zombie) (dirX dirY : ℚ) (maze : Maze) (i : Nat) :
    z.sampleClear fa dirX dirY maze i = true ↔
      maze.isWall (tileOf fa (fa.add z.x (fa.mul (fa.mul dirX stepSize) i)))
        (tileOf fa (fa.add z.y (fa.mul (fa.mul dirY stepSize) i))) = false := by
  unfold Zombie.sampleClear
  simp only []
  split_ifs with h1 h2
  · simp [Maze.isWall, h1]
  · simp [h2]
  · simp at h2
    simp [h2]

theorem sampleClear_congr (fa : FloatArith) (z1 z2 : Zombie) (dirX dirY : ℚ) (maze : Maze)
    (i : Nat) (hx : z1.x = z2.x) (hy : z1.y = z2.y) :
    z1.sampleClear fa dirX dirY maze i = z2.sampleClear fa dirX dirY maze i := by
  unfold Zombie.sampleClear
  rw [hx, hy]

theorem hasLineOfSight_congr (fa : FloatArith) (z1 z2 : Zombie) (tx ty : ℚ) (maze : Maze)
    (hx : z1.x = z2.x) (hy : z1.y = z2.y) :
    z1.hasLineOfSight fa tx ty maze = z2.hasLineOfSight fa tx ty maze := by
  unfold Zombie.hasLineOfSight
  simp only [hx, hy, sampleClear_congr fa z1 z2 _ _ maze _ hx hy]

theorem ratSqrt_lt_one (q : ℚ) (h : q < 1) : ratSqrt q < 1 := by
  unfold ratSqrt
  have hd : (0 : ℚ) < q.den := by exact_mod_cast q.den_pos
  rw [div_lt_one hd]
  have hnum : q.num < q.den := Rat.lt_one_iff_num_lt_denom.mp h
  have hpos := q.den_pos
  have hn : q.num.toNat < q.den := by omega
  have : Nat.sqrt (q.num.toNat * q.den) < q.den := by
    rw [Nat.sqrt_lt]
    exact Nat.mul_lt_mul_of_pos_right hn q.den_pos
  exact_mod_cast this

/-! ## The update step -/

theorem findPath_fields (z : Zombie) (tie : Nat → Nat) (sx sy gx gy : Int) (maze : Maze) :
    ∃ p i, z.findPath tie sx sy gx gy maze = some { z with path := p, pathIndex := i } := by
  obtain ⟨z', hz, h | ⟨_, _, h | ⟨p, hp, _⟩⟩⟩ := findPath_spec z tie sx sy gx gy maze
  · exact ⟨[], z.pathIndex, by rw [hz, h.2]⟩
  · exact ⟨[], z.pathIndex, by rw [hz, h.1]⟩
  · exact ⟨p, 0, by rw [hz, hp]⟩

theorem wanderAttempts_fields (fa : FloatArith) (tr : Trig) (tie : Nat → Nat)
    (wander : Nat → ℚ × ℚ) (z : Zombie) (maze : Maze) (n : Nat) :
    ∀ attempt, ∃ p i, Zombie.wanderAttempts fa tr tie wander z maze n attempt =
      some { z with path := p, pathIndex := i } := by
  induction n with
  | zero => intro _; exact ⟨z.path, z.pathIndex, rfl⟩
  | succ k ih =>
    intro attempt
    unfold Zombie.wanderAttempts
    simp only []
    split_ifs
    · exact findPath_fields z tie _ _ _ _ maze
    · exact ih (attempt + 1)

theorem refreshPath_fields (fa : FloatArith) (tr : Trig) (tie : Nat → Nat)
    (wander : Nat → ℚ × ℚ) (z : Zombie) (px py : ℚ) (maze : Maze) :
    ∃ p i t w, z.refreshPath fa tr tie wander px py maze =
      some { z with path := p, pathIndex := i, pathUpdateTimer := t, wanderTimer := w } := by
  unfold Zombie.refreshPath
  simp only []
  split_ifs
  · obtain ⟨p, i, h⟩ := findPath_fields { z with pathUpdateTimer := 0 } tie
      (tileOf fa z.x) (tileOf fa z.y) (tileOf fa px) (tileOf fa py) maze
    exact ⟨p, i, 0, z.wanderTimer, by rw [h]⟩
  · obtain ⟨p, i, h⟩ := wanderAttempts_fields fa tr tie wander
      { z with pathUpdateTimer := 0, wanderTimer := 0 } maze 20 0
    exact ⟨p, i, 0, 0, by unfold Zombie.findRandomWanderTarget; rw [h]⟩
  · exact ⟨z.path, z.pathIndex, 0, z.wanderTimer, rfl⟩
  · exact ⟨z.path, z.pathIndex, z.pathUpdateTimer, z.wanderTimer, rfl⟩

theorem tryMove_cases (fa : FloatArith) (z : Zombie) (newX newY : ℚ) (maze : Maze) :
    (maze.isWall (tileOf fa newX) (tileOf fa newY) = true ∧ z.tryMove fa newX newY maze = z) ∨
    (maze.isWall (tileOf fa newX) (tileOf fa newY) = false ∧
      z.tryMove fa newX newY maze = { z with x := newX, y := newY }) := by
  unfold Zombie.tryMove
  simp only []
  cases h : maze.isWall (tileOf fa newX) (tileOf fa newY)
  · exact Or.inr ⟨rfl, by simp⟩
  · exact Or.inl ⟨rfl, by simp⟩

/-- What `followPath` can change: the path cursor, or the facing angle and,
when the tile of the new point is not a wall, the position. -/
theorem followPath_fields (fa : FloatArith) (tr : Trig) (z : Zombie) (speed dt : ℚ)
    (maze : Maze) (others : List Zombie) :
    ∃ x y a i, z.followPath fa tr speed dt maze others =
        { z with x := x, y := y, facingAngle := a, pathIndex := i } ∧
      ((x = z.x ∧ y = z.y) ∨ maze.isWall (tileOf fa x) (tileOf fa y) = false) := by
  unfold Zombie.followPath
  simp only []
  split_ifs with h1 h2 h3 h4
  · exact ⟨z.x, z.y, z.facingAngle, z.pathIndex + 1, rfl, Or.inl ⟨rfl, rfl⟩⟩
  · rcases tryMove_cases fa { z with facingAngle := tr.atan2 _ _ } _ _ maze with ⟨_, h⟩ | ⟨hw, h⟩
    · exact ⟨z.x, z.y, _, z.pathIndex, by rw [h], Or.inl ⟨rfl, rfl⟩⟩
    · exact ⟨_, _, _, z.pathIndex, by rw [h], Or.inr hw⟩
  · rcases tryMove_cases fa z _ _ maze with ⟨_, h⟩ | ⟨hw, h⟩
    · exact ⟨z.x, z.y, z.facingAngle, z.pathIndex, by rw [h], Or.inl ⟨rfl, rfl⟩⟩
    · exact ⟨_, _, z.facingAngle, z.pathIndex, by rw [h], Or.inr hw⟩
  · exact ⟨z.x, z.y, z.facingAngle, z.pathIndex, rfl, Or.inl ⟨rfl, rfl⟩⟩
  · exact ⟨z.x, z.y, z.facingAngle, z.pathIndex, rfl, Or.inl ⟨rfl, rfl⟩⟩

theorem canSeePlayer_spec (fa : FloatArith) (z : Zombie) (d px py : ℚ) (maze : Maze) :
    ∃ b, z.canSeePlayer fa d px py maze = some b ∧
      (b = true ↔ d ≤ 150 ∨ (d ≤ 3000 ∧ z.hasLineOfSight fa px py maze = some true)) := by
  unfold Zombie.canSeePlayer
  split_ifs with h1 h2
  · exact ⟨true, rfl, by simp [h1]⟩
  · obtain ⟨b, hb⟩ := hasLineOfSight_isSome fa z px py maze
    exact ⟨b, hb, by simp [h1, h2, hb]⟩
  · exact ⟨false, rfl, by simp [h1, h2]⟩

/-- The update of a dead zombie. -/
theorem update_of_dead (fa : FloatArith) (tr : Trig) (tie : Nat → Nat) (wander : Nat → ℚ × ℚ)
    (z : Zombie) (dt px py : ℚ) (maze : Maze) (others : List Zombie) (h : z.dead = true) :
    z.update fa tr tie wander dt px py maze others =
      some (if z.deathAnimTime < 1 / 2 then
        { z with deathAnimTime := fa.add z.deathAnimTime dt } else z) := by
  unfold Zombie.update
  simp only [h, if_true]
  split_ifs <;> rfl

theorem canSeePlayer_congr (fa : FloatArith) (z1 z2 : Zombie) (d px py : ℚ) (maze : Maze)
    (hx : z1.x = z2.x) (hy : z1.y = z2.y) :
    z1.canSeePlayer fa d px py maze = z2.canSeePlayer fa d px py maze := by
  unfold Zombie.canSeePlayer
  rw [hasLineOfSight_congr fa z1 z2 px py maze hx hy]

/-- The update of a live zombie returns, and the result differs from the
zombie only in what the blocks of `update` assign. -/
theorem update_of_live (fa : FloatArith) (tr : Trig) (tie : Nat → Nat) (wander : Nat → ℚ × ℚ)
    (z : Zombie) (dt px py : ℚ) (maze : Maze) (others : List Zombie) (h : z.dead = false) :
    ∃ b x y a p i t w,
      z.canSeePlayer fa (vecLength fa (fa.sub px z.x) (fa.sub py z.y)) px py maze = some b ∧
      z.update fa tr tie wander dt px py maze others =
        some { z with x := x, y := y, facingAngle := a, path := p, pathIndex := i,
                      pathUpdateTimer := t, walkAnimTime := fa.add z.walkAnimTime (fa.mul dt 6),
                      isChasing := b, wanderTimer := w } ∧
      ((x = z.x ∧ y = z.y) ∨ maze.isWall (tileOf fa x) (tileOf fa y) = false) := by
  obtain ⟨b, hb, -⟩ := canSeePlayer_spec fa z (vecLength fa (fa.sub px z.x) (fa.sub py z.y))
    px py maze
  have hb1 : (z.tick fa dt).canSeePlayer fa
      (vecLength fa (fa.sub px (z.tick fa dt).x) (fa.sub py (z.tick fa dt).y)) px py maze
        = some b := by
    rw [canSeePlayer_congr fa (z.tick fa dt) z _ px py maze rfl rfl]
    exact hb
  obtain ⟨p, i, t, w, hr⟩ := refreshPath_fields fa tr tie wander ((z.tick fa dt).setMode b)
    px py maze
  obtain ⟨x, y, a, j, hf, hpos⟩ := followPath_fields fa tr
    { (z.tick fa dt).setMode b with path := p, pathIndex := i, pathUpdateTimer := t,
                                    wanderTimer := w }
    (((z.tick fa dt).setMode b).currentSpeed fa
      (vecLength fa (fa.sub px (z.tick fa dt).x) (fa.sub py (z.tick fa dt).y))) dt maze others
  refine ⟨b, x, y, a, p, j, t, w, hb, ?_, ?_⟩
  · unfold Zombie.update
    rw [if_neg (by rw [h]; simp)]
    simp only []
    rw [hb1]
    simp only []
    rw [hr]
    simp only []
    rw [hf]
    cases b <;> rfl
  · cases b <;> exact hpos

theorem calls_of_dead (calls : List ZombieCall) :
    ∀ z : Zombie, z.dead = true → ∃ z', z.calls calls = some z' ∧ z'.dead = true := by
  induction calls with
  | nil => intro z h; exact ⟨z, rfl, h⟩
  | cons c rest ih =>
    intro z h
    cases c with
    | takeDamage damage =>
      have h1 : (z.takeDamage damage).dead = true := by rw [takeDamage_of_dead z damage h]; exact h
      obtain ⟨z', hz, hd⟩ := ih _ h1
      exact ⟨z', hz, hd⟩
    | update fa tr tie wander dt px py maze others =>
      have hu := update_of_dead fa tr tie wander z dt px py maze others h
      have h1 : (if z.deathAnimTime < 1 / 2 then
          { z with deathAnimTime := fa.add z.deathAnimTime dt } else z).dead = true := by
        split_ifs
        · exact h
        · exact h
      obtain ⟨z', hz, hd⟩ := ih _ h1
      refine ⟨z', ?_, hd⟩
      show (match z.update fa tr tie wander dt px py maze others with
        | none => none
        | some z1 => z1.calls rest) = some z'
      rw [hu]
      exact hz

/-! ## Line of sight without rounding -/

theorem sampleClear_exact (fa : FloatArith) (hfa : fa.Exact) (z : Zombie) (dirX dirY : ℚ)
    (maze : Maze) (i : Nat) :
    z.sampleClear fa dirX dirY maze i = true ↔
      maze.isWall (toInt ((z.x + dirX * stepSize * i) / 30))
        (toInt ((z.y + dirY * stepSize * i) / 30)) = false := by
  obtain ⟨hadd, -, hmul, hdiv⟩ := hfa
  rw [sampleClear_iff]
  simp only [tileOf, hadd, hmul, hdiv]

theorem isWall_of_wall_column (maze : Maze) (c : Int)
    (hcol : ∀ y, 0 ≤ y → y < HEIGHT → maze.tiles y c = TileType.Wall) (y : Int) :
    maze.isWall c y = true := by
  unfold Maze.isWall
  split_ifs with h
  · rfl
  · have hy : 0 ≤ y ∧ y < HEIGHT := by omega
    simp [hcol y hy.1 hy.2]

theorem discrete_crossing (P : ℕ → Prop) :
    ∀ m : ℕ, ¬ P 0 → P m → ∃ i, i < m ∧ ¬ P i ∧ P (i + 1) := by
  intro m
  induction m with
  | zero => intro h0 hm; exact absurd hm h0
  | succ k ih =>
    intro h0 hm
    by_cases hk : P k
    · obtain ⟨i, hi, h1, h2⟩ := ih h0 hk
      exact ⟨i, Nat.lt_succ_of_lt hi, h1, h2⟩
    · exact ⟨k, Nat.lt_succ_self k, hk, hm⟩

theorem toInt_of_nonneg (q : ℚ) (h : 0 ≤ q) : toInt q = ⌊q⌋ := by
  unfold toInt
  rw [if_pos h]

theorem exactArith_exact : exactArith.Exact :=
  ⟨fun _ _ => rfl, fun _ _ => rfl, fun _ _ => rfl, fun _ _ => rfl⟩

theorem vecLength_exact (fa : FloatArith) (hfa : fa.Exact) (a b : ℚ) :
    vecLength fa a b = fa.sqrt (a * a + b * b) := by
  unfold vecLength
  rw [hfa.2.2.1, hfa.2.2.1, hfa.1]

/-- `Zombie::hasLineOfSight` without rounding, at a computed distance `d` of
at least 1: the samples are the points `z + (t - z) / d * 7.5 * i` for
`i = 1 .. steps - 1`. -/
theorem hasLineOfSight_exact (fa : FloatArith) (hfa : fa.Exact) (z : Zombie) (tx ty : ℚ)
    (maze : Maze) (d : ℚ) (hd : vecLength fa (tx - z.x) (ty - z.y) = d) (hfar : 1 ≤ d) :
    z.hasLineOfSight fa tx ty maze =
      some ((List.range' 1 (toInt (d / stepSize) - 1).toNat).all (fun i =>
        !maze.isWall (toInt ((z.x + (tx - z.x) / d * stepSize * i) / 30))
          (toInt ((z.y + (ty - z.y) / d * stepSize * i) / 30)))) := by
  have hsx := hfa.2.1 tx z.x
  have hsy := hfa.2.1 ty z.y
  rw [hasLineOfSight_far fa z tx ty maze (by rw [hsx, hsy, hd]; exact not_lt.mpr hfar)]
  rw [hsx, hsy, hd, hfa.2.2.2]
  congr 1
  congr 1
  funext i
  rw [Bool.eq_iff_iff, sampleClear_exact fa hfa, hfa.2.2.2, hfa.2.2.2]
  simp

/-! ## Evaluation at concrete points -/

theorem vecLength_exactArith (a b d : ℚ) (hd : 0 ≤ d) (h : a * a + b * b = d * d) :
    vecLength exactArith a b = d := by
  rw [vecLength_exact exactArith exactArith_exact, h]
  exact ratSqrt_mul_self d hd

theorem toInt_div (a b : ℚ) (n : Int) (hb : 0 < b) (h0 : 0 ≤ a) (h1 : (n : ℚ) * b ≤ a)
    (h2 : a < ((n : ℚ) + 1) * b) : toInt (a / b) = n := by
  apply toInt_eq
  · exact div_nonneg h0 hb.le
  · rw [le_div_iff₀ hb]; exact h1
  · rw [div_lt_iff₀ hb]; exact h2

theorem pillarMaze_isWall (wx wy x y : Int) (hx : 0 ≤ x ∧ x < WIDTH) (hy : 0 ≤ y ∧ y < HEIGHT) :
    (pillarMaze wx wy).isWall x y = decide (x = wx ∧ y = wy) := by
  unfold Maze.isWall pillarMaze
  rw [if_neg (by omega)]
  by_cases h : x = wx ∧ y = wy
  · simp [h]
  · simp only [h, if_false]
    simp

/-! ## Line of sight in single precision -/

theorem Rounded.err {x r : ℚ} (h : Rounded x r) (M : ℚ) (hM : |x| ≤ M) :
    |r - x| ≤ (M + 1) / 2 ^ 24 := by
  have h1 := h.1
  have h2 : (1 : ℚ) / 2 ^ 149 ≤ 1 / 2 ^ 24 := by norm_num
  have h3 : |x| / 2 ^ 24 ≤ M / 2 ^ 24 := div_le_div_of_nonneg_right hM (by norm_num)
  rw [add_div]
  linarith

theorem Rounded.of_zero {r : ℚ} (h : Rounded 0 r) : r = 0 :=
  le_antisymm (h.2.2 le_rfl) (h.2.1 le_rfl)

theorem rounded_self (x : ℚ) : Rounded x x := by
  refine ⟨?_, fun h => h, fun h => h⟩
  rw [sub_self, abs_zero]
  positivity

theorem abs_mul_le_mul (p q e T : ℚ) (hp : |p| ≤ e) (hq : |q| ≤ T) : |p * q| ≤ e * T := by
  rw [abs_mul]
  exact mul_le_mul hp hq (abs_nonneg _) ((abs_nonneg _).trans hp)

theorem add_err (fa : FloatArith) (hfa : fa.Single) (a b M : ℚ) (hM : |a + b| ≤ M)
    (hM2 : M ≤ 2 ^ 127) : |fa.add a b - (a + b)| ≤ (M + 1) / 2 ^ 24 :=
  (hfa.1 a b (hM.trans hM2)).err M hM

theorem sub_err (fa : FloatArith) (hfa : fa.Single) (a b M : ℚ) (hM : |a - b| ≤ M)
    (hM2 : M ≤ 2 ^ 127) : |fa.sub a b - (a - b)| ≤ (M + 1) / 2 ^ 24 :=
  (hfa.2.1 a b (hM.trans hM2)).err M hM

theorem mul_err (fa : FloatArith) (hfa : fa.Single) (a b M : ℚ) (hM : |a * b| ≤ M)
    (hM2 : M ≤ 2 ^ 127) : |fa.mul a b - a * b| ≤ (M + 1) / 2 ^ 24 :=
  (hfa.2.2.1 a b (hM.trans hM2)).err M hM

theorem div_err (fa : FloatArith) (hfa : fa.Single) (a b M : ℚ) (hb : b ≠ 0)
    (hM : |a / b| ≤ M) (hM2 : M ≤ 2 ^ 127) : |fa.div a b - a / b| ≤ (M + 1) / 2 ^ 24 :=
  (hfa.2.2.2.1 a b hb (hM.trans hM2)).err M hM

/-- The computed length `d` of a vector with components of magnitude at most
1025: it is not negative, at most 1500, and not much less than either
component. -/
theorem vecLength_bounds (fa : FloatArith) (hfa : fa.Single) (a b : ℚ) (ha : |a| ≤ 1025)
    (hb : |b| ≤ 1025) :
    0 ≤ vecLength fa a b ∧ vecLength fa a b ≤ 1500 ∧
      a * a ≤ vecLength fa a b * vecLength fa a b * (1 + 1 / 2 ^ 20) + 1 / 2 ^ 20 ∧
      b * b ≤ vecLength fa a b * vecLength fa a b * (1 + 1 / 2 ^ 20) + 1 / 2 ^ 20 := by
  obtain ⟨hadd, -, hmul, -, hsqrt⟩ := hfa
  have hP0 : 0 ≤ a * a := mul_self_nonneg a
  have hR0 : 0 ≤ b * b := mul_self_nonneg b
  have hP1 : a * a ≤ 1025 * 1025 := by
    have := abs_mul_le_mul a a 1025 1025 ha ha
    exact (le_abs_self _).trans this
  have hR1 : b * b ≤ 1025 * 1025 := by
    have := abs_mul_le_mul b b 1025 1025 hb hb
    exact (le_abs_self _).trans this
  obtain ⟨hA, hA0, -⟩ := hmul a a (by rw [abs_of_nonneg hP0]; linarith)
  obtain ⟨hB, hB0, -⟩ := hmul b b (by rw [abs_of_nonneg hR0]; linarith)
  have hA0 := hA0 hP0
  have hB0 := hB0 hR0
  rw [abs_of_nonneg hP0, abs_le] at hA
  rw [abs_of_nonneg hR0, abs_le] at hB
  have hAB0 : 0 ≤ fa.mul a a + fa.mul b b := add_nonneg hA0 hB0
  have hη : (1 : ℚ) / 2 ^ 149 ≤ 1 / 2 ^ 100 := by norm_num
  have hAB1 : fa.mul a a + fa.mul b b ≤ 2 ^ 22 := by linarith
  obtain ⟨hS, hS0, -⟩ := hadd (fa.mul a a) (fa.mul b b)
    (by rw [abs_of_nonneg hAB0]; linarith)
  have hS0 := hS0 hAB0
  rw [abs_of_nonneg hAB0, abs_le] at hS
  have hS1 : fa.add (fa.mul a a) (fa.mul b b) ≤ 2 ^ 23 := by linarith
  obtain ⟨hD0, hD⟩ := hsqrt _ hS0 (by linarith)
  rw [abs_le] at hD
  unfold vecLength
  generalize fa.sqrt (fa.add (fa.mul a a) (fa.mul b b)) = d at hD0 hD
  generalize fa.add (fa.mul a a) (fa.mul b b) = s at hS hS0 hS1 hD
  generalize fa.mul a a = x at hA hA0 hAB0 hAB1 hS
  generalize fa.mul b b = y at hB hB0 hAB0 hAB1 hS
  generalize a * a = p at hP0 hP1 hA
  generalize b * b = r at hR0 hR1 hB
  have hdd : d * d ≤ 1500 * 1500 := by linarith
  refine ⟨hD0, ?_, ?_, ?_⟩
  · nlinarith
  · linarith
  · linarith

/-- The computed direction component `a / d`, for a length `d ≥ 1` that is not
much less than `|a|`. -/
theorem dir_bounds (fa : FloatArith) (hfa : fa.Single) (a d : ℚ) (hd : 1 ≤ d)
    (h : a * a ≤ d * d * (1 + 1 / 2 ^ 20) + 1 / 2 ^ 20) :
    |a| ≤ d * (1 + 1 / 2 ^ 19) ∧ |fa.div a d - a / d| ≤ 1 / 2 ^ 22 ∧
      |fa.div a d| ≤ 1 + 1 / 2 ^ 18 := by
  have hdd : 1 ≤ d * d := by nlinarith
  have hsq : a ^ 2 ≤ (d * (1 + 1 / 2 ^ 19)) ^ 2 := by nlinarith
  have ha : |a| ≤ d * (1 + 1 / 2 ^ 19) :=
    abs_le.mpr (abs_le_of_sq_le_sq' hsq (by positivity))
  have hq : |a / d| ≤ 2 := by
    rw [abs_div, abs_of_pos (by linarith : (0 : ℚ) < d), div_le_iff₀ (by linarith)]
    nlinarith
  have hq1 : |a / d| ≤ 1 + 1 / 2 ^ 19 := by
    rw [abs_div, abs_of_pos (by linarith : (0 : ℚ) < d), div_le_iff₀ (by linarith)]
    linarith
  have he := div_err fa hfa a d 2 (by linarith) hq (by norm_num)
  have he2 : |fa.div a d - a / d| ≤ 1 / 2 ^ 22 := he.trans (by norm_num)
  refine ⟨ha, he2, ?_⟩
  have := abs_sub_abs_le_abs_sub (fa.div a d) (a / d)
  have h3 : (1 : ℚ) + 1 / 2 ^ 19 + 1 / 2 ^ 22 ≤ 1 + 1 / 2 ^ 18 := by norm_num
  linarith

/-- The stored sum `x + o` is near the point of the segment at the fraction
`τ / d`, when the offset `o` is near `r * τ` and `r` is near `a' / d`. -/
theorem sample_near (fa : FloatArith) (hfa : fa.Single) (x a a' d r o τ : ℚ)
    (hx : |x| ≤ 1024) (ha : |a| ≤ 1024) (haa : |a' - a| ≤ 1 / 1000) (hd1 : 1 ≤ d)
    (hd2 : d ≤ 1500) (hr : |r - a' / d| ≤ 1 / 2 ^ 22) (hτ0 : 0 ≤ τ) (hτ1 : τ ≤ d)
    (ho : |o - r * τ| ≤ 1 / 1000) :
    |fa.add x o - (x + τ / d * a)| ≤ 4 / 1000 ∧ |fa.add x o| ≤ 2050 := by
  have hdpos : (0 : ℚ) < d := by linarith
  have hs0 : 0 ≤ τ / d := div_nonneg hτ0 hdpos.le
  have hs1 : τ / d ≤ 1 := (div_le_one hdpos).mpr hτ1
  have e1 : |(r - a' / d) * τ| ≤ 1 / 2 ^ 22 * 1500 :=
    abs_mul_le_mul _ _ _ _ hr (by rw [abs_of_nonneg hτ0]; linarith)
  have e2 : |(a' - a) * (τ / d)| ≤ 1 / 1000 * 1 :=
    abs_mul_le_mul _ _ _ _ haa (by rw [abs_of_nonneg hs0]; exact hs1)
  have e3 : |τ / d * a| ≤ 1 * 1024 :=
    abs_mul_le_mul _ _ _ _ (by rw [abs_of_nonneg hs0]; exact hs1) ha
  have hsplit : o - τ / d * a = (o - r * τ) + (r - a' / d) * τ + (a' - a) * (τ / d) := by
    field_simp
    ring
  have e4 : |o - τ / d * a| ≤ 3 / 1000 := by
    rw [hsplit]
    have t1 := abs_add ((o - r * τ) + (r - a' / d) * τ) ((a' - a) * (τ / d))
    have t2 := abs_add (o - r * τ) ((r - a' / d) * τ)
    have : (1 : ℚ) / 2 ^ 22 * 1500 ≤ 1 / 1000 := by norm_num
    linarith
  have e5 : |x + o| ≤ 2049 := by
    have t1 := abs_add x o
    have t2 : |o| ≤ |o - τ / d * a| + |τ / d * a| := by
      have := abs_add (o - τ / d * a) (τ / d * a)
      rwa [sub_add_cancel] at this
    linarith
  have e6 := add_err fa hfa x o 2049 e5 (by norm_num)
  have e7 : |fa.add x o - (x + o)| ≤ 1 / 1000 := e6.trans (by norm_num)
  constructor
  · have hs : fa.add x o - (x + τ / d * a) = (fa.add x o - (x + o)) + (o - τ / d * a) := by ring
    rw [hs]
    have := abs_add (fa.add x o - (x + o)) (o - τ / d * a)
    linarith
  · have : |fa.add x o| ≤ |fa.add x o - (x + o)| + |x + o| := by
      have := abs_add (fa.add x o - (x + o)) (x + o)
      rwa [sub_add_cancel] at this
    linarith

/-- The tile index of a stored coordinate is the tile of a point near it. -/
theorem tileOf_near (fa : FloatArith) (hfa : fa.Single) (v : ℚ) (hv : |v| ≤ 2050) :
    |30 * fa.div v 30 - v| ≤ 1 / 1000 ∧ tileOf fa v = toInt (30 * fa.div v 30 / 30) := by
  have hq : |v / 30| ≤ 70 := by
    rw [abs_div, abs_of_pos (by norm_num : (0 : ℚ) < 30), div_le_iff₀ (by norm_num)]
    linarith
  have he := div_err fa hfa v 30 70 (by norm_num) hq (by norm_num)
  constructor
  · have hs : 30 * fa.div v 30 - v = 30 * (fa.div v 30 - v / 30) := by ring
    rw [hs, abs_mul, abs_of_pos (by norm_num : (0 : ℚ) < 30)]
    have : (30 : ℚ) * ((70 + 1) / 2 ^ 24) ≤ 1 / 1000 := by norm_num
    linarith
  · unfold tileOf
    rw [mul_div_cancel_left₀ _ (by norm_num : (30 : ℚ) ≠ 0)]

/-- A stored point near a point of a segment that no wall comes near lies in a
tile that is not a wall. -/
theorem clear_of_near (fa : FloatArith) (hfa : fa.Single) (maze : Maze) (x1 y1 x2 y2 : ℚ)
    (hclear : ClearWithin maze (1 / 100) x1 y1 x2 y2) (s : ℚ) (hs0 : 0 ≤ s) (hs1 : s ≤ 1)
    (vx vy : ℚ) (hx : |vx - (x1 + s * (x2 - x1))| ≤ 4 / 1000) (hx2 : |vx| ≤ 2050)
    (hy : |vy - (y1 + s * (y2 - y1))| ≤ 4 / 1000) (hy2 : |vy| ≤ 2050) :
    maze.isWall (tileOf fa vx) (tileOf fa vy) = false := by
  obtain ⟨hnx, hex⟩ := tileOf_near fa hfa vx hx2
  obtain ⟨hny, hey⟩ := tileOf_near fa hfa vy hy2
  rw [hex, hey]
  apply hclear s hs0 hs1
  · simp only [segmentPoint]
    have := abs_sub_le (30 * fa.div vx 30) vx (x1 + s * (x2 - x1))
    linarith
  · simp only [segmentPoint]
    have := abs_sub_le (30 * fa.div vy 30) vy (y1 + s * (y2 - y1))
    linarith

/-- The offset `dir * stepSize * i` as `Zombie::hasLineOfSight` computes it. -/
theorem zombie_offset (fa : FloatArith) (hfa : fa.Single) (r d : ℚ) (i : ℕ)
    (hr : |r| ≤ 1 + 1 / 2 ^ 18) (hd2 : d ≤ 1500) (hi : stepSize * i ≤ d) :
    |fa.mul (fa.mul r stepSize) i - r * (stepSize * i)| ≤ 1 / 1000 := by
  unfold stepSize at *
  have hi0 : (0 : ℚ) ≤ i := Nat.cast_nonneg i
  have hi1 : (i : ℚ) ≤ 200 := by linarith
  have hiabs : |(i : ℚ)| ≤ 200 := by rw [abs_of_nonneg hi0]; exact hi1
  have h1 : |r * (15 / 2)| ≤ (1 + 1 / 2 ^ 18) * (15 / 2) :=
    abs_mul_le_mul _ _ _ _ hr (by rw [abs_of_pos (by norm_num)])
  have e1 := mul_err fa hfa r (15 / 2) 8 (h1.trans (by norm_num)) (by norm_num)
  have h2 : |fa.mul r (15 / 2)| ≤ 9 := by
    have : |fa.mul r (15 / 2)| ≤ |fa.mul r (15 / 2) - r * (15 / 2)| + |r * (15 / 2)| := by
      have := abs_add (fa.mul r (15 / 2) - r * (15 / 2)) (r * (15 / 2))
      rwa [sub_add_cancel] at this
    have h3 : ((1 : ℚ) + 1 / 2 ^ 18) * (15 / 2) + (8 + 1) / 2 ^ 24 ≤ 9 := by norm_num
    linarith
  have h4 : |fa.mul r (15 / 2) * i| ≤ 9 * 200 := abs_mul_le_mul _ _ _ _ h2 hiabs
  have e2 := mul_err fa hfa (fa.mul r (15 / 2)) i 1800 (h4.trans (by norm_num)) (by norm_num)
  have e3 : |(fa.mul r (15 / 2) - r * (15 / 2)) * i| ≤ (8 + 1) / 2 ^ 24 * 200 :=
    abs_mul_le_mul _ _ _ _ e1 hiabs
  have hs : fa.mul (fa.mul r (15 / 2)) i - r * (15 / 2 * i) =
      (fa.mul (fa.mul r (15 / 2)) i - fa.mul r (15 / 2) * i) +
        (fa.mul r (15 / 2) - r * (15 / 2)) * i := by ring
  rw [hs]
  have := abs_add (fa.mul (fa.mul r (15 / 2)) i - fa.mul r (15 / 2) * i)
    ((fa.mul r (15 / 2) - r * (15 / 2)) * i)
  have h5 : ((1800 : ℚ) + 1) / 2 ^ 24 + (8 + 1) / 2 ^ 24 * 200 ≤ 1 / 1000 := by norm_num
  linarith

theorem toInt_range (q : ℚ) (n : Int) (h0 : 0 ≤ toInt q) (h1 : toInt q < n) :
    -1 < q ∧ q < n := by
  unfold toInt at h0 h1
  by_cases hq : 0 ≤ q
  · rw [if_pos hq] at h1
    exact ⟨by linarith, Int.floor_lt.mp h1⟩
  · rw [if_neg hq] at h0 h1
    rw [not_le] at hq
    constructor
    · have := Int.ceil_lt_add_one q
      have h2 : (0 : ℚ) ≤ (⌈q⌉ : ℚ) := by exact_mod_cast h0
      linarith
    · have h2 : (0 : ℚ) ≤ (n : ℚ) := by
        have : 0 ≤ n := by omega
        exact_mod_cast this
      linarith

/-- A point in a tile that is not a wall lies in the world of the grid. -/
theorem point_of_not_wall (maze : Maze) (x y : ℚ)
    (h : maze.isWall (toInt (x / 30)) (toInt (y / 30)) = false) :
    (-30 < x ∧ x < 960) ∧ (-30 < y ∧ y < 720) := by
  unfold Maze.isWall at h
  split_ifs at h with hb
  simp only [WIDTH, HEIGHT] at hb
  have hx := toInt_range (x / 30) 32 (by omega) (by omega)
  have hy := toInt_range (y / 30) 24 (by omega) (by omega)
  rw [lt_div_iff₀ (by norm_num), div_lt_iff₀ (by norm_num)] at hx hy
  push_cast at hx hy
  exact ⟨⟨by linarith, by linarith⟩, ⟨by linarith, by linarith⟩⟩

theorem ClearWithin.bounds {maze : Maze} {x1 y1 x2 y2 : ℚ}
    (h : ClearWithin maze (1 / 100) x1 y1 x2 y2) :
    ((-30 < x1 ∧ x1 < 960) ∧ (-30 < y1 ∧ y1 < 720)) ∧
      ((-30 < x2 ∧ x2 < 960) ∧ (-30 < y2 ∧ y2 < 720)) := by
  constructor
  · apply point_of_not_wall maze
    apply h 0 le_rfl (by norm_num) <;> simp [segmentPoint]
  · apply point_of_not_wall maze
    apply h 1 (by norm_num) le_rfl <;> simp [segmentPoint]

theorem ClearWithin.symm {maze : Maze} {x1 y1 x2 y2 : ℚ}
    (h : ClearWithin maze (1 / 100) x1 y1 x2 y2) : ClearWithin maze (1 / 100) x2 y2 x1 y1 := by
  intro s hs0 hs1 px py hx hy
  apply h (1 - s) (by linarith) (by linarith) px py
  · simp only [segmentPoint] at hx ⊢
    have e : x1 + (1 - s) * (x2 - x1) = x2 + s * (x1 - x2) := by ring
    rw [e]; exact hx
  · simp only [segmentPoint] at hy ⊢
    have e : y1 + (1 - s) * (y2 - y1) = y2 + s * (y1 - y2) := by ring
    rw [e]; exact hy

/-- The number of steps of `Zombie::hasLineOfSight` for a computed distance
`d` from 1 to 1500. -/
theorem steps_single (fa : FloatArith) (hfa : fa.Single) (d : ℚ) (hd1 : 1 ≤ d)
    (hd2 : d ≤ 1500) :
    0 ≤ toInt (fa.div d stepSize) ∧
      ((toInt (fa.div d stepSize) : Int) : ℚ) * (15 / 2) ≤ d + 1 / 1000 ∧
      d - 1 / 1000 < (((toInt (fa.div d stepSize) : Int) : ℚ) + 1) * (15 / 2) := by
  have hq0 : 0 ≤ d / stepSize := div_nonneg (by linarith) (by unfold stepSize; norm_num)
  have hq1 : |d / stepSize| ≤ 200 := by
    rw [abs_of_nonneg hq0]
    unfold stepSize
    rw [div_le_iff₀ (by norm_num)]
    linarith
  have he := div_err fa hfa d stepSize 200 (by unfold stepSize; norm_num) hq1 (by norm_num)
  have hs := (hfa.2.2.2.1 d stepSize (by unfold stepSize; norm_num)
    (hq1.trans (by norm_num))).2.1 hq0
  rw [toInt_of_nonneg _ hs]
  have h1 := Int.floor_le (fa.div d stepSize)
  have h2 := Int.lt_floor_add_one (fa.div d stepSize)
  rw [abs_le] at he
  have e : d / stepSize * (15 / 2) = d := by unfold stepSize; field_simp
  have h3 : ((200 : ℚ) + 1) / 2 ^ 24 ≤ 1 / 10000 := by norm_num
  refine ⟨Int.floor_nonneg.mpr hs, ?_, ?_⟩ <;> nlinarith

/-- The components of the vector from the observer to the target as the code
stores them. -/
theorem sub_bounds (fa : FloatArith) (hfa : fa.Single) (x tx : ℚ) (h : |tx - x| ≤ 1024) :
    |fa.sub tx x - (tx - x)| ≤ 1 / 1000 ∧ |fa.sub tx x| ≤ 1025 := by
  have he := sub_err fa hfa tx x 1024 h (by norm_num)
  have h1 : |fa.sub tx x - (tx - x)| ≤ 1 / 1000 := he.trans (by norm_num)
  refine ⟨h1, ?_⟩
  have : |fa.sub tx x| ≤ |fa.sub tx x - (tx - x)| + |tx - x| := by
    have := abs_add (fa.sub tx x - (tx - x)) (tx - x)
    rwa [sub_add_cancel] at this
  linarith

/-- One sample of `Zombie::hasLineOfSight` on a segment that no wall comes near. -/
theorem sampleClear_single (fa : FloatArith) (hfa : fa.Single) (z : Zombie) (tx ty : ℚ)
    (maze : Maze) (hclear : ClearWithin maze (1 / 100) z.x z.y tx ty)
    (hfar : ¬ vecLength fa (fa.sub tx z.x) (fa.sub ty z.y) < 1) (i : ℕ)
    (hi : stepSize * i ≤ vecLength fa (fa.sub tx z.x) (fa.sub ty z.y)) :
    z.sampleClear fa
      (fa.div (fa.sub tx z.x) (vecLength fa (fa.sub tx z.x) (fa.sub ty z.y)))
      (fa.div (fa.sub ty z.y) (vecLength fa (fa.sub tx z.x) (fa.sub ty z.y))) maze i = true := by
  obtain ⟨⟨⟨hx1, hx2⟩, ⟨hy1, hy2⟩⟩, ⟨⟨htx1, htx2⟩, ⟨hty1, hty2⟩⟩⟩ := hclear.bounds
  have hx : |z.x| ≤ 1024 := abs_le.mpr ⟨by linarith, by linarith⟩
  have hy : |z.y| ≤ 1024 := abs_le.mpr ⟨by linarith, by linarith⟩
  have ha : |tx - z.x| ≤ 1024 := abs_le.mpr ⟨by linarith, by linarith⟩
  have hb : |ty - z.y| ≤ 1024 := abs_le.mpr ⟨by linarith, by linarith⟩
  obtain ⟨haa, ha'⟩ := sub_bounds fa hfa z.x tx ha
  obtain ⟨hbb, hb'⟩ := sub_bounds fa hfa z.y ty hb
  obtain ⟨hd0, hd2, hva, hvb⟩ := vecLength_bounds fa hfa _ _ ha' hb'
  rw [not_lt] at hfar
  generalize vecLength fa (fa.sub tx z.x) (fa.sub ty z.y) = d at *
  obtain ⟨-, hrx, hrx'⟩ := dir_bounds fa hfa _ d hfar hva
  obtain ⟨-, hry, hry'⟩ := dir_bounds fa hfa _ d hfar hvb
  have hτ0 : 0 ≤ stepSize * i := by unfold stepSize; positivity
  have hox := zombie_offset fa hfa _ d i hrx' hd2 hi
  have hoy := zombie_offset fa hfa _ d i hry' hd2 hi
  obtain ⟨hsx, hsx'⟩ := sample_near fa hfa z.x (tx - z.x) _ d _ _ _ hx ha haa hfar hd2 hrx hτ0 hi hox
  obtain ⟨hsy, hsy'⟩ := sample_near fa hfa z.y (ty - z.y) _ d _ _ _ hy hb hbb hfar hd2 hry hτ0 hi hoy
  rw [sampleClear_iff]
  exact clear_of_near fa hfa maze z.x z.y tx ty hclear (stepSize * i / d)
    (div_nonneg hτ0 (by linarith)) ((div_le_one (by linarith)).mpr hi) _ _ hsx hsx' hsy hsy'

/-- `Zombie::hasLineOfSight` returns `true` on a segment that no wall comes near. -/
theorem zombie_los_clear (fa : FloatArith) (hfa : fa.Single) (z : Zombie) (tx ty : ℚ)
    (maze : Maze) (hclear : ClearWithin maze (1 / 100) z.x z.y tx ty) :
    z.hasLineOfSight fa tx ty maze = some true := by
  by_cases hnear : vecLength fa (fa.sub tx z.x) (fa.sub ty z.y) < 1
  · exact hasLineOfSight_near fa z tx ty maze hnear
  · rw [hasLineOfSight_far fa z tx ty maze hnear]
    congr 1
    rw [List.all_eq_true]
    intro i hi
    rw [List.mem_range'_1] at hi
    apply sampleClear_single fa hfa z tx ty maze hclear hnear i
    obtain ⟨⟨⟨hx1, hx2⟩, ⟨hy1, hy2⟩⟩, ⟨⟨htx1, htx2⟩, ⟨hty1, hty2⟩⟩⟩ := hclear.bounds
    have ha : |tx - z.x| ≤ 1024 := abs_le.mpr ⟨by linarith, by linarith⟩
    have hb : |ty - z.y| ≤ 1024 := abs_le.mpr ⟨by linarith, by linarith⟩
    obtain ⟨-, ha'⟩ := sub_bounds fa hfa z.x tx ha
    obtain ⟨-, hb'⟩ := sub_bounds fa hfa z.y ty hb
    obtain ⟨-, hd2, -, -⟩ := vecLength_bounds fa hfa _ _ ha' hb'
    rw [not_lt] at hnear
    generalize vecLength fa (fa.sub tx z.x) (fa.sub ty z.y) = d at *
    obtain ⟨hn0, hn1, -⟩ := steps_single fa hfa d hnear hd2
    have hi2 : (i : Int) + 1 ≤ toInt (fa.div d stepSize) := by omega
    have hiq : (i : ℚ) + 1 ≤ (toInt (fa.div d stepSize) : ℚ) := by exact_mod_cast hi2
    unfold stepSize at *
    linarith

/-- The renderer's loop returns `true` on a segment that no wall comes near;
`fuel + 1` iterations suffice when `distance ≤ t + 4 * fuel`, as the counter
`t` grows by at least 4 in every iteration. -/
theorem losRay_single (fa : FloatArith) (hfa : fa.Single) (maze : Maze) (x1 y1 x2 y2 : ℚ)
    (hclear : ClearWithin maze (1 / 100) x1 y1 x2 y2) :
    ∀ (fuel : ℕ) (t : ℚ), t = 0 ∨ 4 ≤ t →
      vecLength fa (fa.sub x2 x1) (fa.sub y2 y1) ≤ t + 4 * fuel →
      losRay fa maze x1 y1
        (fa.div (fa.sub x2 x1) (vecLength fa (fa.sub x2 x1) (fa.sub y2 y1)))
        (fa.div (fa.sub y2 y1) (vecLength fa (fa.sub x2 x1) (fa.sub y2 y1)))
        (vecLength fa (fa.sub x2 x1) (fa.sub y2 y1)) (fuel + 1) t = some true := by
  obtain ⟨⟨⟨hx1, hx2⟩, ⟨hy1, hy2⟩⟩, ⟨⟨htx1, htx2⟩, ⟨hty1, hty2⟩⟩⟩ := hclear.bounds
  have hx : |x1| ≤ 1024 := abs_le.mpr ⟨by linarith, by linarith⟩
  have hy : |y1| ≤ 1024 := abs_le.mpr ⟨by linarith, by linarith⟩
  have ha : |x2 - x1| ≤ 1024 := abs_le.mpr ⟨by linarith, by linarith⟩
  have hb : |y2 - y1| ≤ 1024 := abs_le.mpr ⟨by linarith, by linarith⟩
  obtain ⟨haa, ha'⟩ := sub_bounds fa hfa x1 x2 ha
  obtain ⟨hbb, hb'⟩ := sub_bounds fa hfa y1 y2 hb
  obtain ⟨hd0, hd2, hva, hvb⟩ := vecLength_bounds fa hfa _ _ ha' hb'
  generalize vecLength fa (fa.sub x2 x1) (fa.sub y2 y1) = d at *
  have hsample : ∀ t : ℚ, t = 0 ∨ 4 ≤ t → t < d →
      maze.isWall (tileOf fa (fa.add x1 (fa.mul (fa.div (fa.sub x2 x1) d) t)))
        (tileOf fa (fa.add y1 (fa.mul (fa.div (fa.sub y2 y1) d) t))) = false := by
    intro t ht htd
    rcases ht with ht | ht
    · have hm : ∀ r : ℚ, fa.mul r t = 0 := by
        intro r
        have := hfa.2.2.1 r t (by rw [ht, mul_zero, abs_zero]; positivity)
        rw [ht, mul_zero] at this
        rw [ht]
        exact this.of_zero
      rw [hm, hm]
      have ex := add_err fa hfa x1 0 1024 (by rwa [add_zero]) (by norm_num)
      have ey := add_err fa hfa y1 0 1024 (by rwa [add_zero]) (by norm_num)
      have h3 : ((1024 : ℚ) + 1) / 2 ^ 24 ≤ 4 / 1000 := by norm_num
      rw [add_zero] at ex ey
      have bx : |fa.add x1 0| ≤ 2050 := by
        have := abs_add (fa.add x1 0 - x1) x1
        rw [sub_add_cancel] at this
        linarith
      have by2 : |fa.add y1 0| ≤ 2050 := by
        have := abs_add (fa.add y1 0 - y1) y1
        rw [sub_add_cancel] at this
        linarith
      exact clear_of_near fa hfa maze x1 y1 x2 y2 hclear 0 le_rfl (by norm_num) _ _
        (by rw [zero_mul, add_zero]; linarith) bx (by rw [zero_mul, add_zero]; linarith) by2
    · have hd1 : 1 ≤ d := by linarith
      have ht0 : 0 ≤ t := by linarith
      obtain ⟨-, hrx, hrx'⟩ := dir_bounds fa hfa _ d hd1 hva
      obtain ⟨-, hry, hry'⟩ := dir_bounds fa hfa _ d hd1 hvb
      have htabs : |t| ≤ 1500 := by rw [abs_of_nonneg ht0]; linarith
      have hox : |fa.mul (fa.div (fa.sub x2 x1) d) t - fa.div (fa.sub x2 x1) d * t| ≤ 1 / 1000 := by
        have h1 := abs_mul_le_mul _ _ _ _ hrx' htabs
        have := mul_err fa hfa _ t 1501 (h1.trans (by norm_num)) (by norm_num)
        exact this.trans (by norm_num)
      have hoy : |fa.mul (fa.div (fa.sub y2 y1) d) t - fa.div (fa.sub y2 y1) d * t| ≤ 1 / 1000 := by
        have h1 := abs_mul_le_mul _ _ _ _ hry' htabs
        have := mul_err fa hfa _ t 1501 (h1.trans (by norm_num)) (by norm_num)
        exact this.trans (by norm_num)
      obtain ⟨hsx, hsx'⟩ := sample_near fa hfa x1 (x2 - x1) _ d _ _ t hx ha haa hd1 hd2 hrx ht0
        htd.le hox
      obtain ⟨hsy, hsy'⟩ := sample_near fa hfa y1 (y2 - y1) _ d _ _ t hy hb hbb hd1 hd2 hry ht0
        htd.le hoy
      exact clear_of_near fa hfa maze x1 y1 x2 y2 hclear (t / d)
        (div_nonneg ht0 (by linarith)) ((div_le_one (by linarith)).mpr htd.le) _ _
        hsx hsx' hsy hsy'
  intro fuel
  induction fuel with
  | zero =>
    intro t _ hd
    unfold losRay
    rw [if_neg (by push_cast at hd; linarith)]
  | succ k ih =>
    intro t ht hd
    unfold losRay
    by_cases h1 : t < d
    · simp only [h1, if_true, hsample t ht h1, Bool.false_eq_true, if_false]
      have ht0 : 0 ≤ t := by rcases ht with ht | ht <;> linarith
      have he := add_err fa hfa t 5 1505 (by rw [abs_of_nonneg (by linarith)]; linarith)
        (by norm_num)
      rw [abs_le] at he
      have h3 : ((1505 : ℚ) + 1) / 2 ^ 24 ≤ 1 := by norm_num
      apply ih (fa.add t 5) (Or.inr (by linarith))
      push_cast at hd
      linarith
    · simp only [h1, if_false]

/-! ## A column of walls between the observer and the target -/

/-- Values that change by less than a tile width per step, start on one side
of the column `c` or in it, and end on the other side or in it, take a value
in the column. -/
theorem column_crossing (f : ℕ → ℚ) (c : ℚ) (m : ℕ) (hm : 1 ≤ m)
    (hstep : ∀ j, 1 ≤ j → j < m → |f (j + 1) - f j| < 30)
    (h : (f 1 < 30 * (c + 1) ∧ 30 * c ≤ f m) ∨ (30 * c ≤ f 1 ∧ f m < 30 * (c + 1))) :
    ∃ j, 1 ≤ j ∧ j ≤ m ∧ 30 * c ≤ f j ∧ f j < 30 * (c + 1) := by
  have hm1 : m - 1 + 1 = m := by omega
  rcases h with ⟨h1, h2⟩ | ⟨h1, h2⟩
  · by_cases h0 : 30 * c ≤ f 1
    · exact ⟨1, le_rfl, hm, h0, h1⟩
    · obtain ⟨i, hi, hn, hp⟩ := discrete_crossing (fun k : ℕ => 30 * c ≤ f (k + 1)) (m - 1)
        h0 (by simp only [hm1]; exact h2)
      simp only [not_le] at hn
      have hs := hstep (i + 1) (by omega) (by omega)
      rw [abs_lt] at hs
      exact ⟨i + 1 + 1, by omega, by omega, hp, by linarith⟩
  · by_cases h0 : f 1 < 30 * (c + 1)
    · exact ⟨1, le_rfl, hm, h1, h0⟩
    · obtain ⟨i, hi, hn, hp⟩ := discrete_crossing (fun k : ℕ => f (k + 1) < 30 * (c + 1)) (m - 1)
        h0 (by simp only [hm1]; exact h2)
      simp only [not_lt] at hn
      have hs := hstep (i + 1) (by omega) (by omega)
      rw [abs_lt] at hs
      exact ⟨i + 1 + 1, by omega, by omega, by linarith, hp⟩

/-- The tile index of a coordinate from 0 to 1024, against a column `c`. -/
theorem tile_side (fa : FloatArith) (hfa : fa.Single) (v : ℚ) (hv0 : 0 ≤ v) (hv1 : v ≤ 1024)
    (c : Int) :
    0 ≤ tileOf fa v ∧ (tileOf fa v < c → v < 30 * c + 1 / 1000) ∧
      (c < tileOf fa v → 30 * ((c : ℚ) + 1) - 1 / 1000 ≤ v) := by
  have habs : |v| ≤ 2050 := by rw [abs_of_nonneg hv0]; linarith
  obtain ⟨hn, -⟩ := tileOf_near fa hfa v habs
  have hq0 : 0 ≤ v / 30 := div_nonneg hv0 (by norm_num)
  have hg0 : 0 ≤ fa.div v 30 :=
    (hfa.2.2.2.1 v 30 (by norm_num) (by
      rw [abs_of_nonneg hq0, div_le_iff₀ (by norm_num)]
      linarith)).2.1 hq0
  unfold tileOf
  rw [toInt_of_nonneg _ hg0]
  rw [abs_le] at hn
  refine ⟨Int.floor_nonneg.mpr hg0, ?_, ?_⟩
  · intro h
    have := Int.floor_lt.mp h
    linarith
  · intro h
    have h1 : c + 1 ≤ ⌊fa.div v 30⌋ := h
    have h2 : ((c + 1 : Int) : ℚ) ≤ fa.div v 30 := Int.le_floor.mp h1
    push_cast at h2
    linarith

/-- A sample whose tile column is a column of walls blocks the line of sight. -/
theorem blocked_of_sample (fa : FloatArith) (z : Zombie) (tx ty : ℚ) (maze : Maze) (c : Int)
    (hcol : ∀ y, 0 ≤ y → y < HEIGHT → maze.tiles y c = TileType.Wall)
    (hfar : ¬ vecLength fa (fa.sub tx z.x) (fa.sub ty z.y) < 1) (i : ℕ) (hi1 : 1 ≤ i)
    (hi2 : i < 1 +
      (toInt (fa.div (vecLength fa (fa.sub tx z.x) (fa.sub ty z.y)) stepSize) - 1).toNat)
    (htile : tileOf fa (fa.add z.x (fa.mul (fa.mul
      (fa.div (fa.sub tx z.x) (vecLength fa (fa.sub tx z.x) (fa.sub ty z.y))) stepSize) i)) = c) :
    z.hasLineOfSight fa tx ty maze = some false := by
  rw [hasLineOfSight_far fa z tx ty maze hfar]
  congr 1
  rw [List.all_eq_false]
  refine ⟨i, ?_, ?_⟩
  · rw [List.mem_range'_1]
    exact ⟨hi1, hi2⟩
  · rw [sampleClear_iff, htile, isWall_of_wall_column maze c hcol]
    simp

theorem wall_step (x ρ j j1 f0 f1 : ℚ) (hj : j1 = j + 1) (hρ : |ρ| ≤ 1 + 1 / 500)
    (h0 : |f0 - (x + 15 / 2 * j * ρ)| ≤ 5 / 1000)
    (h1 : |f1 - (x + 15 / 2 * j1 * ρ)| ≤ 5 / 1000) : |f1 - f0| < 30 := by
  rw [hj] at h1
  rw [abs_le] at hρ h0 h1
  rw [abs_lt]
  constructor <;> linarith

theorem wall_ends_right (x tx c d ρ m one f1 fm : ℚ) (hone : one = 1) (hρd : ρ * d = tx - x)
    (hρ : |ρ| ≤ 1 + 1 / 500) (hd : 28 ≤ d) (hm : d - 1 / 1000 - 15 ≤ 15 / 2 * m)
    (p1 : x < 30 * c + 1 / 1000) (p2 : 30 * (c + 1) - 1 / 1000 ≤ tx)
    (h1 : |f1 - (x + 15 / 2 * one * ρ)| ≤ 5 / 1000)
    (h2 : |fm - (x + 15 / 2 * m * ρ)| ≤ 5 / 1000) :
    f1 < 30 * (c + 1) ∧ 30 * c ≤ fm := by
  rw [hone] at h1
  rw [abs_le] at hρ h1 h2
  have hρ0 : 0 ≤ ρ := by
    by_contra hneg
    rw [not_le] at hneg
    have := mul_neg_of_neg_of_pos hneg (by linarith : (0 : ℚ) < d)
    linarith
  have := mul_le_mul_of_nonneg_left hm hρ0
  constructor <;> linarith

theorem wall_ends_left (x tx c d ρ m one f1 fm : ℚ) (hone : one = 1) (hρd : ρ * d = tx - x)
    (hρ : |ρ| ≤ 1 + 1 / 500) (hd : 28 ≤ d) (hm : d - 1 / 1000 - 15 ≤ 15 / 2 * m)
    (p1 : tx < 30 * c + 1 / 1000) (p2 : 30 * (c + 1) - 1 / 1000 ≤ x)
    (h1 : |f1 - (x + 15 / 2 * one * ρ)| ≤ 5 / 1000)
    (h2 : |fm - (x + 15 / 2 * m * ρ)| ≤ 5 / 1000) :
    30 * c ≤ f1 ∧ fm < 30 * (c + 1) := by
  rw [hone] at h1
  rw [abs_le] at hρ h1 h2
  have hρ0 : ρ ≤ 0 := by
    by_contra hpos
    rw [not_le] at hpos
    have := mul_pos hpos (by linarith : (0 : ℚ) < d)
    linarith
  have := mul_le_mul_of_nonpos_left hm hρ0
  constructor <;> linarith

/-- `Zombie::hasLineOfSight` returns `false` when a column of walls lies
between the tile columns of the observer and of the target, both inside the
grid. -/
theorem los_wall_column (fa : FloatArith) (hfa : fa.Single) (z : Zombie)
    (tx ty : ℚ) (maze : Maze) (c : Int)
    (hcol : ∀ y, 0 ≤ y → y < HEIGHT → maze.tiles y c = TileType.Wall)
    (hz : (0 ≤ z.x ∧ z.x ≤ 960) ∧ (0 ≤ z.y ∧ z.y ≤ 720))
    (ht : (0 ≤ tx ∧ tx ≤ 960) ∧ (0 ≤ ty ∧ ty ≤ 720))
    (hside : (tileOf fa z.x < c ∧ c < tileOf fa tx) ∨ (tileOf fa tx < c ∧ c < tileOf fa z.x)) :
    z.hasLineOfSight fa tx ty maze = some false := by
  obtain ⟨⟨hx1, hx2⟩, ⟨hy1, hy2⟩⟩ := hz
  obtain ⟨⟨htx1, htx2⟩, ⟨hty1, hty2⟩⟩ := ht
  have hx : |z.x| ≤ 1024 := abs_le.mpr ⟨by linarith, by linarith⟩
  have ha : |tx - z.x| ≤ 1024 := abs_le.mpr ⟨by linarith, by linarith⟩
  have hb : |ty - z.y| ≤ 1024 := abs_le.mpr ⟨by linarith, by linarith⟩
  obtain ⟨haa, ha'⟩ := sub_bounds fa hfa z.x tx ha
  obtain ⟨-, hb'⟩ := sub_bounds fa hfa z.y ty hb
  obtain ⟨hd0, hd2, hva, -⟩ := vecLength_bounds fa hfa _ _ ha' hb'
  obtain ⟨hzt0, hzlt, hzgt⟩ := tile_side fa hfa z.x hx1 (by linarith) c
  obtain ⟨htt0, htlt, htgt⟩ := tile_side fa hfa tx htx1 (by linarith) c
  have hc1 : (1 : ℚ) ≤ c := by
    have : (1 : Int) ≤ c := by
      rcases hside with ⟨h1, -⟩ | ⟨h1, -⟩
      · omega
      · omega
    exact_mod_cast this
  -- the two points are more than 29 apart in x
  have hfar29 : 29 + 1 / 2 < |tx - z.x| := by
    rcases hside with ⟨h1, h2⟩ | ⟨h1, h2⟩
    · have := hzlt h1
      have := htgt h2
      rw [abs_of_nonneg (by linarith)]
      linarith
    · have := htlt h1
      have := hzgt h2
      rw [abs_of_nonpos (by linarith)]
      linarith
  have ha'29 : 29 < |fa.sub tx z.x| := by
    have := abs_sub_abs_le_abs_sub (tx - z.x) (fa.sub tx z.x)
    rw [abs_sub_comm (tx - z.x) (fa.sub tx z.x)] at this
    linarith only [this, haa, hfar29]
  have hsq29 : 29 * 29 < fa.sub tx z.x * fa.sub tx z.x := by
    rw [← abs_mul_abs_self (fa.sub tx z.x)]
    exact mul_self_lt_mul_self (by norm_num) ha'29
  have hd28 : 28 ≤ vecLength fa (fa.sub tx z.x) (fa.sub ty z.y) := by
    by_contra h
    rw [not_le] at h
    have h2 := mul_self_lt_mul_self hd0 h
    have h3 : (1 : ℚ) / 2 ^ 20 ≤ 1 / 1000 := by norm_num
    nlinarith only [h2, hva, hsq29, h3, mul_self_nonneg
      (vecLength fa (fa.sub tx z.x) (fa.sub ty z.y))]
  have hfar : ¬ vecLength fa (fa.sub tx z.x) (fa.sub ty z.y) < 1 := by
    intro h
    linarith only [h, hd28]
  refine Exists.elim ?_ (fun j (hj : 1 ≤ j ∧
      j < 1 + (toInt (fa.div (vecLength fa (fa.sub tx z.x) (fa.sub ty z.y)) stepSize) - 1).toNat ∧
      tileOf fa (fa.add z.x (fa.mul (fa.mul (fa.div (fa.sub tx z.x)
        (vecLength fa (fa.sub tx z.x) (fa.sub ty z.y))) stepSize) j)) = c) =>
    blocked_of_sample fa z tx ty maze c hcol hfar j hj.1 hj.2.1 hj.2.2)
  clear hfar hsq29
  generalize vecLength fa (fa.sub tx z.x) (fa.sub ty z.y) = d at *
  have hd1 : 1 ≤ d := by linarith only [hd28]
  obtain ⟨hn0, hn1, hn2⟩ := steps_single fa hfa d hd1 hd2
  obtain ⟨hr1, hr2, hr3⟩ := dir_bounds fa hfa _ d hd1 hva
  have hn3 : 3 ≤ toInt (fa.div d stepSize) := by
    have hq : (3 : ℚ) < (toInt (fa.div d stepSize) : ℚ) + 1 := by linarith only [hn2, hd28]
    have hz : (3 : Int) < toInt (fa.div d stepSize) + 1 := by exact_mod_cast hq
    omega
  obtain ⟨m, hm⟩ : ∃ m : ℕ, (m : Int) = toInt (fa.div d stepSize) - 1 :=
    ⟨(toInt (fa.div d stepSize) - 1).toNat, Int.toNat_of_nonneg (by omega)⟩
  have hmq : (m : ℚ) = (toInt (fa.div d stepSize) : ℚ) - 1 := by
    have := congrArg (fun v : Int => (v : ℚ)) hm
    simpa using this
  rw [← hm, Int.toNat_natCast]
  have hm2 : 1 ≤ m := by omega
  have hdpos : (0 : ℚ) < d := by linarith only [hd1]
  have hmd : d - 1 / 1000 - 15 ≤ 15 / 2 * (m : ℚ) := by
    rw [hmq]; linarith only [hn2]
  have hmd2 : 15 / 2 * (m : ℚ) ≤ d := by
    rw [hmq]; linarith only [hn1]
  -- the slope of the samples
  have hρ : |(tx - z.x) / d| ≤ 1 + 1 / 500 := by
    rw [abs_div, abs_of_pos hdpos, div_le_iff₀ hdpos]
    have := abs_sub_abs_le_abs_sub (tx - z.x) (fa.sub tx z.x)
    rw [abs_sub_comm (tx - z.x) (fa.sub tx z.x)] at this
    have h3 : (1 : ℚ) / 2 ^ 19 ≤ 1 / 1000 := by norm_num
    have h4 : d * (1 / 2 ^ 19) ≤ d * (1 / 1000) := mul_le_mul_of_nonneg_left h3 hdpos.le
    linarith only [this, haa, hr1, h4, hd1]
  generalize fa.div (fa.sub tx z.x) d = r at *
  -- every sample up to the last is near its exact position
  have hnear : ∀ j : ℕ, j ≤ m →
      |30 * fa.div (fa.add z.x (fa.mul (fa.mul r stepSize) j)) 30 -
        (z.x + 15 / 2 * j * ((tx - z.x) / d))| ≤ 5 / 1000 ∧
      tileOf fa (fa.add z.x (fa.mul (fa.mul r stepSize) j)) =
        toInt (30 * fa.div (fa.add z.x (fa.mul (fa.mul r stepSize) j)) 30 / 30) := by
    intro j hj
    have hjq : (j : ℚ) ≤ m := by exact_mod_cast hj
    have hi : stepSize * j ≤ d := by
      unfold stepSize
      linarith only [hjq, hmd2]
    have hτ0 : 0 ≤ stepSize * j := by unfold stepSize; positivity
    have ho := zombie_offset fa hfa _ d j hr3 hd2 hi
    obtain ⟨hs, hs'⟩ := sample_near fa hfa z.x (tx - z.x) _ d _ _ _ hx ha haa hd1 hd2 hr2 hτ0 hi ho
    obtain ⟨ht1, ht2⟩ := tileOf_near fa hfa _ hs'
    refine ⟨?_, ht2⟩
    have e : z.x + 15 / 2 * j * ((tx - z.x) / d) = z.x + stepSize * j / d * (tx - z.x) := by
      unfold stepSize
      ring
    rw [e]
    have := abs_sub_le
      (30 * fa.div (fa.add z.x (fa.mul (fa.mul r stepSize) j)) 30)
      (fa.add z.x (fa.mul (fa.mul r stepSize) j))
      (z.x + stepSize * j / d * (tx - z.x))
    linarith only [this, hs, ht1]
  generalize hρdef : (tx - z.x) / d = ρ at hρ hnear
  have hρd : ρ * d = tx - z.x := by rw [← hρdef]; exact div_mul_cancel₀ _ hdpos.ne'
  obtain ⟨j, hj1, hj2, hj3, hj4⟩ := column_crossing
    (fun j : ℕ => 30 * fa.div (fa.add z.x (fa.mul (fa.mul r stepSize) j)) 30) c m hm2
    (by
      intro j hj1 hj2
      have h1 := (hnear j (by omega)).1
      have h2 := (hnear (j + 1) (by omega)).1
      exact wall_step z.x ρ j ((j + 1 : ℕ) : ℚ) _ _ (by push_cast; ring) hρ h1 h2)
    (by
      have h1 := (hnear 1 hm2).1
      have h2 := (hnear m le_rfl).1
      rcases hside with ⟨s1, s2⟩ | ⟨s1, s2⟩
      · left
        exact wall_ends_right z.x tx c d ρ m ((1 : ℕ) : ℚ) _ _ Nat.cast_one hρd hρ hd28 hmd (hzlt s1) (htgt s2) h1 h2
      · right
        exact wall_ends_left z.x tx c d ρ m ((1 : ℕ) : ℚ) _ _ Nat.cast_one hρd hρ hd28 hmd (htlt s1) (hzgt s2) h1 h2)
  refine ⟨j, hj1, by omega, ?_⟩
  rw [(hnear j hj2).2, mul_div_cancel_left₀ _ (by norm_num : (30 : ℚ) ≠ 0)]
  apply toInt_eq
  · linarith only [hj3, hc1]
  · linarith only [hj3]
  · linarith only [hj4]

/-! ## An arithmetic that rounds as single precision does -/

theorem fineSqrt_spec (a : ℚ) (ha : 0 ≤ a) :
    0 ≤ fineSqrt a ∧ |fineSqrt a * fineSqrt a - a| ≤ a / 2 ^ 22 := by
  unfold fineSqrt
  have hn : 0 ≤ a.num := Rat.num_nonneg.mpr ha
  have hdpos : (0 : ℚ) < a.den := by exact_mod_cast a.den_pos
  have hnum : ((a.num.toNat : ℕ) : ℚ) = (a.num : ℚ) := by
    have := Int.toNat_of_nonneg hn
    exact_mod_cast congrArg (fun v : Int => (v : ℚ)) this
  have hq : a = (a.num.toNat : ℚ) / (a.den : ℚ) := by
    rw [hnum]; exact (Rat.num_div_den a).symm
  generalize a.num.toNat = n at hq
  generalize a.den = dn at hq hdpos
  have h1 : Nat.sqrt (n * dn * 2 ^ 48) * Nat.sqrt (n * dn * 2 ^ 48) ≤ n * dn * 2 ^ 48 :=
    Nat.sqrt_le _
  have h2 : n * dn * 2 ^ 48 <
      (Nat.sqrt (n * dn * 2 ^ 48) + 1) * (Nat.sqrt (n * dn * 2 ^ 48) + 1) :=
    Nat.lt_succ_sqrt _
  have h3 : n * dn * 2 ^ 48 = 0 ∨ 2 ^ 24 ≤ Nat.sqrt (n * dn * 2 ^ 48) := by
    by_cases h0 : n * dn = 0
    · left; rw [h0, zero_mul]
    · right
      rw [Nat.le_sqrt]
      have : 1 ≤ n * dn := Nat.one_le_iff_ne_zero.mpr h0
      calc 2 ^ 24 * 2 ^ 24 = 1 * 2 ^ 48 := by norm_num
        _ ≤ n * dn * 2 ^ 48 := Nat.mul_le_mul_right _ this
  have key : (n * dn * 2 ^ 48 - Nat.sqrt (n * dn * 2 ^ 48) * Nat.sqrt (n * dn * 2 ^ 48)) * 2 ^ 22
      ≤ n * dn * 2 ^ 48 := by
    rcases h3 with h3 | h3
    · rw [h3]; simp
    · generalize Nat.sqrt (n * dn * 2 ^ 48) = r at *
      generalize n * dn * 2 ^ 48 = N at *
      have : N - r * r ≤ 2 * r := by
        have : N < r * r + 2 * r + 1 := by nlinarith
        omega
      calc (N - r * r) * 2 ^ 22 ≤ 2 * r * 2 ^ 22 := Nat.mul_le_mul_right _ this
        _ = r * 2 ^ 23 := by ring
        _ ≤ r * r := Nat.mul_le_mul_left _ (le_trans (by norm_num) h3)
        _ ≤ N := h1
  have hsub : ((n * dn * 2 ^ 48 - Nat.sqrt (n * dn * 2 ^ 48) * Nat.sqrt (n * dn * 2 ^ 48) : ℕ) : ℚ)
      = (n : ℚ) * dn * 2 ^ 48 -
        (Nat.sqrt (n * dn * 2 ^ 48) : ℚ) * (Nat.sqrt (n * dn * 2 ^ 48) : ℚ) := by
    rw [Nat.cast_sub h1]
    push_cast
    ring
  have keyq : ((n : ℚ) * dn * 2 ^ 48 -
      (Nat.sqrt (n * dn * 2 ^ 48) : ℚ) * (Nat.sqrt (n * dn * 2 ^ 48) : ℚ)) * 2 ^ 22 ≤
      (n : ℚ) * dn * 2 ^ 48 := by
    rw [← hsub]
    exact_mod_cast key
  have h1q : (Nat.sqrt (n * dn * 2 ^ 48) : ℚ) * (Nat.sqrt (n * dn * 2 ^ 48) : ℚ) ≤
      (n : ℚ) * dn * 2 ^ 48 := by exact_mod_cast h1
  have hr0 : (0 : ℚ) ≤ (Nat.sqrt (n * dn * 2 ^ 48) : ℚ) := Nat.cast_nonneg _
  generalize (Nat.sqrt (n * dn * 2 ^ 48) : ℚ) = r at keyq h1q hr0
  constructor
  · exact div_nonneg hr0 (by positivity)
  · rw [hq]
    have e : r / ((dn : ℚ) * 2 ^ 24) * (r / ((dn : ℚ) * 2 ^ 24)) - (n : ℚ) / dn =
        -(((n : ℚ) * dn * 2 ^ 48 - r * r) / ((dn : ℚ) * dn * 2 ^ 48)) := by
      field_simp
      ring
    rw [e, abs_neg, abs_of_nonneg (div_nonneg (by linarith) (by positivity))]
    rw [div_div, div_le_div_iff₀ (by positivity) (by positivity)]
    have hdn : (0 : ℚ) ≤ (dn : ℚ) * 2 ^ 48 := by positivity
    nlinarith [mul_le_mul_of_nonneg_right keyq hdn]

theorem fineArith_single : fineArith.Single :=
  ⟨fun a b _ => rounded_self (a + b), fun a b _ => rounded_self (a - b),
    fun a b _ => rounded_self (a * b), fun a b _ _ => rounded_self (a / b),
    fun a ha _ => fineSqrt_spec a ha⟩

theorem fineArith_exact : fineArith.Exact :=
  ⟨fun _ _ => rfl, fun _ _ => rfl, fun _ _ => rfl, fun _ _ => rfl⟩

theorem fineSqrt_mul_self (a : ℚ) (h : 0 ≤ a) : fineSqrt (a * a) = a := by
  unfold fineSqrt
  have hn : 0 ≤ a.num := Rat.num_nonneg.mpr h
  rw [Rat.mul_self_num, Rat.mul_self_den]
  have e : (a.num * a.num).toNat * (a.den * a.den) * 2 ^ 48 =
      (a.num.toNat * a.den * 2 ^ 24) * (a.num.toNat * a.den * 2 ^ 24) := by
    have : (a.num * a.num).toNat = a.num.toNat * a.num.toNat := by
      zify
      rw [Int.toNat_of_nonneg (mul_nonneg hn hn), Int.toNat_of_nonneg hn]
    rw [this]; ring
  rw [e, Nat.sqrt_eq]
  have hd : (a.den : ℚ) ≠ 0 := by exact_mod_cast a.den_nz
  push_cast
  have hnum : ((a.num.toNat : ℕ) : ℚ) = (a.num : ℚ) := by
    have := Int.toNat_of_nonneg hn
    exact_mod_cast congrArg (fun v : Int => (v : ℚ)) this
  rw [hnum]
  have ha : a = (a.num : ℚ) / (a.den : ℚ) := (Rat.num_div_den a).symm
  have e2 : (a.num : ℚ) * a.den * 16777216 / (a.den * a.den * 2 ^ 24) = a.num / a.den := by
    field_simp
    ring
  rw [e2]
  exact ha.symm

theorem vecLength_fineArith (a b d : ℚ) (hd : 0 ≤ d) (h : a * a + b * b = d * d) :
    vecLength fineArith a b = d := by
  rw [vecLength_exact fineArith fineArith_exact, h]
  exact fineSqrt_mul_self d hd

/-- The renderer's loop, started at 0 with the fuel of `rayFuel`, returns
`true` on a segment that no wall comes near. -/
theorem losRay_enough (fa : FloatArith) (hfa : fa.Single) (maze : Maze) (x1 y1 x2 y2 : ℚ)
    (hclear : ClearWithin maze (1 / 100) x1 y1 x2 y2) :
    losRay fa maze x1 y1
      (fa.div (fa.sub x2 x1) (vecLength fa (fa.sub x2 x1) (fa.sub y2 y1)))
      (fa.div (fa.sub y2 y1) (vecLength fa (fa.sub x2 x1) (fa.sub y2 y1)))
      (vecLength fa (fa.sub x2 x1) (fa.sub y2 y1))
      ((⌊vecLength fa (fa.sub x2 x1) (fa.sub y2 y1) / 4⌋).toNat + 2) 0 = some true := by
  apply losRay_single fa hfa maze x1 y1 x2 y2 hclear _ 0 (Or.inl rfl)
  obtain ⟨⟨⟨hx1, hx2⟩, ⟨hy1, hy2⟩⟩, ⟨⟨htx1, htx2⟩, ⟨hty1, hty2⟩⟩⟩ := hclear.bounds
  have ha : |x2 - x1| ≤ 1024 := abs_le.mpr ⟨by linarith, by linarith⟩
  have hb : |y2 - y1| ≤ 1024 := abs_le.mpr ⟨by linarith, by linarith⟩
  obtain ⟨-, ha'⟩ := sub_bounds fa hfa x1 x2 ha
  obtain ⟨-, hb'⟩ := sub_bounds fa hfa y1 y2 hb
  obtain ⟨hd0, -, -, -⟩ := vecLength_bounds fa hfa _ _ ha' hb'
  generalize vecLength fa (fa.sub x2 x1) (fa.sub y2 y1) = d at *
  have h4 : 0 ≤ d / 4 := div_nonneg hd0 (by norm_num)
  have hf : (0 : ℤ) ≤ ⌊d / 4⌋ := Int.floor_nonneg.mpr h4
  have h2 := Int.lt_floor_add_one (d / 4)
  rw [div_lt_iff₀ (by norm_num)] at h2
  have hc : ((⌊d / 4⌋.toNat : ℕ) : ℚ) = ((⌊d / 4⌋ : ℤ) : ℚ) := by
    have := Int.toNat_of_nonneg hf
    exact_mod_cast congrArg (fun v : Int => (v : ℚ)) this
  push_cast
  rw [hc]
  linarith

/-- In the corridor of scenario B no wall comes within 0.01 of the segment
from (45, 45) to (45, y2), for `y2` from 45 to 165. -/
theorem corridor_clearWithin (y2 : ℚ) (h1 : 45 ≤ y2) (h2 : y2 ≤ 165) :
    ClearWithin corridorMaze (1 / 100) 45 45 45 y2 := by
  intro s hs0 hs1 px py hx hy
  simp only [segmentPoint] at hx hy
  rw [abs_le] at hx hy
  have hsy : 0 ≤ s * (y2 - 45) := mul_nonneg hs0 (by linarith)
  have hsy2 : s * (y2 - 45) ≤ 1 * (y2 - 45) := mul_le_mul_of_nonneg_right hs1 (by linarith)
  have htx : toInt (px / 30) = 1 :=
    toInt_eq _ 1 (div_nonneg (by linarith) (by norm_num))
      (by rw [le_div_iff₀ (by norm_num)]; push_cast; linarith)
      (by rw [div_lt_iff₀ (by norm_num)]; push_cast; linarith)
  have hy0 : (0 : ℚ) ≤ py / 30 := div_nonneg (by linarith) (by norm_num)
  have hy1 : 1 ≤ ⌊py / 30⌋ := by
    rw [Int.le_floor, le_div_iff₀ (by norm_num)]
    push_cast
    linarith
  have hy5 : ⌊py / 30⌋ < 6 := by
    rw [Int.floor_lt, div_lt_iff₀ (by norm_num)]
    push_cast
    linarith
  rw [htx, toInt_of_nonneg _ hy0]
  generalize ⌊py / 30⌋ = r at hy1 hy5
  unfold Maze.isWall corridorMaze
  simp only [WIDTH, HEIGHT]
  rw [if_neg (by omega)]
  simp
  omega

/-- The renderer's `hasLineOfSight` returns `true` on a segment that no wall
comes near. -/
theorem renderer_los_clear (fa : FloatArith) (hfa : fa.Single) (maze : Maze) (x1 y1 x2 y2 : ℚ)
    (hclear : ClearWithin maze (1 / 100) x1 y1 x2 y2) :
    hasLineOfSight fa maze x1 y1 x2 y2 = some true := by
  unfold hasLineOfSight rayFuel
  exact losRay_enough fa hfa maze x1 y1 x2 y2 hclear

/-! ## Path refresh -/

theorem update_of_seen (fa : FloatArith) (tr : Trig) (tie : Nat → Nat) (wander : Nat → ℚ × ℚ)
    (z : Zombie) (dt px py : ℚ) (maze : Maze) (others : List Zombie) (b : Bool)
    (hl : z.dead = false)
    (hsee : z.canSeePlayer fa (vecLength fa (fa.sub px z.x) (fa.sub py z.y)) px py maze
      = some b) :
    z.update fa tr tie wander dt px py maze others =
      match ((z.tick fa dt).setMode b).refreshPath fa tr tie wander px py maze with
      | none => none
      | some z3 =>
        some (z3.followPath fa tr
          (((z.tick fa dt).setMode b).currentSpeed fa
            (vecLength fa (fa.sub px z.x) (fa.sub py z.y))) dt maze others) := by
  have hb1 : (z.tick fa dt).canSeePlayer fa
      (vecLength fa (fa.sub px (z.tick fa dt).x) (fa.sub py (z.tick fa dt).y)) px py maze
        = some b := by
    rw [canSeePlayer_congr fa (z.tick fa dt) z _ px py maze rfl rfl]
    exact hsee
  unfold Zombie.update
  rw [if_neg (by rw [hl]; simp)]
  simp only []
  rw [hb1]
  rfl

theorem refreshPath_chasing_due (fa : FloatArith) (tr : Trig) (tie : Nat → Nat)
    (wander : Nat → ℚ × ℚ) (z : Zombie) (px py : ℚ) (maze : Maze)
    (hc : z.isChasing = true) (hdue : z.pathUpdateTimer ≥ 1 / 2 ∨ z.path = []) :
    z.refreshPath fa tr tie wander px py maze =
      Zombie.findPath { z with pathUpdateTimer := 0 } tie (tileOf fa z.x) (tileOf fa z.y)
        (tileOf fa px) (tileOf fa py) maze := by
  unfold Zombie.refreshPath
  rw [if_pos hdue]
  simp only [hc, if_true]

theorem refreshPath_not_due (fa : FloatArith) (tr : Trig) (tie : Nat → Nat)
    (wander : Nat → ℚ × ℚ) (z : Zombie) (px py : ℚ) (maze : Maze)
    (hdue : ¬ (z.pathUpdateTimer ≥ 1 / 2 ∨ z.path = [])) :
    z.refreshPath fa tr tie wander px py maze = some z := by
  unfold Zombie.refreshPath
  rw [if_neg hdue]

theorem followPath_exhausted (fa : FloatArith) (tr : Trig) (z : Zombie) (speed dt : ℚ)
    (maze : Maze) (others : List Zombie) (h : (z.path.length : Int) ≤ z.pathIndex) :
    z.followPath fa tr speed dt maze others = z := by
  unfold Zombie.followPath
  rw [if_neg (by omega)]

theorem setMode_true (z : Zombie) :
    z.setMode true = { z with isChasing := true, wanderTimer := 0 } := rfl

/-- The update of a live zombie that sees the player, has a path and whose
refresh interval has not elapsed: the path is not recomputed. -/
theorem update_keeps_path (fa : FloatArith) (tr : Trig) (tie : Nat → Nat)
    (wander : Nat → ℚ × ℚ) (z : Zombie) (dt px py : ℚ) (maze : Maze) (others : List Zombie)
    (hl : z.dead = false)
    (hsee : z.canSeePlayer fa (vecLength fa (fa.sub px z.x) (fa.sub py z.y)) px py maze
      = some true)
    (hpath : z.path ≠ []) (htime : fa.add z.pathUpdateTimer dt < 1 / 2) :
    z.update fa tr tie wander dt px py maze others =
      some (((z.tick fa dt).setMode true).followPath fa tr
        (((z.tick fa dt).setMode true).currentSpeed fa
          (vecLength fa (fa.sub px z.x) (fa.sub py z.y))) dt maze others) := by
  rw [update_of_seen fa tr tie wander z dt px py maze others true hl hsee,
    refreshPath_not_due]
  rw [setMode_true]
  show ¬ (fa.add z.pathUpdateTimer dt ≥ 1 / 2 ∨ z.path = [])
  intro h
  rcases h with h | h
  · exact absurd htime (not_lt.mpr h)
  · exact hpath h

/-! ## The wall search of the first-person view -/

theorem ddaLoop_of_hit {F : Type} (add : F → F → F) (less : F → F → Bool) (maze : Maze)
    (deltaX deltaY : F) (stepX stepY : Int) (pw : ℚ) (fuel : Nat) (s : DdaState F)
    (h : s.hit = true) :
    ddaLoop add less maze deltaX deltaY stepX stepY pw (fuel + 1) s = some s := by
  unfold ddaLoop
  rw [if_neg (by rw [h]; simp)]

theorem ddaMeasure_inGrid (rx ry : Bool) (x y : Int) (h : inGrid (x, y)) :
    2 ≤ ddaMeasure rx ry x y ∧ ddaMeasure rx ry x y ≤ WIDTH + HEIGHT := by
  unfold inGrid at h
  unfold ddaMeasure
  simp only [WIDTH, HEIGHT] at *
  cases rx <;> cases ry <;> simp <;> omega

/-- From a tile inside the grid the search ends at a wall before the fuel,
which exceeds the number of grid steps left in the direction of the ray, runs
out. -/
theorem ddaLoop_hits {F : Type} (add : F → F → F) (less : F → F → Bool) (maze : Maze)
    (deltaX deltaY : F) (rx ry : Bool) (pw : ℚ) (hpw : pw < 2000) :
    ∀ (fuel : Nat) (s : DdaState F), s.hit = false → inGrid (s.mapX, s.mapY) →
      ddaMeasure rx ry s.mapX s.mapY < fuel →
      ∃ s1, ddaLoop add less maze deltaX deltaY (if rx then 1 else -1) (if ry then 1 else -1)
          pw fuel s = some s1 ∧ s1.hit = true ∧ maze.isWall s1.mapX s1.mapY = true := by
  intro fuel
  induction fuel with
  | zero =>
    intro s _ hin hm
    have := (ddaMeasure_inGrid rx ry s.mapX s.mapY hin).1
    omega
  | succ f ih =>
    intro s hhit hin hm
    have hm2 := (ddaMeasure_inGrid rx ry s.mapX s.mapY hin).1
    obtain ⟨g, hg⟩ : ∃ g, f = g + 1 := ⟨f - 1, by omega⟩
    unfold ddaLoop
    rw [if_pos ⟨hhit, hpw⟩]
    simp only []
    have key : ∀ s1 : DdaState F, s1.hit = false →
        (maze.isWall s1.mapX s1.mapY = false →
          ddaMeasure rx ry s1.mapX s1.mapY < f) →
        ∃ s2, ddaLoop add less maze deltaX deltaY (if rx then 1 else -1) (if ry then 1 else -1)
            pw f (if maze.isWall s1.mapX s1.mapY = true then { s1 with hit := true } else s1)
            = some s2 ∧ s2.hit = true ∧ maze.isWall s2.mapX s2.mapY = true := by
      intro s1 h1 hmeas
      cases hw : maze.isWall s1.mapX s1.mapY
      · simp only [Bool.false_eq_true, if_false]
        exact ih s1 h1 (inGrid_of_notWall maze _ _ hw) (hmeas hw)
      · simp only [if_true]
        rw [hg, ddaLoop_of_hit _ _ _ _ _ _ _ _ _ _ rfl]
        exact ⟨_, rfl, rfl, hw⟩
    unfold inGrid at hin
    simp only [WIDTH, HEIGHT] at hin
    cases hl : less s.sideDistX s.sideDistY
    · simp only [Bool.false_eq_true, if_false]
      refine key { s with sideDistY := add s.sideDistY deltaY,
                          mapY := s.mapY + (if ry then 1 else -1), side := 1 } hhit ?_
      intro hw
      have hin1 := inGrid_of_notWall maze _ _ hw
      unfold inGrid at hin1
      unfold ddaMeasure at hm ⊢
      simp only [WIDTH, HEIGHT] at hin1 hm ⊢
      cases rx <;> cases ry <;> simp at hm hin1 ⊢ <;> omega
    · simp only [if_true]
      refine key { s with sideDistX := add s.sideDistX deltaX,
                          mapX := s.mapX + (if rx then 1 else -1), side := 0 } hhit ?_
      intro hw
      have hin1 := inGrid_of_notWall maze _ _ hw
      unfold inGrid at hin1
      unfold ddaMeasure at hm ⊢
      simp only [WIDTH, HEIGHT] at hin1 hm ⊢
      cases rx <;> cases ry <;> simp at hm hin1 ⊢ <;> omega

/-! ## Start, spawn and exit positions -/

theorem mem_scanCells (x0 x1 y0 y1 : Int) (c : Int × Int) :
    c ∈ scanCells x0 x1 y0 y1 ↔ x0 ≤ c.1 ∧ c.1 < x1 ∧ y0 ≤ c.2 ∧ c.2 < y1 := by
  obtain ⟨x, y⟩ := c
  unfold scanCells
  rw [List.mem_flatMap]
  constructor
  · rintro ⟨j, hj, h⟩
    rw [List.mem_map] at h
    obtain ⟨i, hi, hc⟩ := h
    rw [List.mem_range] at hj hi
    have hx := congrArg Prod.fst hc
    have hy := congrArg Prod.snd hc
    simp only at hx hy
    simp only []
    omega
  · intro h
    simp only [] at h
    refine ⟨(y - y0).toNat, ?_, ?_⟩
    · rw [List.mem_range]; omega
    · rw [List.mem_map]
      refine ⟨(x - x0).toNat, ?_, ?_⟩
      · rw [List.mem_range]; omega
      · have ex : x0 + (((x - x0).toNat : Nat) : Int) = x := by omega
        have ey : y0 + (((y - y0).toNat : Nat) : Int) = y := by omega
        rw [ex, ey]

theorem pickTile_mem (l : List (Int × Int)) (pick : Nat) (h : l ≠ []) : pickTile l pick ∈ l := by
  unfold pickTile
  have hpos : 0 < l.length := List.length_pos.mpr h
  have hlt : pick % l.length < l.length := Nat.mod_lt _ hpos
  rw [List.getD_eq_getElem _ _ hlt]
  exact List.getElem_mem _

theorem pickTile_of_mem (l : List (Int × Int)) (c : Int × Int) (h : c ∈ l) :
    ∃ pick, pickTile l pick = c := by
  obtain ⟨n, hn, hc⟩ := List.getElem_of_mem h
  refine ⟨n, ?_⟩
  unfold pickTile
  rw [Nat.mod_eq_of_lt hn, List.getD_eq_getElem _ _ hn]
  exact hc

theorem startCandidate_iff (m : Maze) (c : Int × Int) :
    m.startCandidate c = true ↔
      m.tiles c.2 c.1 = TileType.Empty ∧ |c.1 - (WIDTH - 2)| + |c.2 - (HEIGHT - 2)| > 5 ∧
      (m.mazeType = MazeType.STANDARD → ¬ max |c.1 - WIDTH / 2| |c.2 - HEIGHT / 2| ≤ 5) := by
  unfold Maze.startCandidate
  simp only []
  by_cases he : m.tiles c.2 c.1 = TileType.Empty
  · by_cases hs : m.mazeType = MazeType.STANDARD
    · simp only [he, hs, if_true, Bool.and_eq_true, decide_eq_true_eq, Bool.not_eq_true',
        decide_eq_false_iff_not, true_and, forall_const, gt_iff_lt]
    · simp [he, hs]
  · simp [he]

/-- What `getPlayerStart` returns: the centre of a tile that passed the test,
or of the tile (2, 2) when no tile passed. -/
theorem getPlayerStart_cases (fa : FloatArith) (pick : Nat) (m : Maze) :
    ((scanCells 2 (WIDTH - 3) 2 (HEIGHT - 3)).filter m.startCandidate = [] ∧
      m.getPlayerStart fa pick = tileCentre fa 2 2) ∨
    ∃ c, c ∈ scanCells 2 (WIDTH - 3) 2 (HEIGHT - 3) ∧ m.startCandidate c = true ∧
      m.getPlayerStart fa pick = tileCentre fa c.1 c.2 := by
  unfold Maze.getPlayerStart
  simp only []
  by_cases h : (scanCells 2 (WIDTH - 3) 2 (HEIGHT - 3)).filter m.startCandidate = []
  · left
    exact ⟨h, by rw [if_pos h]⟩
  · right
    have hm := pickTile_mem _ pick h
    rw [List.mem_filter] at hm
    exact ⟨_, hm.1, hm.2, by rw [if_neg h]⟩

/-- A tile that passes the test can be drawn by `getPlayerStart`. -/
theorem getPlayerStart_of_candidate (fa : FloatArith) (m : Maze) (c : Int × Int)
    (hc : c ∈ scanCells 2 (WIDTH - 3) 2 (HEIGHT - 3)) (hs : m.startCandidate c = true) :
    ∃ pick, m.getPlayerStart fa pick = tileCentre fa c.1 c.2 := by
  have hmem : c ∈ (scanCells 2 (WIDTH - 3) 2 (HEIGHT - 3)).filter m.startCandidate :=
    List.mem_filter.mpr ⟨hc, hs⟩
  obtain ⟨pick, hp⟩ := pickTile_of_mem _ c hmem
  refine ⟨pick, ?_⟩
  unfold Maze.getPlayerStart
  simp only []
  rw [if_neg (List.ne_nil_of_mem hmem), hp]

theorem generateRandomMaze_cell33 (rnd : Randomness) :
    ∃ t, generateRandomMaze rnd = some t ∧ t 3 3 = TileType.Empty ∧
      (∀ x y, t y x = TileType.Exit ↔ (x = 30 ∧ y = 22)) := by
  obtain ⟨t2, -, hconn, heq⟩ := generateRandomMaze_eq rnd
  obtain ⟨t, ht, -, hexit, -, -⟩ := generateRandomMaze_spec rnd
  have h33 : t2 3 3 = TileType.Empty := by
    have h := hconn 1 1 (by decide) (by decide)
    rcases Relation.ReflTransGen.cases_tail h with h0 | ⟨b, -, hb⟩
    · exact absurd h0 (by decide)
    · exact hb.2.1
  rw [heq] at ht
  have e := Option.some.inj ht
  refine ⟨t, by rw [heq, e], ?_, hexit⟩
  rw [← e]
  simp only [setTile, wallBorders, WIDTH, HEIGHT]
  iterate 6 rw [if_neg (by omega)]
  rw [if_neg (by omega)]
  exact h33

theorem generateCircularMaze_empty (rnd : Randomness) (x y : Int)
    (h : (1 ≤ x ∧ x ≤ 4 ∧ 1 ≤ y ∧ y ≤ 4) ∨
      (14 ≤ x ∧ x ≤ 18 ∧ 10 ≤ y ∧ y ≤ 14 ∧ ¬ (x = 16 ∧ y = 12))) :
    generateCircularMaze rnd y x = TileType.Empty := by
  simp only [generateCircularMaze, fillRect, wallBorders, clearAroundExit, setTile, WIDTH, HEIGHT]
  split_ifs <;> first | rfl | omega

theorem generateSoldierMaze_cell33 (rnd : Randomness) :
    generateSoldierMaze rnd 3 3 = TileType.Empty := by
  simp only [generateSoldierMaze, hallwayCols, hallwayRows, WIDTH, HEIGHT]
  iterate 3 rw [if_neg (by omega)]
  rw [if_pos (by omega)]

/-- In every generated maze the tile (3, 3) passes the test of `getPlayerStart`. -/
theorem construct_startCandidate (type : MazeType) (rnd : Randomness) :
    ∃ m, Maze.construct type rnd = some m ∧ m.startCandidate (3, 3) = true := by
  have key : ∀ m : Maze, m.tiles 3 3 = TileType.Empty → m.startCandidate (3, 3) = true := by
    intro m h
    rw [startCandidate_iff]
    refine ⟨h, by decide, fun _ => by decide⟩
  obtain ⟨t, ht, h33, -⟩ := generateRandomMaze_cell33 rnd
  cases type with
  | STANDARD =>
    exact ⟨{ tiles := t, mazeType := MazeType.STANDARD }, by simp [Maze.construct, ht],
      key _ h33⟩
  | CIRCULAR =>
    exact ⟨_, rfl, key _ (generateCircularMaze_empty rnd 3 3 (Or.inl (by omega)))⟩
  | INFINITE =>
    exact ⟨{ tiles := t, mazeType := MazeType.INFINITE },
      by simp [Maze.construct, generateInfiniteMaze, ht], key _ h33⟩
  | SOLDIER =>
    exact ⟨_, rfl, key _ (generateSoldierMaze_cell33 rnd)⟩

theorem tileOf_centre (fa : FloatArith) (hfa : fa.Exact) (x : Int) (hx : 0 ≤ x) :
    tileOf fa (fa.add ((x * TILE_SIZE : Int) : ℚ) 15) = x := by
  unfold tileOf
  rw [hfa.1, hfa.2.2.2]
  have hq : (0 : ℚ) ≤ x := by exact_mod_cast hx
  apply toInt_div _ _ _ (by norm_num)
  · push_cast; linarith
  · push_cast; linarith
  · push_cast; linarith

theorem floor_centre (x : Int) :
    ⌊(exactArith.add ((x * TILE_SIZE : Int) : ℚ) 15) / 30⌋ = x := by
  rw [Int.floor_eq_iff]
  show ((x : ℚ)) ≤ (((x * 30 : Int) : ℚ) + 15) / 30 ∧ (((x * 30 : Int) : ℚ) + 15) / 30 < x + 1
  push_cast
  constructor
  · rw [le_div_iff₀ (by norm_num)]; linarith
  · rw [div_lt_iff₀ (by norm_num)]; linarith

theorem distSq_eq (x y px py : Int) (hx : 0 ≤ x ∧ x < 32) (hy : 0 ≤ y ∧ y < 32)
    (hpx : |px| ≤ 30000) (hpy : |py| ≤ 30000) :
    distSq x y px py = (x - px) * (x - px) + (y - py) * (y - py) := by
  rw [abs_le] at hpx hpy
  have sq : ∀ d : Int, -30032 ≤ d → d ≤ 30032 → 0 ≤ d * d ∧ d * d ≤ 901921024 := by
    intro d h1 h2
    constructor
    · exact mul_self_nonneg d
    · nlinarith
  have hdx := sq (x - px) (by omega) (by omega)
  have hdy := sq (y - py) (by omega) (by omega)
  unfold distSq
  simp only []
  rw [wrapInt_of_fits (x - px) (by unfold fitsInt; omega),
    wrapInt_of_fits (y - py) (by unfold fitsInt; omega),
    wrapInt_of_fits ((x - px) * (x - px)) (by unfold fitsInt; omega),
    wrapInt_of_fits ((y - py) * (y - py)) (by unfold fitsInt; omega),
    wrapInt_of_fits _ (by unfold fitsInt; omega)]

theorem distSq_nonneg (x y px py : Int) (hx : 0 ≤ x ∧ x < 32) (hy : 0 ≤ y ∧ y < 32)
    (hpx : |px| ≤ 30000) (hpy : |py| ≤ 30000) : 0 ≤ distSq x y px py := by
  rw [distSq_eq x y px py hx hy hpx hpy]
  have h1 := mul_self_nonneg (x - px)
  have h2 := mul_self_nonneg (y - py)
  omega

/-- The minimum over the zombies exceeds 8 exactly when every distance does. -/
theorem foldl_minDist_gt (dist : ℚ × ℚ → ℚ) (zs : List (ℚ × ℚ)) :
    ∀ m0 : ℚ, 8 < zs.foldl (fun m z => if dist z < m then dist z else m) m0 ↔
      8 < m0 ∧ ∀ z ∈ zs, 8 < dist z := by
  induction zs with
  | nil => intro m0; simp
  | cons z rest ih =>
    intro m0
    rw [List.foldl_cons, ih]
    simp only [List.mem_cons, forall_eq_or_imp]
    split_ifs with h
    · constructor
      · rintro ⟨h1, h2⟩
        exact ⟨by linarith, h1, h2⟩
      · rintro ⟨_, h1, h2⟩
        exact ⟨h1, h2⟩
    · constructor
      · rintro ⟨h1, h2⟩
        exact ⟨h1, by linarith [not_lt.mp h], h2⟩
      · rintro ⟨h0, _, h2⟩
        exact ⟨h0, h2⟩

theorem minZombieDist_gt (fa : FloatArith)
    (hsqrt : ∀ n : Int, 0 ≤ n → (8 < fa.sqrt n ↔ 64 < n))
    (zs : List (ℚ × ℚ)) (x y : Int) (hx : 0 ≤ x ∧ x < 32) (hy : 0 ≤ y ∧ y < 32)
    (hz : ∀ z ∈ zs, |tileOf fa z.1| ≤ 30000 ∧ |tileOf fa z.2| ≤ 30000) :
    8 < minZombieDist fa zs x y ↔
      ∀ z ∈ zs, FartherThan 8 (x, y) (tileOf fa z.1, tileOf fa z.2) := by
  unfold minZombieDist
  simp only []
  rw [foldl_minDist_gt (fun z => fa.sqrt ((distSq x y (tileOf fa z.1) (tileOf fa z.2) : Int) : ℚ))]
  constructor
  · rintro ⟨-, h⟩ z hzm
    have h1 := h z hzm
    rw [hsqrt _ (distSq_nonneg x y _ _ hx hy (hz z hzm).1 (hz z hzm).2),
      distSq_eq x y _ _ hx hy (hz z hzm).1 (hz z hzm).2] at h1
    unfold FartherThan
    simp only []
    omega
  · intro h
    refine ⟨by norm_num, fun z hzm => ?_⟩
    rw [hsqrt _ (distSq_nonneg x y _ _ hx hy (hz z hzm).1 (hz z hzm).2),
      distSq_eq x y _ _ hx hy (hz z hzm).1 (hz z hzm).2]
    have := h z hzm
    unfold FartherThan at this
    simp only [] at this
    omega

theorem idealSpawn_iff (fa : FloatArith)
    (hsqrt : ∀ n : Int, 0 ≤ n → (8 < fa.sqrt n ↔ 64 < n)) (m : Maze)
    (zs : List (ℚ × ℚ)) (p : ℚ × ℚ)
    (hp : |tileOf fa p.1| ≤ 30000 ∧ |tileOf fa p.2| ≤ 30000)
    (hz : ∀ z ∈ zs, |tileOf fa z.1| ≤ 30000 ∧ |tileOf fa z.2| ≤ 30000) (c : Int × Int) :
    (c ∈ scanCells 2 (WIDTH - 2) 2 (HEIGHT - 2) ∧
      m.idealSpawn fa zs (tileOf fa p.1) (tileOf fa p.2) c = true) ↔ IdealSpawn fa m zs p c := by
  rw [mem_scanCells]
  unfold IdealSpawn SpawnTile
  simp only [WIDTH, HEIGHT]
  constructor
  · rintro ⟨hc, hi⟩
    have hx : 0 ≤ c.1 ∧ c.1 < 32 := by omega
    have hy : 0 ≤ c.2 ∧ c.2 < 32 := by omega
    unfold Maze.idealSpawn at hi
    by_cases he : m.tiles c.2 c.1 = TileType.Empty
    · rw [if_pos he] at hi
      by_cases hd : distSq c.1 c.2 (tileOf fa p.1) (tileOf fa p.2) > 100
      · rw [if_pos hd, decide_eq_true_eq] at hi
        rw [distSq_eq _ _ _ _ hx hy hp.1 hp.2] at hd
        refine ⟨⟨by omega, by omega, by omega, by omega, he⟩, ?_, ?_⟩
        · unfold FartherThan; simp only []; omega
        · exact (minZombieDist_gt fa hsqrt zs c.1 c.2 hx hy hz).mp hi
      · rw [if_neg hd] at hi
        cases hi
    · rw [if_neg he] at hi
      cases hi
  · rintro ⟨⟨h1, h2, h3, h4, he⟩, hfar, hzs⟩
    have hx : 0 ≤ c.1 ∧ c.1 < 32 := by omega
    have hy : 0 ≤ c.2 ∧ c.2 < 32 := by omega
    refine ⟨by omega, ?_⟩
    unfold Maze.idealSpawn
    unfold FartherThan at hfar
    simp only [] at hfar
    rw [if_pos he, if_pos (by rw [distSq_eq _ _ _ _ hx hy hp.1 hp.2]; omega), decide_eq_true_eq]
    exact (minZombieDist_gt fa hsqrt zs c.1 c.2 hx hy hz).mpr hzs

theorem relaxedSpawn_iff (fa : FloatArith) (m : Maze) (p : ℚ × ℚ)
    (hp : |tileOf fa p.1| ≤ 30000 ∧ |tileOf fa p.2| ≤ 30000) (c : Int × Int) :
    (c ∈ scanCells 2 (WIDTH - 2) 2 (HEIGHT - 2) ∧
      m.relaxedSpawn (tileOf fa p.1) (tileOf fa p.2) c = true) ↔ RelaxedSpawn fa m p c := by
  rw [mem_scanCells]
  unfold RelaxedSpawn SpawnTile
  simp only [WIDTH, HEIGHT]
  constructor
  · rintro ⟨hc, hi⟩
    have hx : 0 ≤ c.1 ∧ c.1 < 32 := by omega
    have hy : 0 ≤ c.2 ∧ c.2 < 32 := by omega
    unfold Maze.relaxedSpawn at hi
    by_cases he : m.tiles c.2 c.1 = TileType.Empty
    · rw [if_pos he, decide_eq_true_eq, distSq_eq _ _ _ _ hx hy hp.1 hp.2] at hi
      refine ⟨⟨by omega, by omega, by omega, by omega, he⟩, ?_⟩
      unfold FartherThan; simp only []; omega
    · rw [if_neg he] at hi
      cases hi
  · rintro ⟨⟨h1, h2, h3, h4, he⟩, hfar⟩
    have hx : 0 ≤ c.1 ∧ c.1 < 32 := by omega
    have hy : 0 ≤ c.2 ∧ c.2 < 32 := by omega
    refine ⟨by omega, ?_⟩
    unfold Maze.relaxedSpawn
    unfold FartherThan at hfar
    simp only [] at hfar
    rw [if_pos he, decide_eq_true_eq, distSq_eq _ _ _ _ hx hy hp.1 hp.2]
    omega

theorem fineSqrt_gt_eight (n : Int) (hn : 0 ≤ n) : 8 < fineArith.sqrt n ↔ 64 < n := by
  show 8 < fineSqrt n ↔ 64 < n
  unfold fineSqrt
  rw [Rat.num_intCast, Rat.den_intCast]
  have hpos : (0 : ℚ) < ((1 : ℕ) : ℚ) * 2 ^ 24 := by norm_num
  rw [lt_div_iff₀ hpos]
  have e : (8 : ℚ) * (((1 : ℕ) : ℚ) * 2 ^ 24) = ((134217728 : ℕ) : ℚ) := by norm_num
  rw [e, Nat.cast_lt, ← Nat.succ_le_iff, Nat.le_sqrt]
  obtain ⟨k, rfl⟩ : ∃ k : ℕ, n = k := ⟨n.toNat, (Int.toNat_of_nonneg hn).symm⟩
  rw [Int.toNat_natCast]
  norm_num
  constructor
  · intro h
    by_contra hc
    have : k ≤ 64 := by omega
    omega
  · intro h
    have : 65 ≤ k := by omega
    omega

theorem getSpawn_ideal (fa : FloatArith) (pick : Nat) (m : Maze) (zs : List (ℚ × ℚ))
    (p : ℚ × ℚ)
    (h : (scanCells 2 (WIDTH - 2) 2 (HEIGHT - 2)).filter
      (m.idealSpawn fa zs (tileOf fa p.1) (tileOf fa p.2)) ≠ []) :
    ∃ c, (c ∈ scanCells 2 (WIDTH - 2) 2 (HEIGHT - 2) ∧
        m.idealSpawn fa zs (tileOf fa p.1) (tileOf fa p.2) c = true) ∧
      m.getSpawnPositionAwayFromZombies fa pick zs p = tileCentre fa c.1 c.2 := by
  have hm := pickTile_mem _ pick h
  rw [List.mem_filter] at hm
  refine ⟨_, hm, ?_⟩
  unfold Maze.getSpawnPositionAwayFromZombies
  simp only []
  rw [if_neg h, if_pos h]

theorem getSpawn_relaxed (fa : FloatArith) (pick : Nat) (m : Maze) (zs : List (ℚ × ℚ))
    (p : ℚ × ℚ)
    (h : (scanCells 2 (WIDTH - 2) 2 (HEIGHT - 2)).filter
      (m.idealSpawn fa zs (tileOf fa p.1) (tileOf fa p.2)) = [])
    (h2 : (scanCells 2 (WIDTH - 2) 2 (HEIGHT - 2)).filter
      (m.relaxedSpawn (tileOf fa p.1) (tileOf fa p.2)) ≠ []) :
    ∃ c, (c ∈ scanCells 2 (WIDTH - 2) 2 (HEIGHT - 2) ∧
        m.relaxedSpawn (tileOf fa p.1) (tileOf fa p.2) c = true) ∧
      m.getSpawnPositionAwayFromZombies fa pick zs p = tileCentre fa c.1 c.2 := by
  have hm := pickTile_mem _ pick h2
  rw [List.mem_filter] at hm
  refine ⟨_, hm, ?_⟩
  unfold Maze.getSpawnPositionAwayFromZombies
  simp only []
  rw [if_pos h, if_pos h2]

theorem getSpawn_fallback (fa : FloatArith) (pick : Nat) (m : Maze) (zs : List (ℚ × ℚ))
    (p : ℚ × ℚ)
    (h : (scanCells 2 (WIDTH - 2) 2 (HEIGHT - 2)).filter
      (m.idealSpawn fa zs (tileOf fa p.1) (tileOf fa p.2)) = [])
    (h2 : (scanCells 2 (WIDTH - 2) 2 (HEIGHT - 2)).filter
      (m.relaxedSpawn (tileOf fa p.1) (tileOf fa p.2)) = []) :
    m.getSpawnPositionAwayFromZombies fa pick zs p = tileCentre fa 5 5 := by
  unfold Maze.getSpawnPositionAwayFromZombies
  simp only []
  rw [if_pos h, if_neg (by rw [h2]; simp)]

theorem filter_eq_nil_iff_none (l : List (Int × Int)) (f : Int × Int → Bool) :
    l.filter f = [] ↔ ¬ ∃ c, c ∈ l ∧ f c = true := by
  rw [List.filter_eq_nil_iff]
  constructor
  · rintro h ⟨c, hc, hf⟩
    exact h c hc hf
  · intro h c hc hf
    exact h ⟨c, hc, hf⟩

/-! ## Theorems -/

/-- C1: outside the 32 x 24 grid `isWall` is true, `isExit` is false and
`getTile` is `Wall`; inside the grid `isWall` and `isExit` say exactly whether
the stored tile is `Wall`, respectively `Exit`. The three queries are total
functions of the two integers. -/
theorem maze_queries_bounds_safe (m : Maze) (x y : Int) :
    m.isWall x y = (if x < 0 ∨ 32 ≤ x ∨ y < 0 ∨ 24 ≤ y then true
      else decide (m.tiles y x = TileType.Wall)) ∧
    m.isExit x y = (if x < 0 ∨ 32 ≤ x ∨ y < 0 ∨ 24 ≤ y then false
      else decide (m.tiles y x = TileType.Exit)) ∧
    m.getTile x y = (if x < 0 ∨ 32 ≤ x ∨ y < 0 ∨ 24 ≤ y then TileType.Wall
      else m.tiles y x) := by
  refine ⟨rfl, rfl, rfl⟩

/-- C2: `findPath` returns for every maze, start and goal, and in the path it
leaves the first cell is at Chebyshev distance 1 from the start, every two
consecutive cells are at Chebyshev distance 1, and no cell is a wall. -/
theorem findPath_path_valid (z : Zombie) (tie : Nat → Nat) (sx sy gx gy : Int) (maze : Maze) :
    ∃ z', z.findPath tie sx sy gx gy maze = some z' ∧
      List.Chain (fun a b => chebyshev a b = 1) (sx, sy) z'.path ∧
      ∀ c ∈ z'.path, maze.isWall c.1 c.2 = false := by
  obtain ⟨z', hz, hres⟩ := findPath_spec z tie sx sy gx gy maze
  refine ⟨z', hz, ?_⟩
  rcases hres with ⟨_, rfl⟩ | ⟨_, _, ⟨rfl, _⟩ | ⟨p, rfl, hchain, _⟩⟩
  · exact ⟨List.Chain.nil, by simp⟩
  · exact ⟨List.Chain.nil, by simp⟩
  · exact ⟨hchain.imp (fun a b h => step_chebyshev maze a b h), chain_step_notWall maze _ p hchain⟩

/-- C5: `findPath` returns for every input, and the path it leaves is empty
exactly when the start or the goal is outside the grid, or start and goal are
the same cell, or no sequence of moves allowed by the neighbour loop leads from
the start to the goal. The moves allowed by the neighbour loop reach the goal
exactly when moves that obey the corner rule of the specification do. -/
theorem findPath_empty_iff (z : Zombie) (tie : Nat → Nat) (sx sy gx gy : Int) (maze : Maze) :
    ∃ z', z.findPath tie sx sy gx gy maze = some z' ∧
      (z'.path = [] ↔
        ((sx < 0 ∨ 32 ≤ sx ∨ sy < 0 ∨ 24 ≤ sy) ∨ (gx < 0 ∨ 32 ≤ gx ∨ gy < 0 ∨ 24 ≤ gy) ∨
          (sx, sy) = (gx, gy) ∨ ¬ Reachable maze (sx, sy) (gx, gy))) ∧
      (Reachable maze (sx, sy) (gx, gy) ↔ SpecReachable maze (sx, sy) (gx, gy)) := by
  obtain ⟨z', hz, hres⟩ := findPath_spec z tie sx sy gx gy maze
  refine ⟨z', hz, ?_, reachable_iff_specReachable maze _ _⟩
  rw [inGrid_iff, inGrid_iff] at hres
  rcases hres with ⟨hb, rfl⟩ | ⟨hs, hg, ⟨rfl, hun⟩ | ⟨p, rfl, hchain, hend, _, hst, hsg, _⟩⟩
  · constructor
    · intro _
      by_cases h1 : sx < 0 ∨ 32 ≤ sx ∨ sy < 0 ∨ 24 ≤ sy
      · exact Or.inl h1
      · right; left
        by_contra h2
        exact hb ⟨h1, h2⟩
    · intro _; rfl
  · constructor
    · intro _; exact Or.inr (Or.inr (Or.inr hun))
    · intro _; rfl
  · constructor
    · intro hp
      simp only at hp
      subst hp
      exact Or.inr (Or.inr (Or.inl hend))
    · rintro (h | h | h | h)
      · exact absurd h hs
      · exact absurd h hg
      · exact hsg h
      · exact absurd ⟨p, hchain, hend⟩ h

/-- C6: whenever `findPath` leaves a non-empty path, the last cell of the path
is the goal, the start cell does not occur in it, no cell occurs twice, and
the path cursor is 0. -/
theorem findPath_nonempty_path (z : Zombie) (tie : Nat → Nat) (sx sy gx gy : Int)
    (maze : Maze) :
    ∃ z', z.findPath tie sx sy gx gy maze = some z' ∧
      (z'.path ≠ [] →
        z'.path.getLast? = some (gx, gy) ∧ (sx, sy) ∉ z'.path ∧ z'.path.Nodup ∧
          z'.pathIndex = 0) := by
  obtain ⟨z', hz, hres⟩ := findPath_spec z tie sx sy gx gy maze
  refine ⟨z', hz, ?_⟩
  rcases hres with ⟨_, rfl⟩ | ⟨_, _, ⟨rfl, _⟩ | ⟨p, rfl, _, hend, hnd, hst, _, _⟩⟩
  · intro h; exact absurd rfl h
  · intro h; exact absurd rfl h
  · intro hne
    simp only at hne
    refine ⟨?_, hst, hnd, rfl⟩
    rw [← hend]
    exact walkEnd_getLast _ p hne

/-- C7: in a maze whose only non-wall cells are the `n + 1` cells of a straight
axis-aligned corridor, `findPath` from the first cell to the last returns
exactly the cells `1, ..., n` of the corridor in this order: `n` steps, every
one axis-aligned, of total cost `n` (in thousandths: `1000 * n`). -/
theorem findPath_straight_corridor (z : Zombie) (tie : Nat → Nat) (maze : Maze) (s : Cell)
    (d n : Nat) (hd : d < 4) (hs : inGrid s) (he : inGrid (corridorCell s d n))
    (hmaze : ∀ c, inGrid c →
      (maze.isWall c.1 c.2 = false ↔ ∃ k, k ≤ n ∧ c = corridorCell s d k)) :
    ∃ z', z.findPath tie s.1 s.2 (corridorCell s d n).1 (corridorCell s d n).2 maze = some z' ∧
      z'.path = (List.range n).map (fun k => corridorCell s d (k + 1)) ∧
      z'.path.length = n ∧
      List.Chain (fun a b => a.1 = b.1 ∨ a.2 = b.2) s z'.path ∧
      pathCost s z'.path = 1000 * n := by
  have h0 : corridorCell s d 0 = s := by simp [corridorCell]
  have e1 : ∀ k, 0 + 1 + k = k + 1 := fun k => by omega
  have hway := corridor_chain maze s d n hd hs he hmaze n 0 (by omega)
  simp only [h0, Nat.zero_add, e1] at hway
  obtain ⟨z', hz, hres⟩ := findPath_spec z tie s.1 s.2 (corridorCell s d n).1
    (corridorCell s d n).2 maze
  refine ⟨z', hz, ?_⟩
  have hpath : z'.path = (List.range n).map (fun k => corridorCell s d (k + 1)) := by
    rcases hres with ⟨hb, _⟩ | ⟨_, _, ⟨rfl, hun⟩ | ⟨p, rfl, hchain, hend, hnd, hst, _, _⟩⟩
    · exact absurd ⟨hs, he⟩ hb
    · exfalso
      apply hun
      exact ⟨_, hway.1.imp (fun a b h => axisStep_step maze a b h), hway.2⟩
    · have := corridor_walk_unique maze s d n hd hmaze p 0 (Nat.zero_le _)
        (by rw [h0]; exact hchain)
        (fun k hk => by
          have : k = 0 := by omega
          subst this
          rw [h0]
          exact hst)
        hnd (by rw [h0]; exact hend)
      simp only [Nat.sub_zero, e1] at this ⊢
      exact this
  rw [hpath]
  refine ⟨rfl, by simp, hway.1.imp (fun a b h => axisStep_aligned maze a b h), ?_⟩
  rw [pathCost_axis maze s _ hway.1]
  simp

/-- Scenario B, as an instance of C7: in the corridor (1,1) to (1,5) the path
from (1,1) to (1,5) is (1,2), (1,3), (1,4), (1,5), of cost 4.0. -/
theorem findPath_straight_corridor_scenarioB :
    ∃ z', idleZombie.findPath (fun _ => 0) 1 1 1 5 corridorMaze = some z' ∧
      z'.path = [(1, 2), (1, 3), (1, 4), (1, 5)] ∧
      z'.path.length = 4 ∧
      List.Chain (fun a b => a.1 = b.1 ∨ a.2 = b.2) ((1, 1) : Cell) z'.path ∧
      pathCost (1, 1) z'.path = 4000 :=
  findPath_straight_corridor idleZombie (fun _ => 0) corridorMaze (1, 1) 0 4 (by decide)
    (by decide) (by decide) corridorMaze_cells

/-- C3 (evaluation of the code): the Soldier maze built with all blocks of
cover has a wall at (11,10), and for every tie-breaking order `findPath` from
(11,11) to (10,10) returns the single diagonal step to (10,10), although the
flanking cell (11,10) of that step is a wall. -/
theorem findPath_cuts_corner (tie : Nat → Nat) :
    Maze.construct MazeType.SOLDIER coverRandomness = some arenaMaze ∧
      (idleZombie.findPath tie 11 11 10 10 arenaMaze).map (fun z => z.path) =
        some [(10, 10)] ∧
      arenaMaze.isWall 11 10 = true ∧ cornerFree arenaMaze (11, 11) (10, 10) = false := by
  rw [findPath_tieFree idleZombie tie 11 11 10 10 arenaMaze (by decide)]
  exact ⟨rfl, by decide, by decide, by decide⟩

/-- C4 (counterexample): in `detourMaze` the path returned from (1,1) to (6,3)
costs 6.414, while the walk (2,1), (3,1), (4,1), (5,2), (6,3) of allowed moves,
none of which cuts a corner, costs 5.828. -/
theorem findPath_not_minimal_cost :
    ∃ z', idleZombie.findPath (fun _ => 0) 1 1 6 3 detourMaze = some z' ∧
      z'.path = [(2, 2), (2, 3), (3, 3), (4, 3), (5, 3), (6, 3)] ∧
      pathCost (1, 1) z'.path = 6414 ∧
      List.Chain (fun a b => Step detourMaze a b ∧ cornerFree detourMaze a b = true)
        ((1, 1) : Cell) [(2, 1), (3, 1), (4, 1), (5, 2), (6, 3)] ∧
      walkEnd (1, 1) [(2, 1), (3, 1), (4, 1), (5, 2), (6, 3)] = ((6, 3) : Cell) ∧
      pathCost (1, 1) [(2, 1), (3, 1), (4, 1), (5, 2), (6, 3)] = 5828 ∧
      5828 < pathCost (1, 1) z'.path :=
  ⟨{ idleZombie with path := [(2, 2), (2, 3), (3, 3), (4, 3), (5, 3), (6, 3)], pathIndex := 0 },
    by rfl, rfl, by decide,
    by simp only [List.chain_cons, List.Chain.nil, and_true]; decide,
    by decide, by decide, by decide⟩

/-- C4 (amended): whenever a walk of allowed axis moves leads from the in-bounds
start to the goal, `findPath` returns a walk of allowed moves from the start to
the goal whose total cost (1.0 per axis move, 1.414 per diagonal move) is at
most the cost of that axis walk, 1.0 per move. -/
theorem findPath_cost_le_axis_walk (z : Zombie) (tie : Nat → Nat) (sx sy gx gy : Int)
    (maze : Maze) (q : List Cell) (hs : inGrid (sx, sy))
    (hq : List.Chain (AxisStep maze) (sx, sy) q) (hend : walkEnd (sx, sy) q = (gx, gy)) :
    ∃ z', z.findPath tie sx sy gx gy maze = some z' ∧
      List.Chain (Step maze) (sx, sy) z'.path ∧ walkEnd (sx, sy) z'.path = (gx, gy) ∧
      pathCost (sx, sy) z'.path ≤ 1000 * q.length := by
  have hg : inGrid (gx, gy) := hend ▸ axis_chain_inGrid maze _ q hs hq
  obtain ⟨z', hz, hres⟩ := findPath_spec z tie sx sy gx gy maze
  refine ⟨z', hz, ?_⟩
  rcases hres with ⟨hb, _⟩ | ⟨_, _, ⟨_, hun⟩ | ⟨p, rfl, hchain, hpend, _, _, _, hcost⟩⟩
  · exact absurd ⟨hs, hg⟩ hb
  · exfalso
    exact hun ⟨q, hq.imp (fun a b h => axisStep_step maze a b h), hend⟩
  · exact ⟨hchain, hpend, hcost q hq hend⟩

/-- An instance of the amended C4: in `detourMaze` the returned path from (1,1)
to (6,3) costs at most 7.0, the cost of an axis walk of seven moves. -/
theorem findPath_cost_le_axis_walk_detour :
    ∃ z', idleZombie.findPath (fun _ => 0) 1 1 6 3 detourMaze = some z' ∧
      List.Chain (Step detourMaze) (1, 1) z'.path ∧ walkEnd (1, 1) z'.path = (6, 3) ∧
      pathCost (1, 1) z'.path ≤ 7000 :=
  findPath_cost_le_axis_walk idleZombie (fun _ => 0) 1 1 6 3 detourMaze
    [(2, 1), (3, 1), (4, 1), (4, 2), (5, 2), (6, 2), (6, 3)] (by decide)
    (by simp only [List.chain_cons, List.Chain.nil, and_true]; decide) (by decide)

/-- Scenario A, as an instance of C5: in the 3 x 3 room, start (1,1) and goal
(1,1) give the empty path. -/
theorem findPath_empty_iff_scenarioA :
    ∃ z', idleZombie.findPath (fun _ => 0) 1 1 1 1 roomMaze = some z' ∧ z'.path = [] := by
  obtain ⟨z', hz, hiff, _⟩ := findPath_empty_iff idleZombie (fun _ => 0) 1 1 1 1 roomMaze
  exact ⟨z', hz, hiff.2 (Or.inr (Or.inr (Or.inl rfl)))⟩

/-- C8: for every maze type and every outcome of the random draws the
constructor returns a maze in which `isWall` holds on the whole outer border
(`x = 0`, `x = WIDTH - 1`, `y = 0` or `y = HEIGHT - 1`). -/
theorem construct_border_walls (type : MazeType) (rnd : Randomness) :
    ∃ m, Maze.construct type rnd = some m ∧
      ∀ x y, (x = 0 ∨ x = WIDTH - 1 ∨ y = 0 ∨ y = HEIGHT - 1) → m.isWall x y = true := by
  obtain ⟨t, ht, hborder, _⟩ := generateRandomMaze_spec rnd
  cases type with
  | STANDARD =>
    refine ⟨{ tiles := t, mazeType := MazeType.STANDARD }, by simp [Maze.construct, ht], ?_⟩
    exact isWall_of_border _ hborder
  | CIRCULAR =>
    refine ⟨_, rfl, ?_⟩
    exact isWall_of_border _
      (fun x y h1 h2 h3 h4 h5 => generateCircularMaze_border rnd x y ⟨h1, h2⟩ ⟨h3, h4⟩ h5)
  | INFINITE =>
    refine ⟨{ tiles := t, mazeType := MazeType.INFINITE },
      by simp [Maze.construct, generateInfiniteMaze, ht], ?_⟩
    exact isWall_of_border _ hborder
  | SOLDIER =>
    refine ⟨_, rfl, ?_⟩
    exact isWall_of_border _
      (fun x y h1 h2 h3 h4 h5 => generateSoldierMaze_border rnd x y ⟨h1, h2⟩ ⟨h3, h4⟩ h5)

/-- C9: for every outcome of the random draws, in the Standard maze and in the
Infinite maze the start cell (1,1) is not a wall, the tile
`(WIDTH - 2, HEIGHT - 2)` is the exit, and a sequence of axis moves through
non-wall tiles leads from (1,1) to it. -/
theorem standard_exit_reachable (rnd : Randomness) :
    (∃ m, Maze.construct MazeType.STANDARD rnd = some m ∧ m.isWall 1 1 = false ∧
      m.isExit (WIDTH - 2) (HEIGHT - 2) = true ∧
      ∃ q, List.Chain (AxisStep m) (1, 1) q ∧ walkEnd (1, 1) q = (WIDTH - 2, HEIGHT - 2)) ∧
    (∃ m, Maze.construct MazeType.INFINITE rnd = some m ∧ m.isWall 1 1 = false ∧
      m.isExit (WIDTH - 2) (HEIGHT - 2) = true ∧
      ∃ q, List.Chain (AxisStep m) (1, 1) q ∧ walkEnd (1, 1) q = (WIDTH - 2, HEIGHT - 2)) := by
  obtain ⟨t, ht, _, hexit, hreach, hstart⟩ := generateRandomMaze_spec rnd
  have key : ∀ ty, (({ tiles := t, mazeType := ty } : Maze).isWall 1 1 = false ∧
      ({ tiles := t, mazeType := ty } : Maze).isExit (WIDTH - 2) (HEIGHT - 2) = true ∧
      ∃ q, List.Chain (AxisStep { tiles := t, mazeType := ty }) (1, 1) q ∧
        walkEnd (1, 1) q = (WIDTH - 2, HEIGHT - 2)) := by
    intro ty
    refine ⟨?_, ?_, hreach ty⟩
    · apply isWall_false_of_tile _ _ _ (by decide) (by decide)
      simp only
      rw [hstart]
      simp
    · exact (isExit_iff_tile _ 30 22 (by decide) (by decide) hexit _ _).2 ⟨rfl, rfl⟩
  exact ⟨⟨{ tiles := t, mazeType := MazeType.STANDARD }, by simp [Maze.construct, ht], key _⟩,
    ⟨{ tiles := t, mazeType := MazeType.INFINITE },
      by simp [Maze.construct, generateInfiniteMaze, ht], key _⟩⟩

/-- C10: for every outcome of the random draws the Standard maze and the
Infinite maze have exactly one exit tile, at `(WIDTH - 2, HEIGHT - 2)`, and the
Circular maze has exactly one exit tile, at `(WIDTH / 2, HEIGHT / 2)`. -/
theorem construct_one_exit (rnd : Randomness) :
    (∃ m, Maze.construct MazeType.STANDARD rnd = some m ∧
      ∀ x y, m.isExit x y = true ↔ (x = WIDTH - 2 ∧ y = HEIGHT - 2)) ∧
    (∃ m, Maze.construct MazeType.INFINITE rnd = some m ∧
      ∀ x y, m.isExit x y = true ↔ (x = WIDTH - 2 ∧ y = HEIGHT - 2)) ∧
    (∃ m, Maze.construct MazeType.CIRCULAR rnd = some m ∧
      ∀ x y, m.isExit x y = true ↔ (x = WIDTH / 2 ∧ y = HEIGHT / 2)) := by
  obtain ⟨t, ht, _, hexit, _, _⟩ := generateRandomMaze_spec rnd
  refine ⟨⟨{ tiles := t, mazeType := MazeType.STANDARD }, by simp [Maze.construct, ht], ?_⟩,
    ⟨{ tiles := t, mazeType := MazeType.INFINITE },
      by simp [Maze.construct, generateInfiniteMaze, ht], ?_⟩, ⟨_, rfl, ?_⟩⟩
  · exact isExit_iff_tile _ 30 22 (by decide) (by decide) hexit
  · exact isExit_iff_tile _ 30 22 (by decide) (by decide) hexit
  · exact isExit_iff_tile _ 16 12 (by decide) (by decide) (generateCircularMaze_exit rnd)

/-- C11, counterexample: a zombie built with maximal health 1 is dead after
`takeDamage(1)`, and a second `takeDamage(1)` takes its health to -1, below 0. -/
theorem takeDamage_health_below_zero :
    ((Zombie.construct 45 45 1 ZombieType.NORMAL).takeDamage 1).dead = true ∧
    (((Zombie.construct 45 45 1 ZombieType.NORMAL).takeDamage 1).takeDamage 1).health = -1 := by
  constructor
  · rfl
  · rfl

/-- C11, amended: for a zombie of any type built with any base health, after
any sequence of `takeDamage` calls with non-negative amounts, as long as the
health stays in the range of `int`, `getHealth()` is `getMaxHealth()` minus the
total damage: it is at most `getMaxHealth()`, and it is not kept above 0. -/
theorem takeDamages_health_le_max (x y : ℚ) (b : Int) (t : ZombieType) (ds : List Int)
    (hb : fitsInt b) (hnn : ∀ d ∈ ds, 0 ≤ d)
    (hf : fitsInt ((Zombie.construct x y b t).health - ds.sum)) :
    ((Zombie.construct x y b t).takeDamages ds).health =
        ((Zombie.construct x y b t).takeDamages ds).maxHealth - ds.sum ∧
    ((Zombie.construct x y b t).takeDamages ds).health ≤
        ((Zombie.construct x y b t).takeDamages ds).maxHealth := by
  obtain ⟨h1, h2⟩ := takeDamages_health ds (Zombie.construct x y b t)
    (construct_health_fits x y b t hb) hnn hf
  have hsum : 0 ≤ ds.sum := List.sum_nonneg hnn
  rw [h1, h2, construct_health]
  exact ⟨rfl, by omega⟩

/-- An instance of the amended C11: a tank built with base health 5 has health
10 - 7 = 3 after the amounts 3 and 4. -/
theorem takeDamages_health_le_max_tank :
    ((Zombie.construct 45 45 5 ZombieType.TANK).takeDamages [3, 4]).health =
        ((Zombie.construct 45 45 5 ZombieType.TANK).takeDamages [3, 4]).maxHealth - [3, 4].sum ∧
    ((Zombie.construct 45 45 5 ZombieType.TANK).takeDamages [3, 4]).health ≤
        ((Zombie.construct 45 45 5 ZombieType.TANK).takeDamages [3, 4]).maxHealth :=
  takeDamages_health_le_max 45 45 5 ZombieType.TANK [3, 4] (by decide) (by decide) (by decide)

/-- C12, counterexample: `takeDamage(-1)` raises the health of a zombie from 3 to 4. -/
theorem takeDamage_negative_heals :
    idleZombie.health = 3 ∧ (idleZombie.takeDamage (-1)).health = 4 := by
  constructor
  · rfl
  · rfl

/-- C12, amended: for every zombie state and every damage amount that is not
negative, as long as the difference is in the range of `int`, `getHealth()`
after `takeDamage(amount)` is at most `getHealth()` before the call. -/
theorem takeDamage_health_le (z : Zombie) (d : Int) (hd : 0 ≤ d)
    (hf : fitsInt (z.health - d)) : (z.takeDamage d).health ≤ z.health := by
  rw [takeDamage_health, wrapInt_of_fits _ hf]
  omega

/-- An instance of the amended C12: `takeDamage(2)` at health 3. -/
theorem takeDamage_health_le_idle : (idleZombie.takeDamage 2).health ≤ idleZombie.health :=
  takeDamage_health_le idleZombie 2 (by decide) (by decide)

/-- C14: for a live zombie with health `h`, after `takeDamage(d)` the zombie is
dead exactly when `h - d <= 0`, and then the death-animation timer is 0
(`h - d` in the range of `int`). -/
theorem takeDamage_dead_iff (z : Zombie) (d : Int) (hl : z.dead = false)
    (hf : fitsInt (z.health - d)) :
    ((z.takeDamage d).dead = true ↔ z.health - d ≤ 0) ∧
    (z.health - d ≤ 0 → (z.takeDamage d).deathAnimTime = 0) := by
  unfold Zombie.takeDamage
  simp only [wrapInt_of_fits _ hf, hl, and_true]
  split_ifs with h
  · exact ⟨⟨fun _ => h, fun _ => rfl⟩, fun _ => rfl⟩
  · exact ⟨⟨fun hd => by simp [hl] at hd, fun hd => absurd hd h⟩, fun hd => absurd hd h⟩

/-- Scenario D, as an instance of C14: a zombie with health 1 is dead after
`takeDamage(1)`. -/
theorem takeDamage_dead_iff_scenarioD :
    (((Zombie.construct 45 45 1 ZombieType.NORMAL).takeDamage 1).dead = true ↔
      (Zombie.construct 45 45 1 ZombieType.NORMAL).health - 1 ≤ 0) ∧
    ((Zombie.construct 45 45 1 ZombieType.NORMAL).health - 1 ≤ 0 →
      ((Zombie.construct 45 45 1 ZombieType.NORMAL).takeDamage 1).deathAnimTime = 0) :=
  takeDamage_dead_iff (Zombie.construct 45 45 1 ZombieType.NORMAL) 1 rfl (by decide)

/-- C13: once a zombie is dead it is dead after every later sequence of
`takeDamage` and `update` calls (and every such sequence returns), and a
`takeDamage` call on a dead zombie leaves the dead flag and the
death-animation timer as they were. -/
theorem dead_stays_dead (z : Zombie) (h : z.dead = true) :
    (∀ calls : List ZombieCall, ∃ z', z.calls calls = some z' ∧ z'.dead = true) ∧
    (∀ damage : Int, (z.takeDamage damage).dead = true ∧
      (z.takeDamage damage).deathAnimTime = z.deathAnimTime) := by
  refine ⟨fun calls => calls_of_dead calls z h, fun damage => ?_⟩
  rw [takeDamage_of_dead z damage h]
  exact ⟨h, rfl⟩

/-- An instance of C13: the zombie of scenario D, dead after `takeDamage(1)` at
health 1. -/
theorem dead_stays_dead_scenarioD :
    (∀ calls : List ZombieCall, ∃ z',
      ((Zombie.construct 45 45 1 ZombieType.NORMAL).takeDamage 1).calls calls = some z' ∧
        z'.dead = true) ∧
    (∀ damage : Int,
      (((Zombie.construct 45 45 1 ZombieType.NORMAL).takeDamage 1).takeDamage damage).dead = true ∧
      (((Zombie.construct 45 45 1 ZombieType.NORMAL).takeDamage 1).takeDamage damage).deathAnimTime =
        ((Zombie.construct 45 45 1 ZombieType.NORMAL).takeDamage 1).deathAnimTime) :=
  dead_stays_dead ((Zombie.construct 45 45 1 ZombieType.NORMAL).takeDamage 1) rfl

/-- C17: `Zombie::hasLineOfSight` never divides by zero (it returns a result
for every arithmetic, maze and pair of points); it returns `true` whenever the
distance it computes is below 1.0; and without rounding it returns `true`
whenever the two points are less than 1.0 apart, coincident points included,
whatever the tiles are. -/
theorem hasLineOfSight_close (z : Zombie) (tx ty : ℚ) (maze : Maze) :
    (∀ fa : FloatArith, ∃ b, z.hasLineOfSight fa tx ty maze = some b) ∧
    (∀ fa : FloatArith, vecLength fa (fa.sub tx z.x) (fa.sub ty z.y) < 1 →
      z.hasLineOfSight fa tx ty maze = some true) ∧
    ((tx - z.x) * (tx - z.x) + (ty - z.y) * (ty - z.y) < 1 →
      z.hasLineOfSight exactArith tx ty maze = some true) ∧
    z.hasLineOfSight exactArith z.x z.y maze = some true := by
  have key : ∀ ux uy : ℚ, (ux - z.x) * (ux - z.x) + (uy - z.y) * (uy - z.y) < 1 →
      z.hasLineOfSight exactArith ux uy maze = some true := by
    intro ux uy h
    apply hasLineOfSight_near
    exact ratSqrt_lt_one _ h
  refine ⟨fun fa => hasLineOfSight_isSome fa z tx ty maze,
    fun fa h => hasLineOfSight_near fa z tx ty maze h, key tx ty, key z.x z.y ?_⟩
  norm_num

/-- C19: the update of a live zombie returns, and afterwards `isChasing` holds
exactly when the distance to the player is at most 150, or is at most 3000 and
`hasLineOfSight` to the player holds. Two live zombies at the same position end
in the same mode, whatever their previous modes, paths, cursors and timers, the
elapsed times, the random draws and the other zombies are. -/
theorem update_chase_mode (fa : FloatArith) (maze : Maze) (px py : ℚ) (z1 z2 : Zombie)
    (tr1 tr2 : Trig) (tie1 tie2 : Nat → Nat) (wander1 wander2 : Nat → ℚ × ℚ) (dt1 dt2 : ℚ)
    (others1 others2 : List Zombie)
    (h1 : z1.dead = false) (h2 : z2.dead = false) (hx : z1.x = z2.x) (hy : z1.y = z2.y) :
    ∃ r1 r2, z1.update fa tr1 tie1 wander1 dt1 px py maze others1 = some r1 ∧
      z2.update fa tr2 tie2 wander2 dt2 px py maze others2 = some r2 ∧
      r1.isChasing = r2.isChasing ∧
      (r1.isChasing = true ↔
        vecLength fa (fa.sub px z1.x) (fa.sub py z1.y) ≤ 150 ∨
        (vecLength fa (fa.sub px z1.x) (fa.sub py z1.y) ≤ 3000 ∧
          z1.hasLineOfSight fa px py maze = some true)) := by
  obtain ⟨b1, x1, y1, a1, p1, i1, t1, w1, hb1, hu1, -⟩ :=
    update_of_live fa tr1 tie1 wander1 z1 dt1 px py maze others1 h1
  obtain ⟨b2, x2, y2, a2, p2, i2, t2, w2, hb2, hu2, -⟩ :=
    update_of_live fa tr2 tie2 wander2 z2 dt2 px py maze others2 h2
  obtain ⟨b, hb, hiff⟩ := canSeePlayer_spec fa z1
    (vecLength fa (fa.sub px z1.x) (fa.sub py z1.y)) px py maze
  have e1 : b1 = b := by rw [hb1] at hb; exact Option.some.inj hb
  have e2 : b2 = b := by
    rw [← hx, ← hy, canSeePlayer_congr fa z2 z1 _ px py maze hx.symm hy.symm, hb] at hb2
    exact (Option.some.inj hb2).symm
  refine ⟨_, _, hu1, hu2, ?_, ?_⟩
  · show b1 = b2
    rw [e1, e2]
  · show b1 = true ↔ _
    rw [e1]
    exact hiff

/-- An instance of C19: a zombie that wanders with a stale path and a zombie
that chases without a path, both at (45, 45), with the player at (45, 105) in
the corridor of scenario B. -/
theorem update_chase_mode_corridor :
    ∃ r1 r2, idleZombie.update exactArith flatTrig (fun _ => 0) (fun _ => (0, 50)) (1 / 60)
        45 105 corridorMaze [] = some r1 ∧
      Zombie.update exactArith flatTrig (fun _ => 1) (fun _ => (0, 100))
        { idleZombie with isChasing := true, path := [], pathIndex := 0, wanderTimer := 2 }
        (1 / 30) 45 105 corridorMaze [idleZombie] = some r2 ∧
      r1.isChasing = r2.isChasing ∧
      (r1.isChasing = true ↔
        vecLength exactArith (exactArith.sub 45 idleZombie.x)
          (exactArith.sub 105 idleZombie.y) ≤ 150 ∨
        (vecLength exactArith (exactArith.sub 45 idleZombie.x)
          (exactArith.sub 105 idleZombie.y) ≤ 3000 ∧
          idleZombie.hasLineOfSight exactArith 45 105 corridorMaze = some true)) :=
  update_chase_mode exactArith corridorMaze 45 105 idleZombie
    { idleZombie with isChasing := true, path := [], pathIndex := 0, wanderTimer := 2 }
    flatTrig flatTrig (fun _ => 0) (fun _ => 1) (fun _ => (0, 50)) (fun _ => (0, 100))
    (1 / 60) (1 / 30) [] [idleZombie] rfl rfl rfl rfl

/-- C20: every update returns, and the position afterwards is the position
before or a point whose tile, computed as the collision check computes it, is
not a wall; a move to a point whose tile is a wall or lies outside the grid
leaves the zombie as it is. -/
theorem update_position_not_in_wall (fa : FloatArith) (tr : Trig) (tie : Nat → Nat)
    (wander : Nat → ℚ × ℚ) (z : Zombie) (dt px py : ℚ) (maze : Maze) (others : List Zombie) :
    (∃ r, z.update fa tr tie wander dt px py maze others = some r ∧
      ((r.x = z.x ∧ r.y = z.y) ∨ maze.isWall (tileOf fa r.x) (tileOf fa r.y) = false)) ∧
    (∀ newX newY : ℚ, maze.isWall (tileOf fa newX) (tileOf fa newY) = true →
      z.tryMove fa newX newY maze = z) := by
  constructor
  · cases h : z.dead
    · obtain ⟨b, x, y, a, p, i, t, w, -, hu, hpos⟩ :=
        update_of_live fa tr tie wander z dt px py maze others h
      exact ⟨_, hu, hpos⟩
    · refine ⟨_, update_of_dead fa tr tie wander z dt px py maze others h, Or.inl ?_⟩
      split_ifs <;> exact ⟨rfl, rfl⟩
  · intro newX newY hw
    rcases tryMove_cases fa z newX newY maze with ⟨_, h⟩ | ⟨hn, _⟩
    · exact h
    · rw [hw] at hn
      exact absurd hn (by simp)

/-- C16: in single-precision arithmetic, if some tile column `c` is a wall in
every row, the observer and the target are inside the grid (x from 0 to 960,
y from 0 to 720) and their tile columns lie on opposite sides of `c`, then
`Zombie::hasLineOfSight` returns `false`. -/
theorem hasLineOfSight_wall_column (fa : FloatArith) (hfa : fa.Single) (z : Zombie)
    (tx ty : ℚ) (maze : Maze) (c : Int)
    (hcol : ∀ y, 0 ≤ y → y < HEIGHT → maze.tiles y c = TileType.Wall)
    (hz : (0 ≤ z.x ∧ z.x ≤ 960) ∧ (0 ≤ z.y ∧ z.y ≤ 720))
    (ht : (0 ≤ tx ∧ tx ≤ 960) ∧ (0 ≤ ty ∧ ty ≤ 720))
    (hside : (tileOf fa z.x < c ∧ c < tileOf fa tx) ∨ (tileOf fa tx < c ∧ c < tileOf fa z.x)) :
    z.hasLineOfSight fa tx ty maze = some false :=
  los_wall_column fa hfa z tx ty maze c hcol hz ht hside

/-- C15, counterexample: in the grid whose only wall is the tile (1, 1), in the
arithmetic `fineArith`, which rounds as single precision does and returns the
values of this run exactly, the observer at (68, 50) sees the target at
(52, 62), and the observer at (52, 62) does not see the target at (68, 50).
The distance is 20, so each direction takes one sample, 7.5 from its observer:
(62, 54.5) in the tile (2, 1), and (58, 57.5) in the wall tile (1, 1). -/
theorem hasLineOfSight_not_symmetric :
    (zombieAt 68 50).hasLineOfSight fineArith 52 62 (pillarMaze 1 1) = some true ∧
    (zombieAt 52 62).hasLineOfSight fineArith 68 50 (pillarMaze 1 1) = some false := by
  have hsteps : toInt ((20 : ℚ) / stepSize) = 2 :=
    toInt_div 20 stepSize 2 (by norm_num [stepSize]) (by norm_num) (by norm_num [stepSize])
      (by norm_num [stepSize])
  constructor
  · have hd : vecLength fineArith (52 - (zombieAt 68 50).x) (62 - (zombieAt 68 50).y) = 20 :=
      vecLength_fineArith _ _ 20 (by norm_num) (by norm_num [zombieAt])
    rw [hasLineOfSight_exact fineArith fineArith_exact _ 52 62 _ 20 hd (by norm_num), hsteps]
    simp only [zombieAt, stepSize, List.range', List.all_cons, List.all_nil, Bool.and_true]
    have tx : toInt (((68 : ℚ) + (52 - 68) / 20 * (15 / 2) * ((1 : ℕ) : ℚ)) / 30) = 2 :=
      toInt_eq _ 2 (by norm_num) (by norm_num) (by norm_num)
    have ty : toInt (((50 : ℚ) + (62 - 50) / 20 * (15 / 2) * ((1 : ℕ) : ℚ)) / 30) = 1 :=
      toInt_eq _ 1 (by norm_num) (by norm_num) (by norm_num)
    rw [tx, ty, pillarMaze_isWall 1 1 2 1 (by decide) (by decide)]
    rfl
  · have hd : vecLength fineArith (68 - (zombieAt 52 62).x) (50 - (zombieAt 52 62).y) = 20 :=
      vecLength_fineArith _ _ 20 (by norm_num) (by norm_num [zombieAt])
    rw [hasLineOfSight_exact fineArith fineArith_exact _ 68 50 _ 20 hd (by norm_num), hsteps]
    simp only [zombieAt, stepSize, List.range', List.all_cons, List.all_nil, Bool.and_true]
    have tx : toInt (((52 : ℚ) + (68 - 52) / 20 * (15 / 2) * ((1 : ℕ) : ℚ)) / 30) = 1 :=
      toInt_eq _ 1 (by norm_num) (by norm_num) (by norm_num)
    have ty : toInt (((62 : ℚ) + (50 - 62) / 20 * (15 / 2) * ((1 : ℕ) : ℚ)) / 30) = 1 :=
      toInt_eq _ 1 (by norm_num) (by norm_num) (by norm_num)
    rw [tx, ty, pillarMaze_isWall 1 1 1 1 (by decide) (by decide)]
    rfl

/-- C15, amended: in single-precision arithmetic, for every maze and every
pair of points such that no wall tile comes within 0.01 of the segment between
them, or such that both are inside the grid (x from 0 to 960, y from 0 to 720)
and a tile column that is a wall in every row lies between their tile columns,
`Zombie::hasLineOfSight` for an observer at the first point and the second
point as target returns the same result as for an observer at the second point
and the first as target. -/
theorem hasLineOfSight_symm (fa : FloatArith) (hfa : fa.Single) (z1 z2 : Zombie) (maze : Maze)
    (h : ClearWithin maze (1 / 100) z1.x z1.y z2.x z2.y ∨
      (((0 ≤ z1.x ∧ z1.x ≤ 960) ∧ (0 ≤ z1.y ∧ z1.y ≤ 720)) ∧
        ((0 ≤ z2.x ∧ z2.x ≤ 960) ∧ (0 ≤ z2.y ∧ z2.y ≤ 720)) ∧
        ∃ c : Int, (∀ y, 0 ≤ y → y < HEIGHT → maze.tiles y c = TileType.Wall) ∧
          ((tileOf fa z1.x < c ∧ c < tileOf fa z2.x) ∨
            (tileOf fa z2.x < c ∧ c < tileOf fa z1.x)))) :
    ∃ b, z1.hasLineOfSight fa z2.x z2.y maze = some b ∧
      z2.hasLineOfSight fa z1.x z1.y maze = some b := by
  rcases h with h | ⟨hz1, hz2, c, hcol, hside⟩
  · exact ⟨true, zombie_los_clear fa hfa z1 z2.x z2.y maze h,
      zombie_los_clear fa hfa z2 z1.x z1.y maze h.symm⟩
  · exact ⟨false, los_wall_column fa hfa z1 z2.x z2.y maze c hcol hz1 hz2 hside,
      los_wall_column fa hfa z2 z1.x z1.y maze c hcol hz2 hz1 hside.symm⟩

/-- An instance of the amended C15: no wall comes near the segment from
(45, 45) to (45, 105) in the corridor of scenario B, and the two directions
return the same result. -/
theorem hasLineOfSight_symm_corridor :
    ∃ b, (zombieAt 45 45).hasLineOfSight fineArith (zombieAt 45 105).x (zombieAt 45 105).y
        corridorMaze = some b ∧
      (zombieAt 45 105).hasLineOfSight fineArith (zombieAt 45 45).x (zombieAt 45 45).y
        corridorMaze = some b :=
  hasLineOfSight_symm fineArith fineArith_single (zombieAt 45 45) (zombieAt 45 105)
    corridorMaze (Or.inl (corridor_clearWithin 105 (by norm_num) (by norm_num)))

/-- An instance of C16: in the corridor of scenario B the column 2 is a wall in
every row; the observer at (45, 45) in the tile column 1 does not see the target
at (105, 45) in the tile column 3. -/
theorem hasLineOfSight_wall_column_corridor :
    (zombieAt 45 45).hasLineOfSight fineArith 105 45 corridorMaze = some false :=
  hasLineOfSight_wall_column fineArith fineArith_single (zombieAt 45 45) 105 45 corridorMaze 2
    (fun y _ _ => by simp [corridorMaze])
    (by norm_num [zombieAt]) (by norm_num)
    (Or.inl ⟨by
        have : tileOf fineArith (zombieAt 45 45).x = 1 :=
          toInt_eq _ 1 (by norm_num [zombieAt, fineArith]) (by norm_num [zombieAt, fineArith])
            (by norm_num [zombieAt, fineArith])
        rw [this]; decide,
      by
        have : tileOf fineArith 105 = 3 :=
          toInt_eq _ 3 (by norm_num [fineArith]) (by norm_num [fineArith])
            (by norm_num [fineArith])
        rw [this]; decide⟩)

/-- C18, counterexample: in the grid whose only wall is the tile (3, 3), in the
arithmetic `fineArith`, which rounds as single precision does and returns the
values of this run exactly, the zombie at (94, 136) sees the player at
(122, 115), and the renderer's check from the player to the zombie is blocked.
The distance is 35; the zombie samples (100, 131.5), (106, 127) and
(112, 122.5), all in the tile (3, 4); the renderer samples (122, 115) in the
tile (4, 3) and then (118, 118) in the wall tile (3, 3). -/
theorem line_of_sight_checks_disagree :
    (zombieAt 94 136).hasLineOfSight fineArith 122 115 (pillarMaze 3 3) = some true ∧
    hasLineOfSight fineArith (pillarMaze 3 3) 122 115 94 136 = some false := by
  constructor
  · have hsteps : toInt ((35 : ℚ) / stepSize) = 4 :=
      toInt_div 35 stepSize 4 (by norm_num [stepSize]) (by norm_num) (by norm_num [stepSize])
        (by norm_num [stepSize])
    have hd : vecLength fineArith (122 - (zombieAt 94 136).x) (115 - (zombieAt 94 136).y) = 35 :=
      vecLength_fineArith _ _ 35 (by norm_num) (by norm_num [zombieAt])
    rw [hasLineOfSight_exact fineArith fineArith_exact _ 122 115 _ 35 hd (by norm_num), hsteps]
    simp only [zombieAt, stepSize, List.range', List.all_cons, List.all_nil, Bool.and_true]
    have x1 : toInt (((94 : ℚ) + (122 - 94) / 35 * (15 / 2) * ((1 : ℕ) : ℚ)) / 30) = 3 :=
      toInt_eq _ 3 (by norm_num) (by norm_num) (by norm_num)
    have y1 : toInt (((136 : ℚ) + (115 - 136) / 35 * (15 / 2) * ((1 : ℕ) : ℚ)) / 30) = 4 :=
      toInt_eq _ 4 (by norm_num) (by norm_num) (by norm_num)
    have x2 : toInt (((94 : ℚ) + (122 - 94) / 35 * (15 / 2) * ((1 + 1 : ℕ) : ℚ)) / 30) = 3 :=
      toInt_eq _ 3 (by norm_num) (by norm_num) (by norm_num)
    have y2 : toInt (((136 : ℚ) + (115 - 136) / 35 * (15 / 2) * ((1 + 1 : ℕ) : ℚ)) / 30) = 4 :=
      toInt_eq _ 4 (by norm_num) (by norm_num) (by norm_num)
    have x3 : toInt (((94 : ℚ) + (122 - 94) / 35 * (15 / 2) * ((1 + 1 + 1 : ℕ) : ℚ)) / 30) = 3 :=
      toInt_eq _ 3 (by norm_num) (by norm_num) (by norm_num)
    have y3 : toInt (((136 : ℚ) + (115 - 136) / 35 * (15 / 2) * ((1 + 1 + 1 : ℕ) : ℚ)) / 30) = 4 :=
      toInt_eq _ 4 (by norm_num) (by norm_num) (by norm_num)
    rw [x1, y1, x2, y2, x3, y3, pillarMaze_isWall 3 3 3 4 (by decide) (by decide)]
    rfl
  · have hd : vecLength fineArith (fineArith.sub 94 122) (fineArith.sub 136 115) = 35 :=
      vecLength_fineArith _ _ 35 (by norm_num) (by norm_num [fineArith])
    have hfuel : rayFuel 35 = 8 + 1 + 1 := by
      unfold rayFuel
      have : ⌊(35 : ℚ) / 4⌋ = 8 := by
        rw [Int.floor_eq_iff]; norm_num
      rw [this]
      rfl
    unfold hasLineOfSight
    simp only [hd, hfuel]
    unfold losRay
    rw [if_pos (by norm_num)]
    have x0 : tileOf fineArith (fineArith.add 122
        (fineArith.mul (fineArith.div (fineArith.sub 94 122) 35) 0)) = 4 :=
      toInt_eq _ 4 (by norm_num [fineArith]) (by norm_num [fineArith])
        (by norm_num [fineArith])
    have y0 : tileOf fineArith (fineArith.add 115
        (fineArith.mul (fineArith.div (fineArith.sub 136 115) 35) 0)) = 3 :=
      toInt_eq _ 3 (by norm_num [fineArith]) (by norm_num [fineArith])
        (by norm_num [fineArith])
    simp only [x0, y0, pillarMaze_isWall 3 3 4 3 (by decide) (by decide)]
    unfold losRay
    have x5 : tileOf fineArith (fineArith.add 122
        (fineArith.mul (fineArith.div (fineArith.sub 94 122) 35) (fineArith.add 0 5))) = 3 :=
      toInt_eq _ 3 (by norm_num [fineArith]) (by norm_num [fineArith])
        (by norm_num [fineArith])
    have y5 : tileOf fineArith (fineArith.add 115
        (fineArith.mul (fineArith.div (fineArith.sub 136 115) 35) (fineArith.add 0 5))) = 3 :=
      toInt_eq _ 3 (by norm_num [fineArith]) (by norm_num [fineArith])
        (by norm_num [fineArith])
    simp only [x5, y5, pillarMaze_isWall 3 3 3 3 (by decide) (by decide)]
    have h5 : fineArith.add 0 5 < 35 := by norm_num [fineArith]
    simp [h5]

/-- C18, amended: in single-precision arithmetic, for every maze, zombie
position and player position such that no wall tile comes within 0.01 of the
segment between them, the zombie's `hasLineOfSight` to the player and the
renderer's `hasLineOfSight` from the player to the zombie both return visible. -/
theorem line_of_sight_checks_agree_when_clear (fa : FloatArith) (hfa : fa.Single) (z : Zombie)
    (px py : ℚ) (maze : Maze) (hclear : ClearWithin maze (1 / 100) z.x z.y px py) :
    z.hasLineOfSight fa px py maze = some true ∧
      hasLineOfSight fa maze px py z.x z.y = some true ∧
      z.hasLineOfSight fa px py maze = hasLineOfSight fa maze px py z.x z.y := by
  have h1 := zombie_los_clear fa hfa z px py maze hclear
  have h2 := renderer_los_clear fa hfa maze px py z.x z.y hclear.symm
  exact ⟨h1, h2, by rw [h1, h2]⟩

/-- An instance of the amended C18: the zombie at (45, 45) and the player at
(45, 165) in the corridor of scenario B, whose tiles (1, 1) to (1, 5) are empty. -/
theorem line_of_sight_checks_agree_corridor :
    (zombieAt 45 45).hasLineOfSight fineArith 45 165 corridorMaze = some true ∧
      hasLineOfSight fineArith corridorMaze 45 165 (zombieAt 45 45).x (zombieAt 45 45).y =
        some true ∧
      (zombieAt 45 45).hasLineOfSight fineArith 45 165 corridorMaze =
        hasLineOfSight fineArith corridorMaze 45 165 (zombieAt 45 45).x (zombieAt 45 45).y :=
  line_of_sight_checks_agree_when_clear fineArith fineArith_single (zombieAt 45 45) 45 165
    corridorMaze (corridor_clearWithin 165 (by norm_num) (by norm_num))

/-- C22: for a dead zombie `update` returns the zombie with nothing changed but
the death-animation timer, which becomes the sum of the timer and `deltaTime`
when it is below 0.5 and stays as it is otherwise. -/
theorem update_dead_changes_timer_only (fa : FloatArith) (tr : Trig) (tie : Nat → Nat)
    (wander : Nat → ℚ × ℚ) (z : Zombie) (dt px py : ℚ) (maze : Maze) (others : List Zombie)
    (h : z.dead = true) :
    z.update fa tr tie wander dt px py maze others =
      some { z with deathAnimTime :=
        if z.deathAnimTime < 1 / 2 then fa.add z.deathAnimTime dt else z.deathAnimTime } := by
  rw [update_of_dead fa tr tie wander z dt px py maze others h]
  split_ifs <;> rfl

/-- An instance of C22: the zombie of scenario D, killed at health 1, in the
corridor of scenario B. -/
theorem update_dead_changes_timer_only_scenarioD :
    fallenZombie.update exactArith flatTrig (fun _ => 0) (fun _ => (0, 50)) (1 / 60) 45 105
        corridorMaze [] =
      some { fallenZombie with
        deathAnimTime :=
          if fallenZombie.deathAnimTime < 1 / 2 then
            exactArith.add fallenZombie.deathAnimTime (1 / 60)
          else fallenZombie.deathAnimTime } :=
  update_dead_changes_timer_only exactArith flatTrig (fun _ => 0) (fun _ => (0, 50))
    fallenZombie (1 / 60) 45 105 corridorMaze [] rfl

/-- C27: for every type and every base health `b >= 1` with `b + 5` in the
range of `int`, the constructed zombie is not dead, its health is its maximal
health, which is at least 1 and is `b` for NORMAL, `max(1, b - 2)` for FAST,
`b + 5` for TANK and `max(1, b - 1)` for RUNNER, and its speed multiplier is
1.0, 1.5, the `float` nearest to 0.6, and 2.0. -/
theorem construct_health_and_speed (x y : ℚ) (b : Int) (t : ZombieType) (hb : 1 ≤ b)
    (hfit : b + 5 < 2 ^ 31) :
    (Zombie.construct x y b t).dead = false ∧
    (Zombie.construct x y b t).health = (Zombie.construct x y b t).maxHealth ∧
    1 ≤ (Zombie.construct x y b t).maxHealth ∧
    (Zombie.construct x y b t).maxHealth =
      (match t with
        | ZombieType.NORMAL => b
        | ZombieType.FAST => max 1 (b - 2)
        | ZombieType.TANK => b + 5
        | ZombieType.RUNNER => max 1 (b - 1)) ∧
    (Zombie.construct x y b t).speedMultiplier =
      (match t with
        | ZombieType.NORMAL => 1
        | ZombieType.FAST => 3 / 2
        | ZombieType.TANK => float_0_6
        | ZombieType.RUNNER => 2) ∧
    |float_0_6 - 6 / 10| ≤ 1 / 2 ^ 25 := by
  have h2 : wrapInt (b - 2) = b - 2 := wrapInt_of_fits _ (by unfold fitsInt; omega)
  have h1 : wrapInt (b - 1) = b - 1 := wrapInt_of_fits _ (by unfold fitsInt; omega)
  have h5 : wrapInt (b + 5) = b + 5 := wrapInt_of_fits _ (by unfold fitsInt; omega)
  have hf : |float_0_6 - 6 / 10| ≤ 1 / 2 ^ 25 := by
    unfold float_0_6
    rw [abs_le]
    constructor <;> norm_num
  cases t
  · exact ⟨rfl, rfl, hb, rfl, rfl, hf⟩
  · refine ⟨rfl, rfl, ?_, ?_, rfl, hf⟩
    · show 1 ≤ (if wrapInt (b - 2) < 1 then 1 else wrapInt (b - 2))
      rw [h2]; split_ifs <;> omega
    · show (if wrapInt (b - 2) < 1 then 1 else wrapInt (b - 2)) = max 1 (b - 2)
      rw [h2]; split_ifs <;> omega
  · refine ⟨rfl, rfl, ?_, ?_, rfl, hf⟩
    · show 1 ≤ wrapInt (b + 5)
      rw [h5]; omega
    · show wrapInt (b + 5) = b + 5
      exact h5
  · refine ⟨rfl, rfl, ?_, ?_, rfl, hf⟩
    · show 1 ≤ (if wrapInt (b - 1) < 1 then 1 else wrapInt (b - 1))
      rw [h1]; split_ifs <;> omega
    · show (if wrapInt (b - 1) < 1 then 1 else wrapInt (b - 1)) = max 1 (b - 1)
      rw [h1]; split_ifs <;> omega

/-- An instance of C27: a fast zombie built with base health 2 has health and
maximal health 1 and speed multiplier 1.5. -/
theorem construct_health_and_speed_fast :
    (Zombie.construct 45 45 2 ZombieType.FAST).dead = false ∧
    (Zombie.construct 45 45 2 ZombieType.FAST).health =
      (Zombie.construct 45 45 2 ZombieType.FAST).maxHealth ∧
    1 ≤ (Zombie.construct 45 45 2 ZombieType.FAST).maxHealth ∧
    (Zombie.construct 45 45 2 ZombieType.FAST).maxHealth = max 1 (2 - 2) ∧
    (Zombie.construct 45 45 2 ZombieType.FAST).speedMultiplier = 3 / 2 ∧
    |float_0_6 - 6 / 10| ≤ 1 / 2 ^ 25 :=
  construct_health_and_speed 45 45 2 ZombieType.FAST (by decide) (by decide)

/-- C29: for every sequence of shuffled direction orders,
`carvePassagesFrom(1, 1)` on the grid of walls returns (the depth of the
recursion is at most the number of tiles, as every nested call empties a wall);
every tile that it changes lies inside the grid and off the outer border (the
tiles outside the columns 1 to `WIDTH - 3` and the rows 1 to `HEIGHT - 3` are
walls as before); and afterwards every cell with odd `x` in `1 .. WIDTH - 3` and
odd `y` in `1 .. HEIGHT - 3` is `Empty`. -/
theorem carvePassagesFrom_terminates (shuffle : Nat → Nat) :
    ∃ t1 k1, carvePassagesFrom shuffle carveFuel 1 1 (allWalls, 0) = some (t1, k1) ∧
      (∀ x y, t1 y x ≠ allWalls y x →
        (0 < x ∧ x < WIDTH - 1 ∧ 0 < y ∧ y < HEIGHT - 1) ∧
        (1 ≤ x ∧ x ≤ WIDTH - 3 ∧ 1 ≤ y ∧ y ≤ HEIGHT - 3) ∧ t1 y x = TileType.Empty) ∧
      (∀ x y : Int, 1 ≤ x → x ≤ WIDTH - 3 → 1 ≤ y → y ≤ HEIGHT - 3 → x % 2 = 1 → y % 2 = 1 →
        t1 y x = TileType.Empty) := by
  obtain ⟨t1, k1, hrun, hw, hin, -, hodd⟩ := carve_from_start shuffle
  refine ⟨t1, k1, hrun, ?_, ?_⟩
  · intro x y hne
    have he : t1 y x = TileType.Empty := by
      rcases hw x y with h | h
      · exact absurd h hne
      · exact h
    have := hin x y he
    simp only [WIDTH, HEIGHT]
    exact ⟨by omega, by omega, he⟩
  · intro x y hx1 hx2 hy1 hy2 hxo hyo
    simp only [WIDTH, HEIGHT] at hx2 hy2
    have := hodd ((x - 1) / 2).toNat ((y - 1) / 2).toNat (by omega) (by omega)
    have ex : 2 * ((((x - 1) / 2).toNat : Nat) : Int) + 1 = x := by omega
    have ey : 2 * ((((y - 1) / 2).toNat : Nat) : Int) + 1 = y := by omega
    rw [ex, ey] at this
    exact this

/-- C25: `findPath` returns for every zombie, maze, start, goal and order of
the priority queue, within the `8 * WIDTH * HEIGHT + 2` iterations of the loop
and the `WIDTH * HEIGHT + 1` steps of the reconstruction that the model allows:
a closed set that the loop can reach holds each cell at most once and so at
most `WIDTH * HEIGHT` cells, and every closed cell pushes at most 8 nodes. -/
theorem findPath_terminates (z : Zombie) (tie : Nat → Nat) (sx sy gx gy : Int) (maze : Maze) :
    (∃ z', z.findPath tie sx sy gx gy maze = some z') ∧
    searchFuel = 8 * (WIDTH * HEIGHT).toNat + 2 ∧
    (∀ closed cur, (expand maze gx gy closed cur).length ≤ 8) ∧
    (∀ closed, ClosedOK maze (sx, sy) (gx, gy) closed →
      (closed.map Prod.fst).Nodup ∧ closed.length ≤ (WIDTH * HEIGHT).toNat) := by
  obtain ⟨z', hz, -⟩ := findPath_spec z tie sx sy gx gy maze
  refine ⟨⟨z', hz⟩, by decide, fun closed cur => expand_length maze gx gy closed cur, ?_⟩
  intro closed h
  exact ⟨h.keys_nodup, h.length_le⟩

/-- C21, counterexample: the chasing zombie at (45, 45) in the corridor of
scenario B has the path `[(1, 2)]` with the cursor 1, at its end, and the
refresh timer 0; the player is at (45, 105), 60 away, so that the zombie chases.
After `update` with `deltaTime` 1/60 the path and the cursor are as before and
the timer is 1/60: the path has not been recomputed. `findPath` from the tile
(1, 1) of the zombie to the tile (1, 3) of the player returns `[(1, 2), (1, 3)]`. -/
theorem update_keeps_exhausted_path :
    (∃ r, exhaustedZombie.update exactArith flatTrig (fun _ => 0) (fun _ => (0, 50)) (1 / 60)
        45 105 corridorMaze [] = some r ∧
      r.isChasing = true ∧ r.path = [(1, 2)] ∧ r.pathIndex = 1 ∧ r.pathUpdateTimer = 1 / 60) ∧
    (exhaustedZombie.findPath (fun _ => 0) 1 1 1 3 corridorMaze).map (fun z => z.path) =
      some [(1, 2), (1, 3)] := by
  have hd : vecLength exactArith (exactArith.sub 45 exhaustedZombie.x)
      (exactArith.sub 105 exhaustedZombie.y) = 60 :=
    vecLength_exactArith _ _ 60 (by norm_num)
      (by norm_num [exactArith, exhaustedZombie, idleZombie])
  have hsee : exhaustedZombie.canSeePlayer exactArith
      (vecLength exactArith (exactArith.sub 45 exhaustedZombie.x)
        (exactArith.sub 105 exhaustedZombie.y)) 45 105 corridorMaze = some true := by
    rw [hd]
    unfold Zombie.canSeePlayer
    rw [if_pos (by norm_num)]
  have hu := update_keeps_path exactArith flatTrig (fun _ => 0) (fun _ => (0, 50))
    exhaustedZombie (1 / 60) 45 105 corridorMaze [] rfl hsee (by simp [exhaustedZombie])
    (by norm_num [exactArith, exhaustedZombie, idleZombie])
  rw [followPath_exhausted _ _ _ _ _ _ _ (by
    show ((exhaustedZombie.path.length : Nat) : Int) ≤ exhaustedZombie.pathIndex
    decide)] at hu
  refine ⟨⟨_, hu, rfl, rfl, rfl, ?_⟩, by rfl⟩
  show exactArith.add exhaustedZombie.pathUpdateTimer (1 / 60) = 1 / 60
  norm_num [exactArith, exhaustedZombie, idleZombie]

/-- C21, amended: for a live zombie that sees the player in this update, and
so chases, `update` recomputes the path with `findPath` at once when the path
is empty, and otherwise when the refresh timer has reached 0.5; a path that is
not empty is kept until then, also when its cursor has reached its end, in
which case the zombie is left where it is. -/
theorem update_recomputes_path (fa : FloatArith) (tr : Trig) (tie : Nat → Nat)
    (wander : Nat → ℚ × ℚ) (z : Zombie) (dt px py : ℚ) (maze : Maze) (others : List Zombie)
    (hl : z.dead = false)
    (hsee : z.canSeePlayer fa (vecLength fa (fa.sub px z.x) (fa.sub py z.y)) px py maze
      = some true) :
    ((z.path = [] ∨ fa.add z.pathUpdateTimer dt ≥ 1 / 2) →
      ∃ z3, Zombie.findPath { (z.tick fa dt).setMode true with pathUpdateTimer := 0 } tie
          (tileOf fa z.x) (tileOf fa z.y) (tileOf fa px) (tileOf fa py) maze = some z3 ∧
        z.update fa tr tie wander dt px py maze others =
          some (z3.followPath fa tr
            (((z.tick fa dt).setMode true).currentSpeed fa
              (vecLength fa (fa.sub px z.x) (fa.sub py z.y))) dt maze others)) ∧
    ((z.path ≠ [] ∧ fa.add z.pathUpdateTimer dt < 1 / 2) →
      ∃ r, z.update fa tr tie wander dt px py maze others = some r ∧ r.path = z.path ∧
        r.pathUpdateTimer = fa.add z.pathUpdateTimer dt ∧
        ((z.path.length : Int) ≤ z.pathIndex → r = (z.tick fa dt).setMode true)) := by
  constructor
  · intro hdue
    obtain ⟨p, i, hf⟩ := findPath_fields { (z.tick fa dt).setMode true with pathUpdateTimer := 0 }
      tie (tileOf fa z.x) (tileOf fa z.y) (tileOf fa px) (tileOf fa py) maze
    refine ⟨_, hf, ?_⟩
    rw [update_of_seen fa tr tie wander z dt px py maze others true hl hsee,
      refreshPath_chasing_due fa tr tie wander _ px py maze rfl
        (by
          rcases hdue with h | h
          · exact Or.inr h
          · exact Or.inl h)]
    have e : Zombie.findPath { (z.tick fa dt).setMode true with pathUpdateTimer := 0 } tie
        (tileOf fa ((z.tick fa dt).setMode true).x) (tileOf fa ((z.tick fa dt).setMode true).y)
        (tileOf fa px) (tileOf fa py) maze = some _ := hf
    rw [e]
  · intro ⟨hpath, htime⟩
    have hu := update_keeps_path fa tr tie wander z dt px py maze others hl hsee hpath htime
    obtain ⟨x, y, a, i, hfp, -⟩ := followPath_fields fa tr ((z.tick fa dt).setMode true)
      (((z.tick fa dt).setMode true).currentSpeed fa
        (vecLength fa (fa.sub px z.x) (fa.sub py z.y))) dt maze others
    refine ⟨_, hu, ?_, ?_, ?_⟩
    · rw [hfp]; rfl
    · rw [hfp]; rfl
    · intro hex
      exact followPath_exhausted fa tr _ _ dt maze others hex

/-- An instance of the amended C21: a zombie without a path at (45, 45) in the
corridor of scenario B, with the player at (45, 105). -/
theorem update_recomputes_path_corridor :
    ((lostZombie.path = [] ∨ exactArith.add lostZombie.pathUpdateTimer (1 / 60) ≥ 1 / 2) →
      ∃ z3, Zombie.findPath
          { (lostZombie.tick exactArith (1 / 60)).setMode true with pathUpdateTimer := 0 }
          (fun _ => 0) (tileOf exactArith lostZombie.x) (tileOf exactArith lostZombie.y)
          (tileOf exactArith 45) (tileOf exactArith 105) corridorMaze = some z3 ∧
        lostZombie.update exactArith flatTrig (fun _ => 0) (fun _ => (0, 50)) (1 / 60) 45 105
            corridorMaze [] =
          some (z3.followPath exactArith flatTrig
            (((lostZombie.tick exactArith (1 / 60)).setMode true).currentSpeed exactArith
              (vecLength exactArith (exactArith.sub 45 lostZombie.x)
                (exactArith.sub 105 lostZombie.y)))
            (1 / 60) corridorMaze [])) ∧
    ((lostZombie.path ≠ [] ∧ exactArith.add lostZombie.pathUpdateTimer (1 / 60) < 1 / 2) →
      ∃ r, lostZombie.update exactArith flatTrig (fun _ => 0) (fun _ => (0, 50)) (1 / 60) 45 105
            corridorMaze [] = some r ∧
        r.path = lostZombie.path ∧
        r.pathUpdateTimer = exactArith.add lostZombie.pathUpdateTimer (1 / 60) ∧
        ((lostZombie.path.length : Int) ≤ lostZombie.pathIndex →
          r = (lostZombie.tick exactArith (1 / 60)).setMode true)) :=
  update_recomputes_path exactArith flatTrig (fun _ => 0) (fun _ => (0, 50))
    lostZombie (1 / 60) 45 105 corridorMaze [] rfl (by
      have hd : vecLength exactArith (exactArith.sub 45 lostZombie.x)
          (exactArith.sub 105 lostZombie.y) = 60 :=
        vecLength_exactArith _ _ 60 (by norm_num)
          (by norm_num [exactArith, lostZombie, idleZombie])
      rw [hd]
      unfold Zombie.canSeePlayer
      rw [if_pos (by norm_num)])

/-- C26: for every tile of the viewer, every direction of the ray, every maze
and every outcome of the comparisons of the side distances (every type of
values with every addition and comparison), the wall search of
`renderFirstPersonView` ends with `hit` set at a tile for which `isWall` holds,
after at most `WIDTH + HEIGHT + 1` grid steps, and after at most
`WIDTH + HEIGHT` grid steps when the tile of the viewer is inside the grid. -/
theorem ddaSearch_terminates {F : Type} (add : F → F → F) (less : F → F → Bool) (maze : Maze)
    (rx ry : Bool) (mapX mapY : Int) (sideDistX sideDistY deltaX deltaY : F) :
    (∃ s, ddaSearch add less maze rx ry mapX mapY sideDistX sideDistY deltaX deltaY
        ((WIDTH + HEIGHT).toNat + 2) = some s ∧
      s.hit = true ∧ maze.isWall s.mapX s.mapY = true) ∧
    (inGrid (mapX, mapY) →
      ∃ s, ddaSearch add less maze rx ry mapX mapY sideDistX sideDistY deltaX deltaY
          ((WIDTH + HEIGHT).toNat + 1) = some s ∧
        s.hit = true ∧ maze.isWall s.mapX s.mapY = true) := by
  have hfuel : ∀ x y, inGrid (x, y) → ddaMeasure rx ry x y < (((WIDTH + HEIGHT).toNat + 1 : Nat) : Int) := by
    intro x y h
    have := (ddaMeasure_inGrid rx ry x y h).2
    simp only [WIDTH, HEIGHT] at this ⊢
    omega
  constructor
  · unfold ddaSearch
    simp only []
    have e : (WIDTH + HEIGHT).toNat + 2 = ((WIDTH + HEIGHT).toNat + 1) + 1 := rfl
    rw [e]
    unfold ddaLoop
    rw [if_pos ⟨rfl, by norm_num⟩]
    simp only []
    have key : ∀ s1 : DdaState F, s1.hit = false →
        ∃ s2, ddaLoop add less maze deltaX deltaY (if rx then 1 else -1) (if ry then 1 else -1)
            0 ((WIDTH + HEIGHT).toNat + 1)
            (if maze.isWall s1.mapX s1.mapY = true then { s1 with hit := true } else s1)
            = some s2 ∧ s2.hit = true ∧ maze.isWall s2.mapX s2.mapY = true := by
      intro s1 h1
      cases hw : maze.isWall s1.mapX s1.mapY
      · simp only [Bool.false_eq_true, if_false]
        exact ddaLoop_hits add less maze deltaX deltaY rx ry 0 (by norm_num) _ s1 h1
          (inGrid_of_notWall maze _ _ hw) (hfuel _ _ (inGrid_of_notWall maze _ _ hw))
      · simp only [if_true]
        rw [ddaLoop_of_hit _ _ _ _ _ _ _ _ _ _ rfl]
        exact ⟨_, rfl, rfl, hw⟩
    cases hl : less sideDistX sideDistY
    · simp only [Bool.false_eq_true, if_false]
      exact key { sideDistX := sideDistX, sideDistY := add sideDistY deltaY, mapX := mapX,
                  mapY := mapY + (if ry then 1 else -1), side := 1, hit := false } rfl
    · simp only [if_true]
      exact key { sideDistX := add sideDistX deltaX, sideDistY := sideDistY,
                  mapX := mapX + (if rx then 1 else -1), mapY := mapY, side := 0,
                  hit := false } rfl
  · intro hin
    unfold ddaSearch
    exact ddaLoop_hits add less maze deltaX deltaY rx ry 0 (by norm_num) _ _ rfl hin
      (hfuel _ _ hin)

/-- C28: for every maze type, every outcome of the random draws of the
generation and every random draw in `getPlayerStart`, the returned position is
the centre of a tile of the maze that is `Empty`, for which `isWall` is false.
(The tile (3, 3) passes the test in every generated maze, so the fallback to
the tile (2, 2) is not taken.) -/
theorem getPlayerStart_not_in_wall (type : MazeType) (rnd : Randomness) (fa : FloatArith)
    (pick : Nat) :
    ∃ m, Maze.construct type rnd = some m ∧
      ∃ x y, m.getPlayerStart fa pick = tileCentre fa x y ∧
        m.tiles y x = TileType.Empty ∧ m.isWall x y = false := by
  obtain ⟨m, hm, h33⟩ := construct_startCandidate type rnd
  refine ⟨m, hm, ?_⟩
  rcases getPlayerStart_cases fa pick m with ⟨hnil, -⟩ | ⟨c, hc, hs, hres⟩
  · have hmem : ((3 : Int), (3 : Int)) ∈
        (scanCells 2 (WIDTH - 3) 2 (HEIGHT - 3)).filter m.startCandidate :=
      List.mem_filter.mpr ⟨(mem_scanCells _ _ _ _ _).mpr (by decide), h33⟩
    rw [hnil] at hmem
    exact absurd hmem (List.not_mem_nil _)
  · have he := ((startCandidate_iff m c).mp hs).1
    rw [mem_scanCells] at hc
    simp only [WIDTH, HEIGHT] at hc
    refine ⟨c.1, c.2, hres, he, ?_⟩
    exact isWall_false_of_tile m c.1 c.2 (by omega) (by omega) (by rw [he]; decide)

/-- C23 (evaluation of the code): `getPlayerStart` measures the distance to the
tile `(WIDTH - 2, HEIGHT - 2)` whatever the maze type is. In every Circular
maze the exit is the tile (16, 12), and for some random draw the returned
position is the centre of the tile (15, 12), at Manhattan distance 1 from the
exit. In every Standard and every Infinite maze the exit is the tile (30, 22),
and for every draw the tile of the returned position is at Manhattan distance
greater than 5 from it. -/
theorem getPlayerStart_exit_distance (rnd : Randomness) :
    (∃ m, Maze.construct MazeType.CIRCULAR rnd = some m ∧ m.isExit 16 12 = true ∧
      ∃ pick, m.getPlayerStart exactArith pick = tileCentre exactArith 15 12 ∧
        tileOf exactArith (m.getPlayerStart exactArith pick).1 = 15 ∧
        tileOf exactArith (m.getPlayerStart exactArith pick).2 = 12) ∧
    (∀ type, type = MazeType.STANDARD ∨ type = MazeType.INFINITE →
      ∃ m, Maze.construct type rnd = some m ∧ m.isExit 30 22 = true ∧
        ∀ pick, |tileOf exactArith (m.getPlayerStart exactArith pick).1 - 30| +
          |tileOf exactArith (m.getPlayerStart exactArith pick).2 - 22| > 5) := by
  constructor
  · refine ⟨_, rfl, ?_, ?_⟩
    · exact (isExit_iff_tile _ 16 12 (by decide) (by decide)
        (generateCircularMaze_exit rnd) 16 12).mpr ⟨rfl, rfl⟩
    · obtain ⟨pick, hp⟩ := getPlayerStart_of_candidate exactArith
        { tiles := generateCircularMaze rnd, mazeType := MazeType.CIRCULAR } (15, 12)
        ((mem_scanCells _ _ _ _ _).mpr (by decide))
        ((startCandidate_iff _ _).mpr
          ⟨generateCircularMaze_empty rnd 15 12 (Or.inr (by omega)), by decide,
            fun h => by cases h⟩)
      refine ⟨pick, hp, ?_, ?_⟩
      · rw [hp]
        exact tileOf_centre exactArith exactArith_exact 15 (by decide)
      · rw [hp]
        exact tileOf_centre exactArith exactArith_exact 12 (by decide)
  · intro type htype
    obtain ⟨t, ht, -, hexit⟩ := generateRandomMaze_cell33 rnd
    have key : ∀ m : Maze, ∀ pick,
        |tileOf exactArith (m.getPlayerStart exactArith pick).1 - 30| +
          |tileOf exactArith (m.getPlayerStart exactArith pick).2 - 22| > 5 := by
      intro m pick
      rcases getPlayerStart_cases exactArith pick m with ⟨-, hres⟩ | ⟨c, hc, hs, hres⟩
      · rw [hres]
        show |tileOf exactArith (exactArith.add (((2 : Int) * TILE_SIZE : Int) : ℚ) 15) - 30| +
          |tileOf exactArith (exactArith.add (((2 : Int) * TILE_SIZE : Int) : ℚ) 15) - 22| > 5
        rw [tileOf_centre exactArith exactArith_exact 2 (by decide)]
        decide
      · rw [hres]
        rw [mem_scanCells] at hc
        show |tileOf exactArith (exactArith.add ((c.1 * TILE_SIZE : Int) : ℚ) 15) - 30| +
          |tileOf exactArith (exactArith.add ((c.2 * TILE_SIZE : Int) : ℚ) 15) - 22| > 5
        rw [tileOf_centre exactArith exactArith_exact c.1 (by omega),
          tileOf_centre exactArith exactArith_exact c.2 (by omega)]
        exact ((startCandidate_iff m c).mp hs).2.1
    have hex : ∀ ty, Maze.isExit { tiles := t, mazeType := ty } 30 22 = true := fun ty =>
      (isExit_iff_tile _ 30 22 (by decide) (by decide) hexit 30 22).mpr ⟨rfl, rfl⟩
    rcases htype with h | h
    · subst h
      exact ⟨{ tiles := t, mazeType := MazeType.STANDARD }, by simp [Maze.construct, ht],
        hex _, key _⟩
    · subst h
      exact ⟨{ tiles := t, mazeType := MazeType.INFINITE },
        by simp [Maze.construct, generateInfiniteMaze, ht], hex _, key _⟩

/-- C30 (evaluation of the code): `getExitPos` returns the centre of the tile
`(WIDTH - 2, HEIGHT - 2)` whatever the maze type is. In every Standard and every
Infinite maze `isExit` holds for the tile `(floor(x / 30), floor(y / 30))` of
that position; in every Circular maze it does not: the exit is the tile (16, 12). -/
theorem getExitPos_tile (rnd : Randomness) :
    (∃ m, Maze.construct MazeType.CIRCULAR rnd = some m ∧ m.isExit 16 12 = true ∧
      m.isExit ⌊(m.getExitPos exactArith).1 / 30⌋ ⌊(m.getExitPos exactArith).2 / 30⌋ = false) ∧
    (∀ type, type = MazeType.STANDARD ∨ type = MazeType.INFINITE →
      ∃ m, Maze.construct type rnd = some m ∧
        m.isExit ⌊(m.getExitPos exactArith).1 / 30⌋ ⌊(m.getExitPos exactArith).2 / 30⌋ = true) := by
  have hx : ∀ m : Maze, ⌊(m.getExitPos exactArith).1 / 30⌋ = 30 := fun m => floor_centre 30
  have hy : ∀ m : Maze, ⌊(m.getExitPos exactArith).2 / 30⌋ = 22 := fun m => floor_centre 22
  constructor
  · refine ⟨_, rfl, ?_, ?_⟩
    · exact (isExit_iff_tile _ 16 12 (by decide) (by decide)
        (generateCircularMaze_exit rnd) 16 12).mpr ⟨rfl, rfl⟩
    · rw [hx, hy]
      have h := isExit_iff_tile { tiles := generateCircularMaze rnd, mazeType := MazeType.CIRCULAR }
        16 12 (by decide) (by decide) (generateCircularMaze_exit rnd) 30 22
      cases hc : Maze.isExit
        { tiles := generateCircularMaze rnd, mazeType := MazeType.CIRCULAR } 30 22
      · rfl
      · have := h.mp hc
        omega
  · intro type htype
    obtain ⟨t, ht, -, hexit⟩ := generateRandomMaze_cell33 rnd
    have hex : ∀ ty, Maze.isExit { tiles := t, mazeType := ty } 30 22 = true := fun ty =>
      (isExit_iff_tile _ 30 22 (by decide) (by decide) hexit 30 22).mpr ⟨rfl, rfl⟩
    rcases htype with h | h
    · subst h
      exact ⟨{ tiles := t, mazeType := MazeType.STANDARD }, by simp [Maze.construct, ht],
        by rw [hx, hy]; exact hex _⟩
    · subst h
      exact ⟨{ tiles := t, mazeType := MazeType.INFINITE },
        by simp [Maze.construct, generateInfiniteMaze, ht], by rw [hx, hy]; exact hex _⟩

/-- C24: for every tile grid, random draw, player position and list of
existing zombies whose tiles are within 30000 tiles of the grid (the `int`
products do not overflow), and a square root that exceeds 8 exactly on the
integers above 64, `getSpawnPositionAwayFromZombies` returns the centre of an
`Empty` tile of the rows 2 to `HEIGHT - 3` and the columns 2 to `WIDTH - 3` that
is more than 10 tiles from the tile of the player and more than 8 tiles from
the tile of every existing zombie, when there is one; otherwise the centre of
such an `Empty` tile more than 8 tiles from the tile of the player, when there
is one; and otherwise the centre of the tile (5, 5). -/
theorem getSpawnPosition_spec (fa : FloatArith)
    (hsqrt : ∀ n : Int, 0 ≤ n → (8 < fa.sqrt n ↔ 64 < n)) (pick : Nat) (m : Maze)
    (zs : List (ℚ × ℚ)) (p : ℚ × ℚ)
    (hp : |tileOf fa p.1| ≤ 30000 ∧ |tileOf fa p.2| ≤ 30000)
    (hz : ∀ z ∈ zs, |tileOf fa z.1| ≤ 30000 ∧ |tileOf fa z.2| ≤ 30000) :
    ((∃ c, IdealSpawn fa m zs p c) →
      ∃ c, IdealSpawn fa m zs p c ∧
        m.getSpawnPositionAwayFromZombies fa pick zs p = tileCentre fa c.1 c.2) ∧
    ((¬ ∃ c, IdealSpawn fa m zs p c) → (∃ c, RelaxedSpawn fa m p c) →
      ∃ c, RelaxedSpawn fa m p c ∧
        m.getSpawnPositionAwayFromZombies fa pick zs p = tileCentre fa c.1 c.2) ∧
    ((¬ ∃ c, IdealSpawn fa m zs p c) → (¬ ∃ c, RelaxedSpawn fa m p c) →
      m.getSpawnPositionAwayFromZombies fa pick zs p = tileCentre fa 5 5) := by
  have hideal : (scanCells 2 (WIDTH - 2) 2 (HEIGHT - 2)).filter
      (m.idealSpawn fa zs (tileOf fa p.1) (tileOf fa p.2)) = [] ↔
      ¬ ∃ c, IdealSpawn fa m zs p c := by
    rw [filter_eq_nil_iff_none]
    simp only [idealSpawn_iff fa hsqrt m zs p hp hz]
  have hrelaxed : (scanCells 2 (WIDTH - 2) 2 (HEIGHT - 2)).filter
      (m.relaxedSpawn (tileOf fa p.1) (tileOf fa p.2)) = [] ↔
      ¬ ∃ c, RelaxedSpawn fa m p c := by
    rw [filter_eq_nil_iff_none]
    simp only [relaxedSpawn_iff fa m p hp]
  refine ⟨?_, ?_, ?_⟩
  · intro hex
    obtain ⟨c, hc, hres⟩ := getSpawn_ideal fa pick m zs p (fun h => hideal.mp h hex)
    exact ⟨c, (idealSpawn_iff fa hsqrt m zs p hp hz c).mp hc, hres⟩
  · intro hno hex
    obtain ⟨c, hc, hres⟩ := getSpawn_relaxed fa pick m zs p (hideal.mpr hno)
      (fun h => hrelaxed.mp h hex)
    exact ⟨c, (relaxedSpawn_iff fa m p hp c).mp hc, hres⟩
  · intro hno hno2
    exact getSpawn_fallback fa pick m zs p (hideal.mpr hno) (hrelaxed.mpr hno2)

/-- An instance of C24: the grid whose only wall is the tile (3, 3), the player
at (45, 45) and one zombie at (465, 345), with the square root rounded down to
24 binary places. -/
theorem getSpawnPosition_spec_pillar :
    ((∃ c, IdealSpawn fineArith (pillarMaze 3 3) [(465, 345)] (45, 45) c) →
      ∃ c, IdealSpawn fineArith (pillarMaze 3 3) [(465, 345)] (45, 45) c ∧
        (pillarMaze 3 3).getSpawnPositionAwayFromZombies fineArith 0 [(465, 345)] (45, 45) =
          tileCentre fineArith c.1 c.2) ∧
    ((¬ ∃ c, IdealSpawn fineArith (pillarMaze 3 3) [(465, 345)] (45, 45) c) →
      (∃ c, RelaxedSpawn fineArith (pillarMaze 3 3) (45, 45) c) →
      ∃ c, RelaxedSpawn fineArith (pillarMaze 3 3) (45, 45) c ∧
        (pillarMaze 3 3).getSpawnPositionAwayFromZombies fineArith 0 [(465, 345)] (45, 45) =
          tileCentre fineArith c.1 c.2) ∧
    ((¬ ∃ c, IdealSpawn fineArith (pillarMaze 3 3) [(465, 345)] (45, 45) c) →
      (¬ ∃ c, RelaxedSpawn fineArith (pillarMaze 3 3) (45, 45) c) →
      (pillarMaze 3 3).getSpawnPositionAwayFromZombies fineArith 0 [(465, 345)] (45, 45) =
        tileCentre fineArith 5 5) := by
  have t45 : tileOf fineArith 45 = 1 :=
    toInt_eq _ 1 (by norm_num [fineArith]) (by norm_num [fineArith]) (by norm_num [fineArith])
  have t465 : tileOf fineArith 465 = 15 :=
    toInt_eq _ 15 (by norm_num [fineArith]) (by norm_num [fineArith]) (by norm_num [fineArith])
  have t345 : tileOf fineArith 345 = 11 :=
    toInt_eq _ 11 (by norm_num [fineArith]) (by norm_num [fineArith]) (by norm_num [fineArith])
  exact getSpawnPosition_spec fineArith fineSqrt_gt_eight 0 (pillarMaze 3 3) [(465, 345)] (45, 45)
    (by
      show |tileOf fineArith 45| ≤ 30000 ∧ |tileOf fineArith 45| ≤ 30000
      rw [t45]; decide)
    (by
      intro z hzm
      rw [List.mem_singleton] at hzm
      subst hzm
      show |tileOf fineArith 465| ≤ 30000 ∧ |tileOf fineArith 345| ≤ 30000
      rw [t465, t345]; decide)

end ZombieShooter
